import Mathlib

/-!
Verification of the clixon key-value datastore backend
(`src/datastore/keyvalue/clixon_keyvalue.c`).

The backend maps an XML configuration tree onto a flat key-value store and
back.  C strings (char arrays) are modelled as `List Char`.  The underlying
sorted key-value storage engine (clixon_qdb: `db_set`, `db_del`, `db_exists`,
`db_regexp`) and the XML / YANG helper primitives (`xml_find`, `xml_body`,
`xpath_first`, `yang_find_datanode`, ...) are external collaborators of this
file; they are modelled here following the interface description in the
specification and the way `clixon_keyvalue.c` invokes them.
-/

namespace KV

/-- C strings (char arrays) are modelled as lists of characters. -/
abbrev CStr := List Char

/-- Turn a Lean string literal into the `CStr` model. -/
def cs (s : String) : CStr := s.data

/-- The xmldb operation type (`enum operation_type`): CREATE, MERGE, REPLACE,
DELETE, REMOVE, NONE. -/
inductive Op where
  | create
  | merge
  | replace
  | delete
  | remove
  | none_
  deriving DecidableEq, Repr

/-- Error outcomes surfaced through `clicon_err` in `clixon_keyvalue.c`,
classified by the condition that raised them. -/
inductive Err where
  | existenceConflict (k : CStr)
  | schemaLookup (n : CStr)
  | keyFormat (k : CStr)
  | noListKey
  | missingKeyChild (n : CStr)
  | unknownDb (db : CStr)
  | dirNotSet
  | noYangSpec
  deriving DecidableEq, Repr

/-- The kind of a YANG schema node: container, keyed list (with its declared
ordered key-field names, from the `Y_KEY` statement), leaf, or leaf-list. -/
inductive YKind where
  | ycontainer
  | ylist (keys : List CStr)
  | yleaf
  | yleaflist
  deriving DecidableEq, Repr

/-- A YANG schema node (`yang_stmt`): a name, a kind and data-node children. -/
inductive YNode where
  | mk (name : CStr) (kind : YKind) (children : List YNode)

/-- A YANG spec (`yang_spec`): the list of top-level data nodes. -/
abbrev YSpec := List YNode

def YNode.name : YNode → CStr
  | .mk n _ _ => n

def YNode.kind : YNode → YKind
  | .mk _ k _ => k

def YNode.children : YNode → List YNode
  | .mk _ _ c => c

/-- An XML tree node (`cxobj`, kind `CX_ELMNT`): a name, an optional body
(the text of an attached `CX_BODY` child), an optional `operation` attribute
(already parsed by `xml_operation`), and the element children in document
order. -/
inductive XNode where
  | mk (name : CStr) (body : Option CStr) (opAttr : Option Op) (children : List XNode)

def XNode.name : XNode → CStr
  | .mk n _ _ _ => n

def XNode.body : XNode → Option CStr
  | .mk _ b _ _ => b

def XNode.opAttr : XNode → Option Op
  | .mk _ _ o _ => o

def XNode.children : XNode → List XNode
  | .mk _ _ _ c => c

/-- Replace the element children of a node. -/
def XNode.setChildren (x : XNode) (cls : List XNode) : XNode :=
  match x with
  | .mk n b o _ => .mk n b o cls

/-- Attach a body to a node (`xml_new` of a `CX_BODY` child plus
`xml_value_set`). -/
def XNode.setBody (x : XNode) (v : CStr) : XNode :=
  match x with
  | .mk n _ o c => .mk n (some v) o c

/-- `xml_body`: the node's body text, NULL when it has none. -/
def xml_body (x : XNode) : Option CStr := x.body

/-- `xml_find`: the first child with the given name. -/
def xml_find (x : XNode) (n : CStr) : Option XNode :=
  x.children.find? (fun c => c.name == n)

/-! ## Percent codec

`uri_percent_encode` / `uri_percent_decode` (clixon lib): RFC 3986 percent
escaping.  Unreserved characters pass through; every other character becomes
`%` followed by two hex digits. -/

def isUnreservedChar (c : Char) : Bool :=
  c.isAlphanum || c = '-' || c = '.' || c = '_' || c = '~'

def hexDigitChar (n : Nat) : Char :=
  if n < 10 then Char.ofNat (48 + n) else Char.ofNat (55 + n)

def pctEncodeChar (c : Char) : CStr :=
  if isUnreservedChar c then [c]
  else ['%', hexDigitChar (c.toNat / 16), hexDigitChar (c.toNat % 16)]

def pctEncode (s : CStr) : CStr := s.flatMap pctEncodeChar

def hexCharVal (c : Char) : Nat :=
  if 48 ≤ c.toNat ∧ c.toNat ≤ 57 then c.toNat - 48
  else if 65 ≤ c.toNat ∧ c.toNat ≤ 70 then c.toNat - 55
  else if 97 ≤ c.toNat ∧ c.toNat ≤ 102 then c.toNat - 87
  else 0

def pctDecode : CStr → CStr
  | [] => []
  | c :: rest =>
      if c = '%' then
        match rest with
        | a :: b :: rest2 => Char.ofNat (16 * hexCharVal a + hexCharVal b) :: pctDecode rest2
        | [a] => [c, a]
        | [] => [c]
      else c :: pctDecode rest

/-- What glibc prints for a NULL `%s` argument; `put` reaches this only on
a list-key or leaf-list node whose body is NULL. -/
def nullStr : CStr := cs "(null)"

/-- A character safe for key-field values: single byte, so a `%XX` escape can
represent it. -/
def valueCharOk (c : Char) : Bool := c.toNat < 256

/-- A key-field or leaf-list value the codec can round-trip. -/
def valueOk (v : CStr) : Bool := v.all valueCharOk

/-- A character that cannot be confused with canonical-key structure. -/
def keyCharOk (c : Char) : Bool := !(c == '/') && !(c == '=') && !(c == ',')

/-! ### Codec round trip -/

theorem char_toNat_ofNat_of_lt (n : Nat) (h : n < 55296) : (Char.ofNat n).toNat = n := by
  unfold Char.ofNat
  rw [dif_pos (by constructor; omega)]
  rfl

theorem hexval_digit (n : Nat) (h : n < 16) : hexCharVal (hexDigitChar n) = n := by
  unfold hexDigitChar hexCharVal
  by_cases h10 : n < 10
  · rw [if_pos h10]
    rw [char_toNat_ofNat_of_lt (48 + n) (by omega)]
    rw [if_pos (by omega)]
    omega
  · rw [if_neg h10]
    rw [char_toNat_ofNat_of_lt (55 + n) (by omega)]
    rw [if_neg (by omega), if_pos (by omega)]
    omega

theorem hexDigitChar_toNat (n : Nat) (h : n < 16) :
    (n < 10 ∧ (hexDigitChar n).toNat = 48 + n) ∨
    (10 ≤ n ∧ (hexDigitChar n).toNat = 55 + n) := by
  unfold hexDigitChar
  by_cases h10 : n < 10
  · exact Or.inl ⟨h10, by rw [if_pos h10, char_toNat_ofNat_of_lt (48 + n) (by omega)]⟩
  · exact Or.inr ⟨by omega, by rw [if_neg h10, char_toNat_ofNat_of_lt (55 + n) (by omega)]⟩

theorem hexDigitChar_keyCharOk (n : Nat) (h : n < 16) : keyCharOk (hexDigitChar n) = true := by
  have hv := hexDigitChar_toNat n h
  simp only [keyCharOk, Bool.and_eq_true, Bool.not_eq_true']
  refine ⟨⟨?_, ?_⟩, ?_⟩ <;> rw [beq_eq_false_iff_ne]
  · intro he
    have h2 : (hexDigitChar n).toNat = 47 := by rw [he]; rfl
    rcases hv with ⟨hb, hv⟩ | ⟨hb, hv⟩ <;> omega
  · intro he
    have h2 : (hexDigitChar n).toNat = 61 := by rw [he]; rfl
    rcases hv with ⟨hb, hv⟩ | ⟨hb, hv⟩ <;> omega
  · intro he
    have h2 : (hexDigitChar n).toNat = 44 := by rw [he]; rfl
    rcases hv with ⟨hb, hv⟩ | ⟨hb, hv⟩ <;> omega

theorem unreserved_ne_pct (c : Char) (h : isUnreservedChar c = true) : c ≠ '%' := by
  intro he
  subst he
  exact absurd h (by decide)

theorem unreserved_keyCharOk (c : Char) (h : isUnreservedChar c = true) :
    keyCharOk c = true := by
  simp only [keyCharOk, Bool.and_eq_true, Bool.not_eq_true']
  refine ⟨⟨?_, ?_⟩, ?_⟩ <;> rw [beq_eq_false_iff_ne]
  · intro he
    subst he
    exact absurd h (by decide)
  · intro he
    subst he
    exact absurd h (by decide)
  · intro he
    subst he
    exact absurd h (by decide)

theorem pctEncode_keyCharOk (v : CStr) (hv : valueOk v = true) :
    ∀ d ∈ pctEncode v, keyCharOk d = true := by
  intro d hd
  simp only [pctEncode, List.mem_flatMap] at hd
  obtain ⟨c, hcv, hd⟩ := hd
  have hb : c.toNat < 256 := by
    have := (List.all_eq_true.mp hv) c hcv
    simpa [valueCharOk] using this
  unfold pctEncodeChar at hd
  by_cases hu : isUnreservedChar c = true
  · rw [if_pos hu] at hd
    rw [List.mem_singleton] at hd
    subst hd
    exact unreserved_keyCharOk _ hu
  · rw [if_neg hu] at hd
    simp only [List.mem_cons, List.not_mem_nil, or_false] at hd
    rcases hd with hd | hd | hd
    · subst hd
      rfl
    · subst hd
      exact hexDigitChar_keyCharOk _ (by omega)
    · subst hd
      exact hexDigitChar_keyCharOk _ (by omega)

theorem pctDecode_encode_cons (c : Char) (r : CStr) (h : valueCharOk c = true) :
    pctDecode (pctEncodeChar c ++ r) = c :: pctDecode r := by
  unfold pctEncodeChar
  by_cases hu : isUnreservedChar c = true
  · rw [if_pos hu]
    show pctDecode (c :: r) = c :: pctDecode r
    rw [pctDecode.eq_def]
    simp only []
    rw [if_neg (unreserved_ne_pct c hu)]
  · rw [if_neg hu]
    show pctDecode ('%' :: hexDigitChar (c.toNat / 16) :: hexDigitChar (c.toNat % 16) :: r)
        = c :: pctDecode r
    rw [pctDecode.eq_def]
    simp only []
    rw [if_pos trivial]
    simp only [valueCharOk, decide_eq_true_eq] at h
    rw [hexval_digit _ (by omega), hexval_digit _ (Nat.mod_lt _ (by omega))]
    rw [Nat.div_add_mod]
    rw [Char.ofNat_toNat]

theorem pctDecode_encode (v : CStr) (h : valueOk v = true) :
    pctDecode (pctEncode v) = v := by
  induction v with
  | nil => rfl
  | cons c r ih =>
      simp only [valueOk, List.all_cons, Bool.and_eq_true] at h
      show pctDecode (pctEncodeChar c ++ pctEncode r) = c :: r
      rw [pctDecode_encode_cons c _ h.1, ih h.2]

/-! ## The key-value store

Modelled from the spec: the storage engine (clixon_qdb) is an external
collaborator "assumed to already exist -- create/delete a store, set/get/delete
a single key, enumerate keys by pattern".  A store is an association list of
(canonical key, optional body value) entries; `db_set` on an existing key
overwrites its value, otherwise the entry is appended. -/

abbrev Store := List (CStr × Option CStr)

def db_exists (s : Store) (k : CStr) : Bool :=
  s.any (fun e => e.1 == k)

def db_set (s : Store) (k : CStr) (v : Option CStr) : Store :=
  if db_exists s k then s.map (fun e => if e.1 == k then (k, v) else e)
  else s ++ [(k, v)]

def db_del (s : Store) (k : CStr) : Store :=
  s.filter (fun e => !(e.1 == k))

/-- Modelled from the spec: `db_regexp` with the anchored pattern `^xk.*$`
built by `put` is "an anchored pattern scan", i.e. it enumerates exactly the
entries whose key has `xk` as a prefix; with the empty pattern (used by
`kv_get`) it enumerates the whole store. -/
def db_regexp_scan (s : Store) (p : CStr) : List (CStr × Option CStr) :=
  s.filter (fun e => p.isPrefixOf e.1)

/-! ## Handle and database file resolver -/

/-- `struct kv_handle`: directory of database files and the yang spec
(the magic tag is a runtime validity check outside this model). -/
structure KvHandle where
  dbdir : Option CStr
  yangspec : Option YSpec

/-- The fixed database-name whitelist of `kv_db2file`. -/
def validDb (db : CStr) : Bool :=
  db == cs "running" || db == cs "candidate" || db == cs "startup" || db == cs "tmp"

/-- `kv_db2file`: translate a symbolic database name to a filename.
The directory is checked before the whitelist, and the result is
`<dir>/<db>_db`. -/
def kv_db2file (kh : KvHandle) (db : CStr) : Except Err CStr :=
  match kh.dbdir with
  | none => .error .dirNotSet
  | some dir =>
      if validDb db then .ok (dir ++ ('/' :: db) ++ cs "_db")
      else .error (.unknownDb db)

/-! ## Lock registry

`_running_locked`, `_candidate_locked`, `_startup_locked`: process-wide
session-id per lockable database (0 = unlocked). -/

structure Locks where
  running : Int
  candidate : Int
  startup : Int
  deriving DecidableEq, Repr

/-- `kv_lock`: unconditionally record `pid` as owner of the named database,
failing on any name outside running/candidate/startup. -/
def kv_lock (l : Locks) (db : CStr) (pid : Int) : Except Err Locks :=
  if db == cs "running" then .ok { l with running := pid }
  else if db == cs "candidate" then .ok { l with candidate := pid }
  else if db == cs "startup" then .ok { l with startup := pid }
  else .error (.unknownDb db)

/-- `kv_unlock`: unconditionally clear the named database's owner, failing on
any name outside running/candidate/startup. -/
def kv_unlock (l : Locks) (db : CStr) : Except Err Locks :=
  if db == cs "running" then .ok { l with running := 0 }
  else if db == cs "candidate" then .ok { l with candidate := 0 }
  else if db == cs "startup" then .ok { l with startup := 0 }
  else .error (.unknownDb db)

/-- `kv_unlock_all`: clear every lock owned by `pid`. -/
def kv_unlock_all (l : Locks) (pid : Int) : Locks :=
  { running := if l.running = pid then 0 else l.running
    candidate := if l.candidate = pid then 0 else l.candidate
    startup := if l.startup = pid then 0 else l.startup }

/-- `kv_islocked`: owner of the named database (0 = unlocked), failing on any
name outside running/candidate/startup. -/
def kv_islocked (l : Locks) (db : CStr) : Except Err Int :=
  if db == cs "running" then .ok l.running
  else if db == cs "candidate" then .ok l.candidate
  else if db == cs "startup" then .ok l.startup
  else .error (.unknownDb db)

/-! ## Write engine -/

/-- `yang_find_datanode`: first schema data-node child with the given name. -/
def yang_find_datanode (y : YNode) (n : CStr) : Option YNode :=
  y.children.find? (fun c => c.name == n)

/-- `yang_find_topnode`: first top-level schema data node with the given
name. -/
def yang_find_topnode (ys : YSpec) (n : CStr) : Option YNode :=
  ys.find? (fun c => c.name == n)

/-- `append_listkeys`: the key suffix of a list node, `=v1,v2,...` with each
declared key field's child body percent-encoded, in declared key order;
errors if the list node lacks a key child. -/
def append_listkeys (keys : List CStr) (x : XNode) (first : Bool) : Except Err CStr :=
  match keys with
  | [] => .ok []
  | k :: ks =>
      match xml_find x k with
      | none => .error (.missingKeyChild k)
      | some xkey =>
          match append_listkeys ks x false with
          | .error e => .error e
          | .ok rest =>
              .ok (((if first then ['='] else [',']) ++
                    pctEncode ((xml_body xkey).getD nullStr)) ++ rest)

mutual

/-- `put` (recursive write step): an `operation` attribute overrides the
ambient operation; the node's canonical key is `xk0/<name><suffix>`;
`CREATE` requires absence then falls through to `db_set` like
`MERGE`/`REPLACE`; `DELETE` requires presence then falls through to `REMOVE`,
which for a list or container deletes every entry matching the anchored
pattern `^xk.*$` and skips the children, and otherwise deletes the single
key; then recursion into every element child. -/
def put (s : Store) (x : XNode) (y : YNode) (op0 : Op) (xk0 : CStr) : Except Err Store :=
  match x with
  | .mk nm bd opA cls =>
      let op := opA.getD op0
      let sufE : Except Err CStr :=
        match y.kind with
        | .ylist keys => append_listkeys keys (XNode.mk nm bd opA cls) true
        | .yleaflist => .ok ('=' :: pctEncode (bd.getD nullStr))
        | _ => .ok []
      match sufE with
      | .error e => .error e
      | .ok suffix =>
          let xk : CStr := xk0 ++ ('/' :: nm) ++ suffix
          match op with
          | .create =>
              if db_exists s xk then .error (.existenceConflict xk)
              else putChildren (db_set s xk bd) cls y op xk
          | .merge => putChildren (db_set s xk bd) cls y op xk
          | .replace => putChildren (db_set s xk bd) cls y op xk
          | .delete =>
              if db_exists s xk then
                match y.kind with
                | .ylist _ =>
                    .ok ((db_regexp_scan s xk).foldl (fun ac p => db_del ac p.1) s)
                | .ycontainer =>
                    .ok ((db_regexp_scan s xk).foldl (fun ac p => db_del ac p.1) s)
                | _ => putChildren (db_del s xk) cls y op xk
              else .error (.existenceConflict xk)
          | .remove =>
              match y.kind with
              | .ylist _ =>
                  .ok ((db_regexp_scan s xk).foldl (fun ac p => db_del ac p.1) s)
              | .ycontainer =>
                  .ok ((db_regexp_scan s xk).foldl (fun ac p => db_del ac p.1) s)
              | _ => putChildren (db_del s xk) cls y op xk
          | .none_ => putChildren s cls y op xk
termination_by sizeOf x

/-- The child loop of `put`: resolve each element child's schema data node by
name (error if there is none) and recurse with this node's canonical key as
the new prefix. -/
def putChildren (s : Store) (xs : List XNode) (y : YNode) (op : Op) (xk : CStr) :
    Except Err Store :=
  match xs with
  | [] => .ok s
  | c :: rest =>
      match yang_find_datanode y c.name with
      | none => .error (.schemaLookup c.name)
      | some yc =>
          match put s c yc op xk with
          | .error e => .error e
          | .ok s2 => putChildren s2 rest y op xk
termination_by sizeOf xs

end

/-- The top-level child loop of `kv_put`: resolve each top-level child by
`yang_find_topnode` and apply `put` with the empty key prefix. -/
def putTops (s : Store) (xs : List XNode) (ys : YSpec) (op : Op) : Except Err Store :=
  match xs with
  | [] => .ok s
  | c :: rest =>
      match yang_find_topnode ys c.name with
      | none => .error (.schemaLookup c.name)
      | some y =>
          match put s c y op [] with
          | .error e => .error e
          | .ok s2 => putTops s2 rest ys op

/-- `kv_put`: require a yang spec, resolve the database, wipe the store
(`db_delete` + `db_init`, i.e. the empty store) when the operation is
REPLACE, then apply `put` to every top-level child of the input tree. -/
def kv_put (kh : KvHandle) (db : CStr) (op : Op) (xt : XNode) (s : Store) :
    Except Err Store :=
  match kh.yangspec with
  | none => .error .noYangSpec
  | some ys =>
      match kv_db2file kh db with
      | .error e => .error e
      | .ok _ => putTops (if op = .replace then [] else s) xt.children ys op

/-! ## Read engine -/

/-- `clicon_strsep`: split on a separator character; a leading separator
yields an empty first element. -/
def strsep (sep : Char) : CStr → List CStr
  | [] => [[]]
  | c :: rest =>
      if c = sep then [] :: strsep sep rest
      else
        match strsep sep rest with
        | h :: t => (c :: h) :: t
        | [] => [[c]]

/-- `index(name, '=')` as used by `get`: split a key segment at its first
`=`, if any. -/
def splitEq : CStr → CStr × Option CStr
  | [] => ([], none)
  | c :: rest =>
      if c = '=' then ([], some rest)
      else
        let p := splitEq rest
        (c :: p.1, p.2)

/-- Modelled from the spec: the xpath `name[k1='v1'][k2='v2']` built by `get`
selects a child element named `name` such that for each declared key field a
child with that key name carries the decoded key value as its body
(`xpath_first` itself is an out-of-scope collaborator). -/
def xpathKeyMatch (name : CStr) (kvs : List (CStr × CStr)) (c : XNode) : Bool :=
  c.name == name &&
    kvs.all (fun kv => c.children.any (fun ch => ch.name == kv.1 && ch.body == some kv.2))

/-- What one segment of `get`'s decoding loop does before descending. -/
inductive SegAction where
  | err (e : Err)
  | skip
  | descend (tgt : Option Nat) (start : XNode)

/-- The per-segment branch of `get`'s loop, by schema-node kind:
leaf-list looks up an existing instance (the inner lookup searches the
instance's children by the decoded value, which never matches a body, so a
fresh node is created; the C code also passes the `uri_percent_decode`
arguments swapped at this call site, modelled as the intended decode of the
trailing value); list validates the comma-separated key values against the
declared key count (mismatch = skip) and selects the instance by xpath or
creates it with its key children (`create_keyvalues`); leaf/container
find-or-create a child by name.  `tgt = some i` descends into existing child
`i`; `tgt = none` appends a freshly created child. -/
def segAction (x : XNode) (y : YNode) (name : CStr) (restval : Option CStr) : SegAction :=
  match y.kind with
  | .yleaflist =>
      let argdec := pctDecode (restval.getD [])
      match x.children.findIdx? (fun c => c.name == name) with
      | some i =>
          let xc0 := x.children.getD i (XNode.mk name none none [])
          if (xml_find xc0 argdec).isSome then .descend (some i) xc0
          else .descend none (XNode.mk name none none [])
      | none => .descend none (XNode.mk name none none [])
  | .ylist keys =>
      if keys.isEmpty then .err .noListKey
      else
        let valvec := strsep ',' (restval.getD [])
        if keys.length ≠ valvec.length then .skip
        else
          let kvs := keys.zip (valvec.map pctDecode)
          match x.children.findIdx? (xpathKeyMatch name kvs) with
          | some i => .descend (some i) (x.children.getD i (XNode.mk name none none []))
          | none =>
              .descend none
                (XNode.mk name none none (kvs.map (fun kv => XNode.mk kv.1 (some kv.2) none [])))
  | _ =>
      match x.children.findIdx? (fun c => c.name == name) with
      | some i => .descend (some i) (x.children.getD i (XNode.mk name none none []))
      | none => .descend none (XNode.mk name none none [])

/-- The schema lookup for one key segment: `yang_find_topnode` for the first
segment (`i == 1` in the C loop), `yang_find_datanode` of the current schema
node afterwards. -/
def ylookup (ys : YSpec) (yctx : Option YNode) (n : CStr) : Option YNode :=
  match yctx with
  | none => yang_find_topnode ys n
  | some y => yang_find_datanode y n

/-- The decoding loop of `get` over the remaining key segments: resolve the
schema node of each segment (top-level lookup for the first segment, error if
resolution fails), take the per-segment action, and after the last segment
attach the stored value as body if the target node has none.  The returned
flag is `false` when the key was skipped by list-key-count validation; the
returned tree keeps every node created before the skip. -/
def getSegs (ys : YSpec) : Option YNode → List CStr → Option CStr → XNode →
    Except Err (XNode × Bool)
  | _, [], val, x =>
      match val with
      | some v => if x.body = none then .ok (x.setBody v, true)
                  else .ok (x, true)
      | none => .ok (x, true)
  | yctx, seg :: rest, val, x =>
      match ylookup ys yctx (splitEq seg).1 with
      | none => .error (.schemaLookup (splitEq seg).1)
      | some y =>
          match segAction x y (splitEq seg).1 (splitEq seg).2 with
          | .err e => .error e
          | .skip => .ok (x, false)
          | .descend tgt start =>
              match getSegs ys (some y) rest val start with
              | .error e => .error e
              | .ok (xc2, dn) =>
                  match tgt with
                  | some i => .ok (x.setChildren (x.children.set i xc2), dn)
                  | none => .ok (x.setChildren (x.children ++ [xc2]), dn)

/-- `get`: decode one stored (key, value) pair into the tree.  The key must
begin with `/` and have at least one segment; the segments after the leading
`/` drive the decoding loop. -/
def get (ys : YSpec) (xk : CStr) (val : Option CStr) (xt : XNode) : Except Err XNode :=
  match xk with
  | '/' :: _ =>
      if (strsep '/' xk).length < 2 then .error (.keyFormat xk)
      else
        match getSegs ys none (strsep '/' xk).tail val xt with
        | .error e => .error e
        | .ok p => .ok p.1
  | _ => .error (.keyFormat xk)

/-- The reconstruction loop of `kv_get`: replay every stored pair (as
enumerated by the match-all `db_regexp` scan) into one tree; a decode error
aborts the whole read. -/
def getAll (ys : YSpec) (s : Store) (xt : XNode) : Except Err XNode :=
  match s with
  | [] => .ok xt
  | e :: rest =>
      match get ys e.1 e.2 xt with
      | .error err => .error err
      | .ok xt2 => getAll ys rest xt2

/-- The empty root the reconstruction starts from (`xml_new_spec("config")`). -/
def configRoot : XNode := XNode.mk (cs "config") none none []

/-- `kv_get` with the unrestricted query path `/`: resolve the database,
require a yang spec, and replay the full store dump into a tree.  With query
path `/` the root is in the xpath match set, so the mark-and-prune filter
retains the whole tree; the subsequent default-injection, YANG reordering and
sanity passes are out-of-scope collaborators (`xml_default`, `xml_order`,
`xml_sanity`) applied after this reconstruction. -/
def kv_get (kh : KvHandle) (db : CStr) (s : Store) : Except Err XNode :=
  match kv_db2file kh db with
  | .error e => .error e
  | .ok _ =>
      match kh.yangspec with
      | none => .error .noYangSpec
      | some ys => getAll ys s configRoot

/-! ## Derived forms used by the statements -/

/-- The canonical key `put` computes for a node: the aggregated prefix, a
slash, the node name, and the kind-dependent suffix. -/
def nodeKey (x : XNode) (y : YNode) (xk0 : CStr) : Except Err CStr :=
  match y.kind with
  | .ylist keys =>
      match append_listkeys keys x true with
      | .error e => .error e
      | .ok suf => .ok (xk0 ++ ('/' :: x.name) ++ suf)
  | .yleaflist => .ok (xk0 ++ ('/' :: x.name) ++ ('=' :: pctEncode ((x.body).getD nullStr)))
  | _ => .ok (xk0 ++ ('/' :: x.name))

mutual

/-- No node of the tree carries an explicit `operation` attribute. -/
def noOpOverride (x : XNode) : Bool :=
  match x with
  | .mk _ _ opA cls => opA.isNone && noOpOverrideList cls
termination_by sizeOf x

/-- No node of any tree in the list carries an `operation` attribute. -/
def noOpOverrideList (xs : List XNode) : Bool :=
  match xs with
  | [] => true
  | c :: rest => noOpOverride c && noOpOverrideList rest
termination_by sizeOf xs

end

/-! ## Unfolding equations for the well-founded recursions -/

theorem put_unfold (s : Store) (nm : CStr) (bd : Option CStr) (opA : Option Op)
    (cls : List XNode) (y : YNode) (op0 : Op) (xk0 : CStr) :
    put s (.mk nm bd opA cls) y op0 xk0 =
      match nodeKey (.mk nm bd opA cls) y xk0 with
      | .error e => .error e
      | .ok xk =>
          match opA.getD op0 with
          | .create =>
              if db_exists s xk then .error (.existenceConflict xk)
              else putChildren (db_set s xk bd) cls y .create xk
          | .merge => putChildren (db_set s xk bd) cls y .merge xk
          | .replace => putChildren (db_set s xk bd) cls y .replace xk
          | .delete =>
              if db_exists s xk then
                match y.kind with
                | .ylist _ =>
                    .ok ((db_regexp_scan s xk).foldl (fun ac p => db_del ac p.1) s)
                | .ycontainer =>
                    .ok ((db_regexp_scan s xk).foldl (fun ac p => db_del ac p.1) s)
                | _ => putChildren (db_del s xk) cls y .delete xk
              else .error (.existenceConflict xk)
          | .remove =>
              match y.kind with
              | .ylist _ =>
                  .ok ((db_regexp_scan s xk).foldl (fun ac p => db_del ac p.1) s)
              | .ycontainer =>
                  .ok ((db_regexp_scan s xk).foldl (fun ac p => db_del ac p.1) s)
              | _ => putChildren (db_del s xk) cls y .remove xk
          | .none_ => putChildren s cls y .none_ xk := by
  rw [put]
  cases hk : y.kind with
  | ylist keys =>
      simp only [nodeKey, XNode.name, XNode.body, hk]
      cases append_listkeys keys (XNode.mk nm bd opA cls) true with
      | error e => rfl
      | ok suf => cases opA.getD op0 <;> simp
  | ycontainer =>
      simp only [nodeKey, XNode.name, hk]
      cases opA.getD op0 <;> simp
  | yleaf =>
      simp only [nodeKey, XNode.name, hk]
      cases opA.getD op0 <;> simp
  | yleaflist =>
      simp only [nodeKey, XNode.name, XNode.body, hk]
      cases opA.getD op0 <;> simp

theorem putChildren_nil (s : Store) (y : YNode) (op : Op) (xk : CStr) :
    putChildren s [] y op xk = .ok s := by
  rw [putChildren]

theorem putChildren_cons (s : Store) (c : XNode) (rest : List XNode) (y : YNode)
    (op : Op) (xk : CStr) :
    putChildren s (c :: rest) y op xk =
      match yang_find_datanode y c.name with
      | none => .error (.schemaLookup c.name)
      | some yc =>
          match put s c yc op xk with
          | .error e => .error e
          | .ok s2 => putChildren s2 rest y op xk := by
  rw [putChildren]

theorem noOpOverride_unfold (nm : CStr) (bd : Option CStr) (opA : Option Op)
    (cls : List XNode) :
    noOpOverride (.mk nm bd opA cls) = (opA.isNone && noOpOverrideList cls) := by
  rw [noOpOverride]

theorem noOpOverrideList_nil : noOpOverrideList [] = true := by
  rw [noOpOverrideList]

theorem noOpOverrideList_cons (c : XNode) (rest : List XNode) :
    noOpOverrideList (c :: rest) = (noOpOverride c && noOpOverrideList rest) := by
  rw [noOpOverrideList]

/-! ## The REMOVE scan-and-delete loop -/

theorem foldl_db_del_filter (l : List (CStr × Option CStr)) (s : Store) :
    l.foldl (fun ac p => db_del ac p.1) s
      = s.filter (fun e => l.all (fun p => !(e.1 == p.1))) := by
  induction l generalizing s with
  | nil => simp
  | cons p0 rest ih =>
      rw [List.foldl_cons, ih]
      simp only [db_del, List.filter_filter]
      apply List.filter_congr
      intro e _
      simp [List.all_cons, Bool.and_comm]

/-- The REMOVE branch for a list or container: enumerating the entries whose
key has `xk` as a prefix and deleting each of them leaves exactly the entries
whose key does not have `xk` as a prefix. -/
theorem remove_scan_filter (s : Store) (xk : CStr) :
    (db_regexp_scan s xk).foldl (fun ac p => db_del ac p.1) s
      = s.filter (fun e => !(xk.isPrefixOf e.1)) := by
  rw [foldl_db_del_filter]
  apply List.filter_congr
  intro e he
  cases hp : xk.isPrefixOf e.1 with
  | true =>
      simp only [Bool.not_true]
      rw [List.all_eq_false]
      exact ⟨e, by simp [db_regexp_scan, List.mem_filter, he, hp], by simp⟩
  | false =>
      simp only [Bool.not_false]
      rw [List.all_eq_true]
      intro p hp2
      simp only [db_regexp_scan, List.mem_filter] at hp2
      rcases hp2 with ⟨_, hpref⟩
      cases hbe : e.1 == p.1 with
      | true =>
          rw [beq_iff_eq] at hbe
          rw [← hbe] at hpref
          rw [hpref] at hp
          cases hp
      | false => rfl

/-- The REMOVE (and the existence-checked part of DELETE) step of `put` on a
list or container node: the whole prefix-matched subtree is deleted from the
store and the children are not visited. -/
theorem put_remove_listcontainer (s : Store) (x : XNode) (y : YNode) (xk0 xk : CStr)
    (hop : x.opAttr = none) (hk : nodeKey x y xk0 = .ok xk)
    (hkind : y.kind = .ycontainer ∨ ∃ ks, y.kind = .ylist ks) :
    put s x y .remove xk0 = .ok (s.filter (fun e => !(xk.isPrefixOf e.1))) := by
  obtain ⟨nm, bd, opA, cls⟩ := x
  simp only [XNode.opAttr] at hop
  subst hop
  rw [put_unfold, hk]
  rcases hkind with h | ⟨ks, h⟩ <;> simp [h, remove_scan_filter]

/-- The REMOVE step of `put` on a leaf or leaf-list node: only the node's own
key is deleted, after which the child loop still runs. -/
theorem put_remove_leaflike (s : Store) (x : XNode) (y : YNode) (xk0 xk : CStr)
    (hop : x.opAttr = none) (hk : nodeKey x y xk0 = .ok xk)
    (hkind : y.kind = .yleaf ∨ y.kind = .yleaflist) :
    put s x y .remove xk0 = putChildren (db_del s xk) x.children y .remove xk := by
  obtain ⟨nm, bd, opA, cls⟩ := x
  simp only [XNode.opAttr] at hop
  subst hop
  rw [put_unfold, hk]
  rcases hkind with h | h <;> simp [h, XNode.children]

/-! ## Claim C2 -/

/-- Claim C2 counterexample: REMOVE on a leaf-list node deletes only the
node's exact key, not every stored key having it as a prefix: with entries
`/addr=1` and `/addr=1x` in the store, removing the leaf-list instance
`addr=1` leaves `/addr=1x` behind although `/addr=1` is a prefix of it. -/
theorem put_remove_any_kind_counterexample :
    put [(cs "/addr=1", some (cs "1")), (cs "/addr=1x", some (cs "1x"))]
        (XNode.mk (cs "addr") (some (cs "1")) none [])
        (YNode.mk (cs "addr") .yleaflist []) .remove []
      = .ok [(cs "/addr=1x", some (cs "1x"))] ∧
    (cs "/addr=1").isPrefixOf (cs "/addr=1x") = true := by
  constructor
  · have h := put_remove_leaflike
      [(cs "/addr=1", some (cs "1")), (cs "/addr=1x", some (cs "1x"))]
      (XNode.mk (cs "addr") (some (cs "1")) none [])
      (YNode.mk (cs "addr") .yleaflist []) [] (cs "/addr=1") rfl rfl (Or.inr rfl)
    rw [h]
    show putChildren
        (db_del [(cs "/addr=1", some (cs "1")), (cs "/addr=1x", some (cs "1x"))] (cs "/addr=1"))
        [] (YNode.mk (cs "addr") .yleaflist []) .remove (cs "/addr=1")
      = .ok [(cs "/addr=1x", some (cs "1x"))]
    rw [putChildren_nil]
    rfl
  · rfl

/-- Claim C2 (amended): the behaviour of the write engine under REMOVE splits
by schema kind: for a list or container node it deletes every stored key that
has the node's canonical key as a prefix and skips descending into the
children; for a leaf or leaf-list node it deletes only the node's exact
canonical key and then still descends into the children. -/
theorem put_remove_semantics_by_kind (s : Store) (x : XNode) (y : YNode) (xk0 xk : CStr)
    (hop : x.opAttr = none) (hk : nodeKey x y xk0 = .ok xk) :
    ((y.kind = .ycontainer ∨ ∃ ks, y.kind = .ylist ks) →
        put s x y .remove xk0 = .ok (s.filter (fun e => !(xk.isPrefixOf e.1)))) ∧
    ((y.kind = .yleaf ∨ y.kind = .yleaflist) →
        put s x y .remove xk0 = putChildren (db_del s xk) x.children y .remove xk) :=
  ⟨put_remove_listcontainer s x y xk0 xk hop hk,
   put_remove_leaflike s x y xk0 xk hop hk⟩

/-- Witness for C2's amended theorem: REMOVE of the container `c` from a
store holding `/c`, `/c/b` and `/cc` deletes the prefixed entries and keeps
`/cc`; REMOVE of a leaf-list instance deletes only its exact key. -/
theorem put_remove_semantics_by_kind_witness :
    put [(cs "/c", none), (cs "/c/b", some (cs "1")), (cs "/cc", none)]
        (XNode.mk (cs "c") none none [])
        (YNode.mk (cs "c") .ycontainer []) .remove []
      = .ok ([(cs "/c", none), (cs "/c/b", some (cs "1")), (cs "/cc", none)].filter
          (fun e => !((cs "/c").isPrefixOf e.1))) ∧
    put [(cs "/addr=1", some (cs "1"))]
        (XNode.mk (cs "addr") (some (cs "1")) none [])
        (YNode.mk (cs "addr") .yleaflist []) .remove []
      = putChildren (db_del [(cs "/addr=1", some (cs "1"))] (cs "/addr=1")) []
          (YNode.mk (cs "addr") .yleaflist []) .remove (cs "/addr=1") :=
  ⟨(put_remove_semantics_by_kind
      [(cs "/c", none), (cs "/c/b", some (cs "1")), (cs "/cc", none)]
      (XNode.mk (cs "c") none none [])
      (YNode.mk (cs "c") .ycontainer []) [] (cs "/c") rfl rfl).1 (Or.inl rfl),
   (put_remove_semantics_by_kind [(cs "/addr=1", some (cs "1"))]
      (XNode.mk (cs "addr") (some (cs "1")) none [])
      (YNode.mk (cs "addr") .yleaflist []) [] (cs "/addr=1") rfl rfl).2 (Or.inr rfl)⟩

/-! ## Claim C3 -/

/-- Claim C3: REMOVE on a list or container instance deletes exactly the
stored entries whose key has the instance's canonical key as a prefix: the
resulting store contains an entry of the prior store if and only if its key
does not have the canonical key as a prefix. -/
theorem put_remove_prefix_exact (s : Store) (x : XNode) (y : YNode) (xk0 xk : CStr)
    (hop : x.opAttr = none) (hk : nodeKey x y xk0 = .ok xk)
    (hkind : y.kind = .ycontainer ∨ ∃ ks, y.kind = .ylist ks) :
    ∃ s2, put s x y .remove xk0 = .ok s2 ∧
      ∀ e, e ∈ s2 ↔ (e ∈ s ∧ xk.isPrefixOf e.1 = false) := by
  refine ⟨_, put_remove_listcontainer s x y xk0 xk hop hk hkind, ?_⟩
  intro e
  simp [List.mem_filter]

/-- Witness for C3: REMOVE of list instance `srv=1` from a concrete store. -/
theorem put_remove_prefix_exact_witness :
    ∃ s2, put [(cs "/srv=1", none), (cs "/srv=1/k", some (cs "1")), (cs "/srv=2", none)]
        (XNode.mk (cs "srv") none none [XNode.mk (cs "k") (some (cs "1")) none []])
        (YNode.mk (cs "srv") (.ylist [cs "k"]) [YNode.mk (cs "k") .yleaf []]) .remove []
      = .ok s2 ∧
      ∀ e, e ∈ s2 ↔
        (e ∈ [(cs "/srv=1", (none : Option CStr)), (cs "/srv=1/k", some (cs "1")),
              (cs "/srv=2", none)] ∧
         (cs "/srv=1").isPrefixOf e.1 = false) :=
  put_remove_prefix_exact _ _ _ [] (cs "/srv=1") rfl rfl (Or.inr ⟨[cs "k"], rfl⟩)

/-! ## Claim C4 -/

theorem append_listkeys_conflict_free (keys : List CStr) (x : XNode) (first : Bool)
    (k : CStr) : append_listkeys keys x first ≠ .error (.existenceConflict k) := by
  induction keys generalizing first with
  | nil => simp [append_listkeys]
  | cons k0 ks ih =>
      intro hc
      rw [append_listkeys] at hc
      split at hc
      · simp at hc
      · split at hc
        · next e heq =>
            rw [Except.error.injEq] at hc
            rw [hc] at heq
            exact ih false heq
        · simp at hc

theorem nodeKey_conflict_free (x : XNode) (y : YNode) (xk0 : CStr) (k : CStr) :
    nodeKey x y xk0 ≠ .error (.existenceConflict k) := by
  intro hc
  rw [nodeKey] at hc
  split at hc
  · split at hc
    · next e heq =>
        rw [Except.error.injEq] at hc
        rw [hc] at heq
        exact append_listkeys_conflict_free _ _ _ _ heq
    · simp at hc
  · simp at hc
  · simp at hc

/-- Neither `put` under MERGE or REMOVE (on an override-free tree) nor its
child loop can produce an existence-conflict error: the only existence checks
sit on the CREATE and DELETE paths. -/
theorem no_conflict_aux : ∀ n : Nat,
    (∀ x : XNode, sizeOf x ≤ n → ∀ s y op xk0, (op = .merge ∨ op = .remove) →
      noOpOverride x = true → ∀ k, put s x y op xk0 ≠ .error (.existenceConflict k)) ∧
    (∀ xs : List XNode, sizeOf xs ≤ n → ∀ s y op xk, (op = .merge ∨ op = .remove) →
      noOpOverrideList xs = true → ∀ k,
        putChildren s xs y op xk ≠ .error (.existenceConflict k)) := by
  intro n
  induction n with
  | zero =>
      constructor
      · intro x hx
        exfalso
        obtain ⟨nm, bd, opA, cls⟩ := x
        simp at hx
      · intro xs hxs
        exfalso
        cases xs with
        | nil => simp at hxs
        | cons c rest => simp at hxs
  | succ n ih =>
      constructor
      · intro x hx s y op xk0 hopor hno k
        obtain ⟨nm, bd, opA, cls⟩ := x
        rw [noOpOverride_unfold] at hno
        rw [Bool.and_eq_true] at hno
        have hopA : opA = none := by
          cases opA with
          | none => rfl
          | some o => simp at hno
        subst hopA
        have hcls : sizeOf cls ≤ n := by
          simp at hx
          omega
        intro hcon
        rw [put_unfold] at hcon
        split at hcon
        · next e heq =>
            rw [Except.error.injEq] at hcon
            rw [hcon] at heq
            exact nodeKey_conflict_free _ y xk0 k heq
        · next xk heq =>
            rcases hopor with hop | hop <;> subst hop <;>
              simp only [Option.getD] at hcon
            · exact ih.2 cls hcls (db_set s xk bd) y .merge xk (Or.inl rfl) hno.2 k hcon
            · split at hcon
              · simp at hcon
              · simp at hcon
              · exact ih.2 cls hcls (db_del s xk) y .remove xk (Or.inr rfl) hno.2 k hcon
      · intro xs hxs s y op xk hopor hno k
        cases xs with
        | nil =>
            rw [putChildren_nil]
            simp
        | cons c rest =>
            rw [noOpOverrideList_cons, Bool.and_eq_true] at hno
            have hc : sizeOf c ≤ n := by
              simp at hxs
              omega
            have hrest : sizeOf rest ≤ n := by
              simp at hxs
              omega
            intro hcon
            rw [putChildren_cons] at hcon
            split at hcon
            · simp at hcon
            · split at hcon
              · next e heq =>
                  rw [Except.error.injEq] at hcon
                  rw [hcon] at heq
                  exact ih.1 c hc s _ op xk hopor hno.1 k heq
              · next s2 heq =>
                  exact ih.2 rest hrest s2 y op xk hopor hno.2 k hcon

/-- Claim C4: during `put` (with no per-node operation override), CREATE on a
canonical key already present in the store fails with the existence-conflict
error; DELETE on a canonical key absent from the store fails with the
existence-conflict error; and MERGE and REMOVE can never produce an
existence-conflict error at all. -/
theorem put_existence_semantics (s : Store) (x : XNode) (y : YNode) (xk0 xk : CStr)
    (hop : x.opAttr = none) (hk : nodeKey x y xk0 = .ok xk) :
    (db_exists s xk = true → put s x y .create xk0 = .error (.existenceConflict xk)) ∧
    (db_exists s xk = false → put s x y .delete xk0 = .error (.existenceConflict xk)) ∧
    (∀ op k, (op = .merge ∨ op = .remove) → noOpOverride x = true →
        put s x y op xk0 ≠ .error (.existenceConflict k)) := by
  refine ⟨?_, ?_, ?_⟩
  · intro hex
    obtain ⟨nm, bd, opA, cls⟩ := x
    simp only [XNode.opAttr] at hop
    subst hop
    rw [put_unfold, hk]
    simp [hex]
  · intro hex
    obtain ⟨nm, bd, opA, cls⟩ := x
    simp only [XNode.opAttr] at hop
    subst hop
    rw [put_unfold, hk]
    simp [hex]
  · intro op k hopor hno
    exact (no_conflict_aux (sizeOf x)).1 x (Nat.le_refl _) s y op xk0 hopor hno k

/-- Witness for C4 at concrete inputs: CREATE of container `c` over a store
already holding `/c` conflicts; DELETE of `c` from the empty store conflicts;
MERGE of `c` into that same occupied store does not conflict. -/
theorem put_existence_semantics_witness :
    (db_exists [(cs "/c", none)] (cs "/c") = true ∧
      put [(cs "/c", none)] (XNode.mk (cs "c") none none [])
        (YNode.mk (cs "c") .ycontainer []) .create []
        = .error (.existenceConflict (cs "/c"))) ∧
    (db_exists [] (cs "/c") = false ∧
      put [] (XNode.mk (cs "c") none none [])
        (YNode.mk (cs "c") .ycontainer []) .delete []
        = .error (.existenceConflict (cs "/c"))) ∧
    put [(cs "/c", none)] (XNode.mk (cs "c") none none [])
      (YNode.mk (cs "c") .ycontainer []) .merge []
      ≠ .error (.existenceConflict (cs "/c")) := by
  have h1 := put_existence_semantics [(cs "/c", none)] (XNode.mk (cs "c") none none [])
    (YNode.mk (cs "c") .ycontainer []) [] (cs "/c") rfl rfl
  have h2 := put_existence_semantics [] (XNode.mk (cs "c") none none [])
    (YNode.mk (cs "c") .ycontainer []) [] (cs "/c") rfl rfl
  exact ⟨⟨rfl, h1.1 rfl⟩, ⟨rfl, h2.2.1 rfl⟩,
    h1.2.2 .merge (cs "/c") (Or.inl rfl)
      (by rw [noOpOverride_unfold, noOpOverrideList_nil]; rfl)⟩

/-- Claim C5: a `kv_put` with operation REPLACE destroys and reinitializes the
store before applying the tree, so its result does not depend on the prior
store state at all: for any two prior states the outcome is identical, hence
a successful REPLACE leaves exactly the entries encoded from the tree (the
entries `put` writes starting from the empty store). -/
theorem kv_put_replace_wipes (kh : KvHandle) (db : CStr) (xt : XNode) (s1 s2 : Store) :
    kv_put kh db .replace xt s1 = kv_put kh db .replace xt s2 := by
  unfold kv_put
  cases kh.yangspec with
  | none => rfl
  | some ys => cases kv_db2file kh db <;> simp

/-! ## Properties of the per-segment action -/

theorem segAction_list_mismatch (yn : CStr) (ycs : List YNode) (keys : List CStr)
    (x : XNode) (name : CStr) (restval : Option CStr) (hne : keys ≠ [])
    (hmm : keys.length ≠ (strsep ',' (restval.getD [])).length) :
    segAction x (YNode.mk yn (.ylist keys) ycs) name restval = .skip := by
  simp only [segAction, YNode.kind]
  rw [if_neg (by simpa [List.isEmpty_iff] using hne)]
  rw [if_pos hmm]

theorem segAction_container_create (yn : CStr) (ycs : List YNode) (x : XNode)
    (name : CStr) (restval : Option CStr)
    (hmiss : x.children.findIdx? (fun c => c.name == name) = none) :
    segAction x (YNode.mk yn .ycontainer ycs) name restval
      = .descend none (XNode.mk name none none []) := by
  simp only [segAction, YNode.kind, hmiss]

/-! ## Unfolding lemmas for the decoding loop -/

theorem getSegs_cons_lookup (ys : YSpec) (yctx : Option YNode) (seg : CStr)
    (rest : List CStr) (val : Option CStr) (x : XNode) (y : YNode)
    (hlook : ylookup ys yctx (splitEq seg).1 = some y) :
    getSegs ys yctx (seg :: rest) val x =
      match segAction x y (splitEq seg).1 (splitEq seg).2 with
      | .err e => .error e
      | .skip => .ok (x, false)
      | .descend tgt start =>
          match getSegs ys (some y) rest val start with
          | .error e => .error e
          | .ok (xc2, dn) =>
              match tgt with
              | some i => .ok (x.setChildren (x.children.set i xc2), dn)
              | none => .ok (x.setChildren (x.children ++ [xc2]), dn) := by
  rw [getSegs, hlook]

theorem getSegs_cons_nolookup (ys : YSpec) (yctx : Option YNode) (seg : CStr)
    (rest : List CStr) (val : Option CStr) (x : XNode)
    (hlook : ylookup ys yctx (splitEq seg).1 = none) :
    getSegs ys yctx (seg :: rest) val x = .error (.schemaLookup (splitEq seg).1) := by
  rw [getSegs, hlook]

theorem getSegs_cons_skip (ys : YSpec) (yctx : Option YNode) (seg : CStr)
    (rest : List CStr) (val : Option CStr) (x : XNode) (y : YNode)
    (hlook : ylookup ys yctx (splitEq seg).1 = some y)
    (hact : segAction x y (splitEq seg).1 (splitEq seg).2 = .skip) :
    getSegs ys yctx (seg :: rest) val x = .ok (x, false) := by
  rw [getSegs_cons_lookup ys yctx seg rest val x y hlook, hact]

theorem getSegs_cons_descend_set (ys : YSpec) (yctx : Option YNode) (seg : CStr)
    (rest : List CStr) (val : Option CStr) (x : XNode) (y : YNode)
    (i : Nat) (start : XNode)
    (hlook : ylookup ys yctx (splitEq seg).1 = some y)
    (hact : segAction x y (splitEq seg).1 (splitEq seg).2 = .descend (some i) start) :
    getSegs ys yctx (seg :: rest) val x =
      match getSegs ys (some y) rest val start with
      | .error e => .error e
      | .ok (xc2, dn) => .ok (x.setChildren (x.children.set i xc2), dn) := by
  rw [getSegs_cons_lookup ys yctx seg rest val x y hlook]
  simp only [hact]

theorem getSegs_cons_descend_append (ys : YSpec) (yctx : Option YNode) (seg : CStr)
    (rest : List CStr) (val : Option CStr) (x : XNode) (y : YNode)
    (start : XNode)
    (hlook : ylookup ys yctx (splitEq seg).1 = some y)
    (hact : segAction x y (splitEq seg).1 (splitEq seg).2 = .descend none start) :
    getSegs ys yctx (seg :: rest) val x =
      match getSegs ys (some y) rest val start with
      | .error e => .error e
      | .ok (xc2, dn) => .ok (x.setChildren (x.children ++ [xc2]), dn) := by
  rw [getSegs_cons_lookup ys yctx seg rest val x y hlook]
  simp only [hact]

/-! ## Claim C6 -/

/-- Claim C6: during `get`'s key decoding, a list segment whose
comma-separated value count differs from the schema's declared key-field
count makes the decoder return success with the key skipped (tree unchanged
at that level, no error), while a segment whose name resolves to no schema
node aborts with the schema-lookup error, and a key not starting with `/`
aborts with the key-format error. -/
theorem get_keycount_skip_vs_errors
    (ys : YSpec) (yctx : Option YNode) (seg : CStr) (rest : List CStr)
    (val : Option CStr) (x : XNode) :
    (∀ y keys, ylookup ys yctx (splitEq seg).1 = some y → y.kind = .ylist keys →
       keys ≠ [] → keys.length ≠ (strsep ',' (((splitEq seg).2).getD [])).length →
       getSegs ys yctx (seg :: rest) val x = .ok (x, false)) ∧
    (ylookup ys yctx (splitEq seg).1 = none →
       getSegs ys yctx (seg :: rest) val x = .error (.schemaLookup (splitEq seg).1)) ∧
    (∀ xk v xt, (xk = [] ∨ ∃ c r, xk = c :: r ∧ c ≠ '/') →
       get ys xk v xt = .error (.keyFormat xk)) := by
  refine ⟨?_, ?_, ?_⟩
  · intro y keys hlook hkind hne hmm
    obtain ⟨yn, yk, ycs⟩ := y
    simp only [YNode.kind] at hkind
    subst hkind
    exact getSegs_cons_skip ys yctx seg rest val x _ hlook
      (segAction_list_mismatch yn ycs keys x _ _ hne hmm)
  · intro hlook
    exact getSegs_cons_nolookup ys yctx seg rest val x hlook
  · intro xk v xt h
    rcases h with h | ⟨c, r, h, hc⟩
    · subst h
      rfl
    · subst h
      simp only [get]
      split
      · next r2 heq =>
          rw [List.cons.injEq] at heq
          exact absurd heq.1 hc
      · rfl

/-- Witness for C6 at concrete inputs: schema `container c { list srv
{ key k; leaf k; } }`; the stored key segment `srv=1,2` carries two values
against one declared key field and is skipped; an unknown segment name
errors; a key without the leading slash errors. -/
theorem get_keycount_skip_vs_errors_witness :
    getSegs [YNode.mk (cs "c") .ycontainer
               [YNode.mk (cs "srv") (.ylist [cs "k"]) [YNode.mk (cs "k") .yleaf []]]]
        (some (YNode.mk (cs "c") .ycontainer
               [YNode.mk (cs "srv") (.ylist [cs "k"]) [YNode.mk (cs "k") .yleaf []]]))
        [cs "srv=1,2"] none configRoot = .ok (configRoot, false) ∧
    getSegs [YNode.mk (cs "c") .ycontainer []] none [cs "nosuch"] none configRoot
      = .error (.schemaLookup (cs "nosuch")) ∧
    get [] (cs "oops") none configRoot = .error (.keyFormat (cs "oops")) := by
  have h := get_keycount_skip_vs_errors
    [YNode.mk (cs "c") .ycontainer
       [YNode.mk (cs "srv") (.ylist [cs "k"]) [YNode.mk (cs "k") .yleaf []]]]
    (some (YNode.mk (cs "c") .ycontainer
       [YNode.mk (cs "srv") (.ylist [cs "k"]) [YNode.mk (cs "k") .yleaf []]]))
    (cs "srv=1,2") [] none configRoot
  have h2 := get_keycount_skip_vs_errors [YNode.mk (cs "c") .ycontainer []] none
    (cs "nosuch") [] none configRoot
  refine ⟨h.1 (YNode.mk (cs "srv") (.ylist [cs "k"]) [YNode.mk (cs "k") .yleaf []])
      [cs "k"] rfl rfl (by decide) (by decide), h2.2.1 rfl, ?_⟩
  have h3 := get_keycount_skip_vs_errors ([] : YSpec) none [] [] none configRoot
  exact h3.2.2 (cs "oops") none configRoot
    (Or.inr ⟨'o', cs "ops", rfl, by decide⟩)

/-! ## Claim C9 -/

/-- Claim C9: when `get` skips a stored key because a list segment's value
count mismatches the schema, the nodes already created for the key's earlier
segments stay in the returned tree: decoding a two-segment key whose first
segment creates a fresh container child and whose second segment is a
mismatching list segment returns success with the fresh child appended. -/
theorem get_skip_keeps_created
    (ys : YSpec) (xk : CStr) (seg1 seg2 : CStr) (val : Option CStr) (xt : XNode)
    (y1 : YNode)
    (hhead : ∃ r, xk = '/' :: r)
    (hkey : strsep '/' xk = [[], seg1, seg2])
    (h1 : ylookup ys none (splitEq seg1).1 = some y1)
    (hk1 : y1.kind = .ycontainer)
    (hmiss : xt.children.findIdx? (fun c => c.name == (splitEq seg1).1) = none) :
    ∀ y2 keys, yang_find_datanode y1 (splitEq seg2).1 = some y2 →
      y2.kind = .ylist keys → keys ≠ [] →
      keys.length ≠ (strsep ',' (((splitEq seg2).2).getD [])).length →
      ∃ xt2, get ys xk val xt = .ok xt2 ∧
        xt2 = xt.setChildren (xt.children ++ [XNode.mk (splitEq seg1).1 none none []]) ∧
        XNode.mk (splitEq seg1).1 none none [] ∈ xt2.children := by
  intro y2 keys h2 hk2 hne hmm
  obtain ⟨r, hr⟩ := hhead
  obtain ⟨y1n, y1k, y1cs⟩ := y1
  simp only [YNode.kind] at hk1
  subst hk1
  obtain ⟨y2n, y2k, y2cs⟩ := y2
  simp only [YNode.kind] at hk2
  subst hk2
  have hskip : getSegs ys (some (YNode.mk y1n .ycontainer y1cs)) [seg2] val
      (XNode.mk (splitEq seg1).1 none none [])
      = .ok (XNode.mk (splitEq seg1).1 none none [], false) :=
    getSegs_cons_skip ys _ seg2 [] val _ _ h2
      (segAction_list_mismatch y2n y2cs keys _ _ _ hne hmm)
  have hmain : getSegs ys none [seg1, seg2] val xt
      = .ok (xt.setChildren (xt.children ++ [XNode.mk (splitEq seg1).1 none none []]),
             false) := by
    rw [getSegs_cons_descend_append ys none seg1 [seg2] val xt _ _ h1
      (segAction_container_create y1n y1cs xt _ _ hmiss), hskip]
  subst hr
  refine ⟨_, ?_, rfl, ?_⟩
  · simp only [get]
    rw [if_neg (by rw [hkey]; simp)]
    have htail : (strsep '/' ('/' :: r)).tail = [seg1, seg2] := by
      rw [hkey]
      rfl
    rw [htail, hmain]
  · cases xt with
    | mk n b o c => simp [XNode.setChildren, XNode.children]

/-- Witness for C9: the stored key `/c/srv=1,2` against schema `container c
{ list srv { key k; } }` is skipped, yet the freshly created empty container
`c` stays in the tree that `get` returns. -/
theorem get_skip_keeps_created_witness :
    ∃ xt2, get [YNode.mk (cs "c") .ycontainer
        [YNode.mk (cs "srv") (.ylist [cs "k"]) [YNode.mk (cs "k") .yleaf []]]]
        (cs "/c/srv=1,2") none configRoot = .ok xt2 ∧
      xt2 = configRoot.setChildren
        (configRoot.children ++ [XNode.mk (splitEq (cs "c")).1 none none []]) ∧
      XNode.mk (splitEq (cs "c")).1 none none [] ∈ xt2.children :=
  get_skip_keeps_created
    [YNode.mk (cs "c") .ycontainer
       [YNode.mk (cs "srv") (.ylist [cs "k"]) [YNode.mk (cs "k") .yleaf []]]]
    (cs "/c/srv=1,2") (cs "c") (cs "srv=1,2") none configRoot
    (YNode.mk (cs "c") .ycontainer
       [YNode.mk (cs "srv") (.ylist [cs "k"]) [YNode.mk (cs "k") .yleaf []]])
    ⟨cs "c/srv=1,2", rfl⟩ (by decide) rfl rfl rfl
    (YNode.mk (cs "srv") (.ylist [cs "k"]) [YNode.mk (cs "k") .yleaf []])
    [cs "k"] rfl rfl (by decide) (by decide)

/-! ## Claim C7 -/

/-- Claim C7 counterexample: `kv_db2file` checks the directory before the
whitelist, so with the directory unset and an invalid database name the error
is the directory error, not the unknown-database error the claim requires for
every invalid name. -/
theorem kv_db2file_unknown_name_counterexample :
    validDb (cs "bogus") = false ∧
    kv_db2file ⟨none, none⟩ (cs "bogus") = .error .dirNotSet ∧
    kv_db2file ⟨none, none⟩ (cs "bogus") ≠ .error (.unknownDb (cs "bogus")) := by
  refine ⟨by decide, rfl, by simp [kv_db2file]⟩

/-- Claim C7 (amended): database-name resolution fails with the
directory-not-configured error whenever the handle's directory is unset;
otherwise it fails with the unknown-database error whenever the name is not
in the whitelist; otherwise it returns exactly `<directory>/<db_name>_db`. -/
theorem kv_db2file_resolution (kh : KvHandle) (db : CStr) :
    (kh.dbdir = none → kv_db2file kh db = .error .dirNotSet) ∧
    (∀ dir, kh.dbdir = some dir → validDb db = false →
        kv_db2file kh db = .error (.unknownDb db)) ∧
    (∀ dir, kh.dbdir = some dir → validDb db = true →
        kv_db2file kh db = .ok (dir ++ ('/' :: db) ++ cs "_db")) := by
  refine ⟨fun h => ?_, fun dir h hv => ?_, fun dir h hv => ?_⟩
  · simp [kv_db2file, h]
  · simp [kv_db2file, h, hv]
  · simp [kv_db2file, h, hv]

/-- Witness for C7's amended theorem at concrete inputs. -/
theorem kv_db2file_resolution_witness :
    kv_db2file ⟨some (cs "/var/db"), none⟩ (cs "candidate") =
      .ok ((cs "/var/db") ++ ('/' :: cs "candidate") ++ cs "_db") :=
  (kv_db2file_resolution ⟨some (cs "/var/db"), none⟩ (cs "candidate")).2.2
    (cs "/var/db") rfl (by decide)

/-! ## Claim C8 -/

/-- Claim C8: for any lockable database (running, candidate, startup) and any
owner, `kv_lock` unconditionally records the owner (last-writer-wins), after
which `kv_islocked` reports that owner; a subsequent `kv_unlock_all` by that
owner makes `kv_islocked` report 0; and locking `tmp` fails with the
unknown-database error. -/
theorem kv_lock_bookkeeping (l : Locks) (p : Int) (db : CStr)
    (h : db = cs "running" ∨ db = cs "candidate" ∨ db = cs "startup") :
    ∃ l2, kv_lock l db p = .ok l2 ∧ kv_islocked l2 db = .ok p ∧
      kv_islocked (kv_unlock_all l2 p) db = .ok 0 ∧
      ∀ q, kv_lock l (cs "tmp") q = .error (.unknownDb (cs "tmp")) := by
  rcases h with h | h | h <;> subst h <;>
    exact ⟨_, rfl, rfl,
      (by show Except.ok (if p = p then 0 else p) = Except.ok 0
          rw [if_pos rfl]),
      fun q => rfl⟩

/-- Witness for C8 at the spec's concrete scenario: owner 5 locking
running. -/
theorem kv_lock_bookkeeping_witness :
    ∃ l2, kv_lock ⟨0, 0, 0⟩ (cs "running") 5 = .ok l2 ∧
      kv_islocked l2 (cs "running") = .ok 5 ∧
      kv_islocked (kv_unlock_all l2 5) (cs "running") = .ok 0 ∧
      ∀ q, kv_lock ⟨0, 0, 0⟩ (cs "tmp") q = .error (.unknownDb (cs "tmp")) :=
  kv_lock_bookkeeping ⟨0, 0, 0⟩ 5 (cs "running") (Or.inl rfl)

/-! ## Claim C10 -/

/-- Claim C10: `kv_islocked` and `kv_unlock` on the database name `tmp` fail
with the unknown-database error rather than reporting the database unlocked,
even though `tmp` is accepted by the resolver used by get, put, copy, exists,
create and delete (`kv_db2file` maps it to `<dir>/tmp_db`). -/
theorem kv_tmp_lock_ops_error (l : Locks) (dir : CStr) :
    kv_islocked l (cs "tmp") = .error (.unknownDb (cs "tmp")) ∧
    kv_unlock l (cs "tmp") = .error (.unknownDb (cs "tmp")) ∧
    kv_db2file ⟨some dir, none⟩ (cs "tmp") = .ok (dir ++ ('/' :: cs "tmp") ++ cs "_db") :=
  ⟨rfl, rfl, rfl⟩

/-! ## Structure of canonical keys: splitting lemmas -/

theorem strsep_cons_sep (sep : Char) (s : CStr) :
    strsep sep (sep :: s) = [] :: strsep sep s := by
  rw [strsep]
  rw [if_pos rfl]

theorem strsep_ne_nil (sep : Char) (s : CStr) : strsep sep s ≠ [] := by
  cases s with
  | nil => simp [strsep]
  | cons c rest =>
      rw [strsep]
      by_cases h : c = sep
      · rw [if_pos h]
        simp
      · rw [if_neg h]
        cases hrec : strsep sep rest with
        | nil => simp
        | cons h2 t2 => simp

theorem strsep_prepend (sep : Char) (r : CStr) :
    ∀ (a : CStr), (∀ c ∈ a, ¬ c = sep) → ∀ h t, strsep sep r = h :: t →
      strsep sep (a ++ r) = (a ++ h) :: t := by
  intro a
  induction a with
  | nil =>
      intro _ h t hr
      simpa using hr
  | cons c a2 ih =>
      intro hfree h t hr
      have hc : ¬ c = sep := hfree c (List.mem_cons_self c a2)
      have hrec := ih (fun d hd => hfree d (List.mem_cons_of_mem c hd)) h t hr
      show strsep sep (c :: (a2 ++ r)) = ((c :: a2) ++ h) :: t
      rw [strsep]
      rw [if_neg hc, hrec]
      rfl

theorem strsep_single (sep : Char) (a : CStr) (ha : ∀ c ∈ a, ¬ c = sep) :
    strsep sep a = [a] := by
  have := strsep_prepend sep [] a ha [] [] rfl
  simpa using this

/-- The textual path of a list of segments: a leading slash before each. -/
def joinSegs : List CStr → CStr
  | [] => []
  | s :: rest => '/' :: s ++ joinSegs rest

theorem joinSegs_append (P Q : List CStr) :
    joinSegs (P ++ Q) = joinSegs P ++ joinSegs Q := by
  induction P with
  | nil => rfl
  | cons s rest ih => simp [joinSegs, ih]

theorem strsep_joinSegs (P : List CStr)
    (hP : ∀ seg ∈ P, ∀ c ∈ seg, ¬ c = '/') :
    strsep '/' (joinSegs P) = [] :: P := by
  induction P with
  | nil => rfl
  | cons s rest ih =>
      show strsep '/' ('/' :: (s ++ joinSegs rest)) = [] :: s :: rest
      rw [strsep_cons_sep]
      have hrec := ih (fun seg hs => hP seg (List.mem_cons_of_mem s hs))
      rw [strsep_prepend '/' (joinSegs rest) s
        (hP s (List.mem_cons_self s rest)) [] rest hrec]
      simp

theorem splitEq_no_eq (a : CStr) (ha : ∀ c ∈ a, ¬ c = '=') :
    splitEq a = (a, none) := by
  induction a with
  | nil => rfl
  | cons c rest ih =>
      rw [splitEq]
      rw [if_neg (ha c (List.mem_cons_self c rest))]
      rw [ih (fun d hd => ha d (List.mem_cons_of_mem c hd))]

theorem splitEq_append (a b : CStr) (ha : ∀ c ∈ a, ¬ c = '=') :
    splitEq (a ++ '=' :: b) = (a, some b) := by
  induction a with
  | nil =>
      show splitEq ('=' :: b) = ([], some b)
      rw [splitEq]
      rw [if_pos rfl]
  | cons c rest ih =>
      show splitEq (c :: (rest ++ '=' :: b)) = (c :: rest, some b)
      rw [splitEq]
      rw [if_neg (ha c (List.mem_cons_self c rest))]
      rw [ih (fun d hd => ha d (List.mem_cons_of_mem c hd))]

/-! ## Conformance of a tree to its schema

These predicates spell out what "a tree conforming to the configured schema"
means for the round-trip property: names usable in keys, every element backed
by a schema node of the right shape, list instances keyed by present,
codec-safe values, and sibling instances distinguishable. -/

/-- A usable element name: nonempty and free of key-structure characters. -/
def nameOk (n : CStr) : Bool := !n.isEmpty && n.all keyCharOk

/-- Wellformedness of a list declaration: at least one key, distinct keys,
each resolving to a leaf child. -/
def kindWF (kind : YKind) (cls : List YNode) : Bool :=
  match kind with
  | .ylist keys =>
      !keys.isEmpty && decide keys.Nodup &&
      keys.all (fun k =>
        match cls.find? (fun c => c.name == k) with
        | some yk => yk.kind == YKind.yleaf
        | none => false)
  | _ => true

mutual

/-- Schema well-formedness: usable, unambiguous names; every list declares at
least one key, the keys are distinct and each resolves to a leaf child. -/
def specWFY (y : YNode) : Bool :=
  match y with
  | .mk nm kind cls =>
      nameOk nm && kindWF kind cls &&
      decide ((cls.map YNode.name).Nodup) && specWFL cls
termination_by sizeOf y

def specWFL (ysl : List YNode) : Bool :=
  match ysl with
  | [] => true
  | y :: rest => specWFY y && specWFL rest
termination_by sizeOf ysl

end

/-- Schema well-formedness of the whole spec. -/
def specWF (ys : YSpec) : Bool :=
  decide ((ys.map YNode.name).Nodup) && specWFL ys

/-- Well-formedness of a lookup context. -/
def ctxWF (ys : YSpec) (yctx : Option YNode) : Bool :=
  match yctx with
  | none => specWF ys
  | some y => specWFY y

/-- The list-key values identifying a list instance. -/
def tupleOf (keys : List CStr) (c : XNode) : List (Option CStr) :=
  keys.map (fun k => (xml_find c k).bind xml_body)

/-- Two same-named siblings are distinguishable: only list instances (with
distinct key tuples) and leaf-list instances (with distinct bodies) may share
a name. -/
def sibOk (ys : YSpec) (yctx : Option YNode) (a b : XNode) : Bool :=
  !(a.name == b.name) ||
    (match ylookup ys yctx a.name with
     | some yc =>
         (match yc.kind with
          | .ylist keys => !(tupleOf keys a == tupleOf keys b)
          | .yleaflist => !(a.body == b.body)
          | _ => false)
     | none => false)

def distinctSibs (ys : YSpec) (yctx : Option YNode) (xs : List XNode) : Bool :=
  match xs with
  | [] => true
  | c :: rest => rest.all (fun b => sibOk ys yctx c b) && distinctSibs ys yctx rest

/-- An optional body that is present and codec-safe. -/
def bodyValOk (bd : Option CStr) : Bool :=
  match bd with
  | some v => valueOk v
  | none => false

mutual

/-- Conformance of one element to its schema node. -/
def conforms (ys : YSpec) (y : YNode) (x : XNode) : Bool :=
  match x with
  | .mk nm bd opA cls =>
      nm == y.name && opA.isNone &&
      (match y.kind with
       | .yleaf => cls.isEmpty
       | .yleaflist => cls.isEmpty && bodyValOk bd
       | .ycontainer => conformsKids ys (some y) cls && distinctSibs ys (some y) cls
       | .ylist keys =>
           conformsKids ys (some y) cls && distinctSibs ys (some y) cls &&
           keys.all (fun k =>
             bodyValOk ((xml_find (XNode.mk nm bd opA cls) k).bind xml_body)))
termination_by sizeOf x

/-- Conformance of a child list under a lookup context. -/
def conformsKids (ys : YSpec) (yctx : Option YNode) (xs : List XNode) : Bool :=
  match xs with
  | [] => true
  | c :: rest =>
      (match ylookup ys yctx c.name with
       | some yc => conforms ys yc c
       | none => false) && conformsKids ys yctx rest
termination_by sizeOf xs

end

/-- Conformance of the top-level children of a `put` input tree. -/
def conformsTop (ys : YSpec) (xs : List XNode) : Bool :=
  conformsKids ys none xs && distinctSibs ys none xs

/-! ## The entries `put` encodes and the tree `get` rebuilds -/

/-- The suffix `append_listkeys` produces, as a total function. -/
def listSuffixAux (keys : List CStr) (x : XNode) (first : Bool) : CStr :=
  match keys with
  | [] => []
  | k :: ks =>
      ((if first then ['='] else [',']) ++
        pctEncode (((xml_find x k).bind xml_body).getD nullStr)) ++ listSuffixAux ks x false

/-- The key segment contributed by one node. -/
def segOf (y : YNode) (x : XNode) : CStr :=
  match y.kind with
  | .ylist keys => x.name ++ listSuffixAux keys x true
  | .yleaflist => x.name ++ '=' :: pctEncode ((x.body).getD nullStr)
  | _ => x.name

/-- The canonical key of a node under a key prefix. -/
def keyOf (xk0 : CStr) (y : YNode) (x : XNode) : CStr := xk0 ++ '/' :: segOf y x

/-- The percent-encoded key values of a list instance, in declared order. -/
def encVals (keys : List CStr) (x : XNode) : List CStr :=
  keys.map (fun k => pctEncode (((xml_find x k).bind xml_body).getD nullStr))

mutual

/-- The store entries `put` writes for one subtree, in order. -/
def ents (ys : YSpec) (xk0 : CStr) (y : YNode) (x : XNode) : Store :=
  match x with
  | .mk nm bd opA cls =>
      (keyOf xk0 y (XNode.mk nm bd opA cls), bd) ::
        entsL ys (keyOf xk0 y (XNode.mk nm bd opA cls)) (some y) cls
termination_by sizeOf x

/-- The store entries of a child list under a common key prefix. -/
def entsL (ys : YSpec) (xk : CStr) (yctx : Option YNode) (xs : List XNode) : Store :=
  match xs with
  | [] => []
  | c :: rest =>
      (match ylookup ys yctx c.name with
       | some yc => ents ys xk yc c
       | none => []) ++ entsL ys xk yctx rest
termination_by sizeOf xs

end

mutual

/-- The tree shape `get` rebuilds for one subtree: same name and body, list
instances with their key leaves first (in declared key order, carrying the
decoded values) followed by the non-key children in document order. -/
def nf (ys : YSpec) (y : YNode) (x : XNode) : XNode :=
  match x with
  | .mk nm bd opA cls =>
      match y.kind with
      | .ylist keys =>
          XNode.mk nm bd none
            (keys.map (fun k =>
               XNode.mk k
                 (some (pctDecode (pctEncode
                   (((xml_find (XNode.mk nm bd opA cls) k).bind xml_body).getD nullStr))))
                 none [])
             ++ (nfL ys (some y) cls).filter (fun c => !(keys.contains c.name)))
      | .yleaflist => XNode.mk nm bd none []
      | _ => XNode.mk nm bd none (nfL ys (some y) cls)
termination_by sizeOf x

/-- The rebuilt children of a child list. -/
def nfL (ys : YSpec) (yctx : Option YNode) (xs : List XNode) : List XNode :=
  match xs with
  | [] => []
  | c :: rest =>
      (match ylookup ys yctx c.name with
       | some yc => [nf ys yc c]
       | none => []) ++ nfL ys yctx rest
termination_by sizeOf xs

end

/-! ### Unfolding equations for the conformance and encoding functions -/

theorem conforms_unfold (ys : YSpec) (y : YNode) (nm : CStr) (bd : Option CStr)
    (opA : Option Op) (cls : List XNode) :
    conforms ys y (.mk nm bd opA cls) =
      (nm == y.name && opA.isNone &&
       (match y.kind with
        | .yleaf => cls.isEmpty
        | .yleaflist => cls.isEmpty && bodyValOk bd
        | .ycontainer => conformsKids ys (some y) cls && distinctSibs ys (some y) cls
        | .ylist keys =>
            conformsKids ys (some y) cls && distinctSibs ys (some y) cls &&
            keys.all (fun k =>
              bodyValOk ((xml_find (XNode.mk nm bd opA cls) k).bind xml_body)))) := by
  rw [conforms]

theorem conformsKids_nil (ys : YSpec) (yctx : Option YNode) :
    conformsKids ys yctx [] = true := by
  rw [conformsKids]

theorem conformsKids_cons (ys : YSpec) (yctx : Option YNode) (c : XNode)
    (rest : List XNode) :
    conformsKids ys yctx (c :: rest) =
      ((match ylookup ys yctx c.name with
        | some yc => conforms ys yc c
        | none => false) && conformsKids ys yctx rest) := by
  rw [conformsKids]

theorem specWFY_unfold (nm : CStr) (kind : YKind) (cls : List YNode) :
    specWFY (.mk nm kind cls) =
      (nameOk nm && kindWF kind cls &&
       decide ((cls.map YNode.name).Nodup) && specWFL cls) := by
  rw [specWFY]

theorem specWFL_nil : specWFL [] = true := by
  rw [specWFL]

theorem specWFL_cons (y : YNode) (rest : List YNode) :
    specWFL (y :: rest) = (specWFY y && specWFL rest) := by
  rw [specWFL]

theorem ents_unfold (ys : YSpec) (xk0 : CStr) (y : YNode) (nm : CStr)
    (bd : Option CStr) (opA : Option Op) (cls : List XNode) :
    ents ys xk0 y (.mk nm bd opA cls) =
      (keyOf xk0 y (XNode.mk nm bd opA cls), bd) ::
        entsL ys (keyOf xk0 y (XNode.mk nm bd opA cls)) (some y) cls := by
  rw [ents]

theorem entsL_nil (ys : YSpec) (xk : CStr) (yctx : Option YNode) :
    entsL ys xk yctx [] = [] := by
  rw [entsL]

theorem entsL_cons (ys : YSpec) (xk : CStr) (yctx : Option YNode) (c : XNode)
    (rest : List XNode) :
    entsL ys xk yctx (c :: rest) =
      (match ylookup ys yctx c.name with
       | some yc => ents ys xk yc c
       | none => []) ++ entsL ys xk yctx rest := by
  rw [entsL]

theorem nf_unfold (ys : YSpec) (y : YNode) (nm : CStr) (bd : Option CStr)
    (opA : Option Op) (cls : List XNode) :
    nf ys y (.mk nm bd opA cls) =
      (match y.kind with
       | .ylist keys =>
           XNode.mk nm bd none
             (keys.map (fun k =>
                XNode.mk k
                  (some (pctDecode (pctEncode
                    (((xml_find (XNode.mk nm bd opA cls) k).bind xml_body).getD nullStr))))
                  none [])
              ++ (nfL ys (some y) cls).filter (fun c => !(keys.contains c.name)))
       | .yleaflist => XNode.mk nm bd none []
       | _ => XNode.mk nm bd none (nfL ys (some y) cls)) := by
  rw [nf]

theorem nfL_nil (ys : YSpec) (yctx : Option YNode) : nfL ys yctx [] = [] := by
  rw [nfL]

theorem nfL_cons (ys : YSpec) (yctx : Option YNode) (c : XNode) (rest : List XNode) :
    nfL ys yctx (c :: rest) =
      (match ylookup ys yctx c.name with
       | some yc => [nf ys yc c]
       | none => []) ++ nfL ys yctx rest := by
  rw [nfL]

/-! ### The canonical key computed by put agrees with keyOf -/

theorem append_listkeys_ok (keys : List CStr) (x : XNode) :
    ∀ first, (∀ k ∈ keys, (xml_find x k).isSome = true) →
      append_listkeys keys x first = .ok (listSuffixAux keys x first) := by
  induction keys with
  | nil => intro first _; rfl
  | cons k ks ih =>
      intro first hall
      rw [append_listkeys, listSuffixAux]
      have hk := hall k (List.mem_cons_self k ks)
      cases hfind : xml_find x k with
      | none =>
          rw [hfind] at hk
          simp at hk
      | some xkey =>
          rw [ih false (fun k2 hk2 => hall k2 (List.mem_cons_of_mem k hk2))]
          rfl

theorem conforms_keys_present (ys : YSpec) (y : YNode) (x : XNode) (keys : List CStr)
    (hk : y.kind = .ylist keys) (hc : conforms ys y x = true) :
    ∀ k ∈ keys, (xml_find x k).isSome = true ∧
      ∃ v, ((xml_find x k).bind xml_body) = some v ∧ valueOk v = true := by
  obtain ⟨nm, bd, opA, cls⟩ := x
  rw [conforms_unfold] at hc
  rw [hk] at hc
  simp only [Bool.and_eq_true] at hc
  have hall := hc.2.2
  rw [List.all_eq_true] at hall
  intro k hmem
  have h2 := hall k hmem
  refine ⟨?_, ?_⟩
  · cases hfind : xml_find (XNode.mk nm bd opA cls) k with
    | none => rw [hfind] at h2; simp [bodyValOk] at h2
    | some xkc => rfl
  · cases hbv : (xml_find (XNode.mk nm bd opA cls) k).bind xml_body with
    | none => rw [hbv] at h2; simp [bodyValOk] at h2
    | some v =>
        rw [hbv] at h2
        simp only [bodyValOk] at h2
        exact ⟨v, rfl, h2⟩

/-- The uniform consequences of conformance, for every schema kind. -/
theorem conforms_parts (ys : YSpec) (y : YNode) (nm : CStr) (bd : Option CStr)
    (opA : Option Op) (cls : List XNode)
    (hc : conforms ys y (.mk nm bd opA cls) = true) :
    nm = y.name ∧ opA = none ∧ conformsKids ys (some y) cls = true ∧
      distinctSibs ys (some y) cls = true := by
  rw [conforms_unfold] at hc
  simp only [Bool.and_eq_true] at hc
  have hnm : nm = y.name := by
    have := hc.1.1
    simpa using this
  have hopA : opA = none := by
    have := hc.1.2
    cases opA with
    | none => rfl
    | some o => simp at this
  refine ⟨hnm, hopA, ?_⟩
  have h3 := hc.2
  cases hk : y.kind with
  | ylist keys =>
      rw [hk] at h3
      simp only [Bool.and_eq_true] at h3
      exact ⟨h3.1.1, h3.1.2⟩
  | ycontainer =>
      rw [hk] at h3
      simp only [Bool.and_eq_true] at h3
      exact ⟨h3.1, h3.2⟩
  | yleaf =>
      rw [hk] at h3
      have : cls = [] := by
        cases cls with
        | nil => rfl
        | cons a b => simp at h3
      subst this
      exact ⟨conformsKids_nil ys (some y), rfl⟩
  | yleaflist =>
      rw [hk] at h3
      simp only [Bool.and_eq_true] at h3
      have : cls = [] := by
        cases cls with
        | nil => rfl
        | cons a b => simp at h3
      subst this
      exact ⟨conformsKids_nil ys (some y), rfl⟩

theorem nodeKey_eq_list (x : XNode) (y : YNode) (xk0 : CStr) (keys : List CStr)
    (h : y.kind = .ylist keys) :
    nodeKey x y xk0 =
      (match append_listkeys keys x true with
       | .error e => .error e
       | .ok suf => .ok (xk0 ++ ('/' :: x.name) ++ suf)) := by
  rw [nodeKey, h]

theorem nodeKey_eq_leaflist (x : XNode) (y : YNode) (xk0 : CStr)
    (h : y.kind = .yleaflist) :
    nodeKey x y xk0
      = .ok (xk0 ++ ('/' :: x.name) ++ ('=' :: pctEncode ((x.body).getD nullStr))) := by
  rw [nodeKey, h]

theorem nodeKey_eq_leaf (x : XNode) (y : YNode) (xk0 : CStr)
    (h : y.kind = .yleaf) :
    nodeKey x y xk0 = .ok (xk0 ++ ('/' :: x.name)) := by
  rw [nodeKey, h]

theorem nodeKey_eq_container (x : XNode) (y : YNode) (xk0 : CStr)
    (h : y.kind = .ycontainer) :
    nodeKey x y xk0 = .ok (xk0 ++ ('/' :: x.name)) := by
  rw [nodeKey, h]

theorem nodeKey_conforming (ys : YSpec) (y : YNode) (x : XNode) (xk0 : CStr)
    (hc : conforms ys y x = true) :
    nodeKey x y xk0 = .ok (keyOf xk0 y x) := by
  cases hk : y.kind with
  | ylist keys =>
      rw [nodeKey_eq_list x y xk0 keys hk,
        append_listkeys_ok keys x true
          (fun k hk2 => (conforms_keys_present ys y x keys hk hc k hk2).1)]
      simp [keyOf, segOf, hk, List.append_assoc]
  | ycontainer =>
      rw [nodeKey_eq_container x y xk0 hk]
      simp [keyOf, segOf, hk]
  | yleaf =>
      rw [nodeKey_eq_leaf x y xk0 hk]
      simp [keyOf, segOf, hk]
  | yleaflist =>
      rw [nodeKey_eq_leaflist x y xk0 hk]
      simp [keyOf, segOf, hk, List.append_assoc]

/-! ### Store helper lemmas -/

theorem db_exists_false_iff (s : Store) (k : CStr) :
    db_exists s k = false ↔ ∀ e ∈ s, e.1 ≠ k := by
  rw [db_exists, List.any_eq_false]
  constructor
  · intro h e he
    have := h e he
    simpa using this
  · intro h e he
    simpa using h e he

theorem db_set_absent (s : Store) (k : CStr) (v : Option CStr)
    (h : db_exists s k = false) : db_set s k v = s ++ [(k, v)] := by
  rw [db_set, h]
  rfl

theorem db_exists_append (s t : Store) (k : CStr) :
    db_exists (s ++ t) k = (db_exists s k || db_exists t k) := by
  simp [db_exists, List.any_append]

/-! ### put under MERGE writes exactly the encoded entries -/

/-- The `put` recursion under MERGE on a conforming, override-free subtree
whose keys are absent from the store appends exactly the encoded entries, in
order (and the child loop does the same for a child list). -/
theorem put_merge_writes_ents : ∀ fuel : Nat,
    (∀ x : XNode, sizeOf x ≤ fuel → ∀ ys (s : Store) y xk0,
      conforms ys y x = true →
      (∀ e ∈ ents ys xk0 y x, db_exists s e.1 = false) →
      ((ents ys xk0 y x).map Prod.fst).Nodup →
      put s x y .merge xk0 = .ok (s ++ ents ys xk0 y x)) ∧
    (∀ xs : List XNode, sizeOf xs ≤ fuel → ∀ ys (s : Store) yctx y xk,
      yctx = some y →
      conformsKids ys yctx xs = true →
      (∀ e ∈ entsL ys xk yctx xs, db_exists s e.1 = false) →
      ((entsL ys xk yctx xs).map Prod.fst).Nodup →
      putChildren s xs y .merge xk = .ok (s ++ entsL ys xk yctx xs)) := by
  intro fuel
  induction fuel with
  | zero =>
      constructor
      · intro x hx
        exfalso
        obtain ⟨nm, bd, opA, cls⟩ := x
        simp at hx
      · intro xs hxs
        exfalso
        cases xs with
        | nil => simp at hxs
        | cons c rest => simp at hxs
  | succ n ih =>
      constructor
      · intro x hx ys s y xk0 hc hfresh hnodup
        obtain ⟨nm, bd, opA, cls⟩ := x
        have hcls : sizeOf cls ≤ n := by
          simp at hx
          omega
        obtain ⟨hnm, hopA, hkids, hsibs⟩ := conforms_parts ys y nm bd opA cls hc
        subst hopA
        rw [put_unfold, nodeKey_conforming ys y (XNode.mk nm bd none cls) xk0 hc]
        show putChildren (db_set s (keyOf xk0 y (XNode.mk nm bd none cls)) bd) cls y
            .merge (keyOf xk0 y (XNode.mk nm bd none cls))
          = .ok (s ++ ents ys xk0 y (XNode.mk nm bd none cls))
        rw [ents_unfold] at hfresh hnodup ⊢
        have hheadfresh : db_exists s (keyOf xk0 y (XNode.mk nm bd none cls)) = false :=
          hfresh _ (List.mem_cons_self _ _)
        rw [db_set_absent s _ bd hheadfresh]
        simp only [List.map_cons, List.nodup_cons] at hnodup
        have hfresh2 : ∀ e ∈ entsL ys (keyOf xk0 y (XNode.mk nm bd none cls)) (some y) cls,
            db_exists (s ++ [(keyOf xk0 y (XNode.mk nm bd none cls), bd)]) e.1 = false := by
          intro e he
          rw [db_exists_append]
          rw [hfresh e (List.mem_cons_of_mem _ he)]
          have hmem2 : e.1 ∈ (entsL ys (keyOf xk0 y (XNode.mk nm bd none cls))
              (some y) cls).map Prod.fst := List.mem_map_of_mem Prod.fst he
          have hne : e.1 ≠ keyOf xk0 y (XNode.mk nm bd none cls) := by
            intro heq
            rw [heq] at hmem2
            exact hnodup.1 hmem2
          simp [db_exists]
          exact fun h2 => hne h2.symm
        have := (ih.2) cls hcls ys (s ++ [(keyOf xk0 y (XNode.mk nm bd none cls), bd)])
          (some y) y (keyOf xk0 y (XNode.mk nm bd none cls)) rfl hkids hfresh2 hnodup.2
        rw [this]
        simp
      · intro xs hxs ys s yctx y xk hy hkids hfresh hnodup
        subst hy
        cases xs with
        | nil =>
            rw [putChildren_nil, entsL_nil]
            simp
        | cons c rest =>
            have hc2 : sizeOf c ≤ n := by
              simp at hxs
              omega
            have hrest : sizeOf rest ≤ n := by
              simp at hxs
              omega
            rw [conformsKids_cons] at hkids
            simp only [Bool.and_eq_true] at hkids
            rw [entsL_cons] at hfresh hnodup ⊢
            cases hlook : ylookup ys (some y) c.name with
            | none =>
                rw [hlook] at hkids
                simp at hkids
            | some yc =>
                rw [hlook] at hkids hfresh hnodup
                simp only [] at hkids hfresh hnodup
                simp only [List.map_append, List.nodup_append] at hnodup
                rw [putChildren_cons]
                show (match yang_find_datanode y c.name with
                      | none => Except.error (Err.schemaLookup c.name)
                      | some yc2 =>
                          match put s c yc2 .merge xk with
                          | .error e => .error e
                          | .ok s2 => putChildren s2 rest y .merge xk)
                    = .ok (s ++ (ents ys xk yc c ++ entsL ys xk (some y) rest))
                have hlook2 : yang_find_datanode y c.name = some yc := hlook
                rw [hlook2]
                have hput := (ih.1) c hc2 ys s yc xk hkids.1
                  (fun e he => hfresh e (List.mem_append.mpr (Or.inl he))) hnodup.1
                show (match put s c yc .merge xk with
                      | .error e => Except.error e
                      | .ok s2 => putChildren s2 rest y .merge xk)
                    = .ok (s ++ (ents ys xk yc c ++ entsL ys xk (some y) rest))
                rw [hput]
                show putChildren (s ++ ents ys xk yc c) rest y .merge xk
                    = .ok (s ++ (ents ys xk yc c ++ entsL ys xk (some y) rest))
                have hfresh3 : ∀ e ∈ entsL ys xk (some y) rest,
                    db_exists (s ++ ents ys xk yc c) e.1 = false := by
                  intro e he
                  rw [db_exists_append]
                  rw [hfresh e (List.mem_append.mpr (Or.inr he))]
                  have hdisj := hnodup.2.2
                  simp only [Bool.false_or]
                  rw [db_exists_false_iff]
                  intro e2 he2 heq
                  have h1 : e2.1 ∈ List.map Prod.fst (ents ys xk yc c) :=
                    List.mem_map_of_mem Prod.fst he2
                  have h2 : e2.1 ∈ List.map Prod.fst (entsL ys xk (some y) rest) := by
                    rw [heq]
                    exact List.mem_map_of_mem Prod.fst he
                  exact hdisj h1 h2
                have := (ih.2) rest hrest ys (s ++ ents ys xk yc c) (some y) y xk rfl
                  hkids.2 hfresh3 hnodup.2.1
                rw [this]
                simp

/-- Join of encoded key values with comma separators (the part after `=`). -/
def valsJoin : List CStr → CStr
  | [] => []
  | [v] => v
  | v :: rest => v ++ ',' :: valsJoin rest

theorem strsep_valsJoin (vs : List CStr) (hne : vs ≠ [])
    (hfree : ∀ v ∈ vs, ∀ c ∈ v, ¬ c = ',') :
    strsep ',' (valsJoin vs) = vs := by
  induction vs with
  | nil => exact absurd rfl hne
  | cons v rest ih =>
      cases rest with
      | nil =>
          show strsep ',' (valsJoin [v]) = [v]
          exact strsep_single ',' v (hfree v (List.mem_cons_self v []))
      | cons v2 rest2 =>
          show strsep ',' (v ++ (',' :: valsJoin (v2 :: rest2))) = v :: v2 :: rest2
          have hrec := ih (by simp) (fun w hw c hc =>
            hfree w (List.mem_cons_of_mem v hw) c hc)
          rw [strsep_prepend ',' (',' :: valsJoin (v2 :: rest2)) v
            (hfree v (List.mem_cons_self v _)) [] (strsep ',' (valsJoin (v2 :: rest2)))
            (strsep_cons_sep ',' _)]
          rw [hrec]
          simp

/-! ## List index utilities for the replay proof -/

theorem getD_indep {α : Type _} (l : List α) (i : Nat) (d1 d2 : α)
    (h : i < l.length) : l.getD i d1 = l.getD i d2 := by
  simp [List.getD_eq_getElem?_getD, List.getElem?_eq_getElem h]

theorem getD_set_self {α : Type _} (l : List α) (i : Nat) (v d : α)
    (h : i < l.length) : (l.set i v).getD i d = v := by
  simp [List.getD_eq_getElem?_getD, List.getElem?_set, h]

theorem getD_set_ne {α : Type _} (l : List α) (i j : Nat) (v d : α)
    (h : ¬ i = j) : (l.set i v).getD j d = l.getD j d := by
  simp [List.getD_eq_getElem?_getD, List.getElem?_set, h]

theorem set_getD_self {α : Type _} (l : List α) (i : Nat) (d : α)
    (h : i < l.length) : l.set i (l.getD i d) = l := by
  have hd : l.getD i d = l[i] := by
    simp [List.getD_eq_getElem?_getD, List.getElem?_eq_getElem h]
  rw [hd]
  apply List.ext_getElem?
  intro n
  rw [List.getElem?_set]
  by_cases hn : i = n
  · subst hn
    rw [if_pos rfl, if_pos h, List.getElem?_eq_getElem h]
  · rw [if_neg hn]

theorem findIdx_spec {α : Type _} (f : α → Bool) (d : α) :
    ∀ (l : List α) (i : Nat), l.findIdx? f = some i →
      i < l.length ∧ f (l.getD i d) = true ∧ ∀ j, j < i → f (l.getD j d) = false := by
  intro l
  induction l with
  | nil =>
      intro i h
      rw [List.findIdx?_nil] at h
      cases h
  | cons x xs ih =>
      intro i h
      rw [List.findIdx?_cons] at h
      by_cases hx : f x = true
      · rw [if_pos hx] at h
        cases h
        refine ⟨by simp, by simpa using hx, ?_⟩
        intro j hj
        omega
      · rw [if_neg hx] at h
        rw [List.findIdx?_succ] at h
        cases hrec : xs.findIdx? f with
        | none =>
            rw [hrec] at h
            cases h
        | some i2 =>
            rw [hrec] at h
            simp only [Option.map_some'] at h
            have hi : i = i2 + 1 := by
              cases h
              rfl
            subst hi
            obtain ⟨h1, h2, h3⟩ := ih i2 hrec
            simp only [Bool.not_eq_true] at hx
            refine ⟨by simp; omega, by simpa [List.getD_cons_succ] using h2, ?_⟩
            intro j hj
            cases j with
            | zero => simpa using hx
            | succ j2 =>
                rw [List.getD_cons_succ]
                exact h3 j2 (by omega)

theorem findIdx_build {α : Type _} (f : α → Bool) (d : α) :
    ∀ (l : List α) (i : Nat), i < l.length → f (l.getD i d) = true →
      (∀ j, j < i → f (l.getD j d) = false) → l.findIdx? f = some i := by
  intro l
  induction l with
  | nil =>
      intro i h
      simp at h
  | cons x xs ih =>
      intro i hi hf hprev
      rw [List.findIdx?_cons]
      cases i with
      | zero =>
          rw [if_pos (by simpa using hf)]
      | succ i2 =>
          have hx : f x = false := by simpa using hprev 0 (by omega)
          rw [if_neg (by simp [hx])]
          rw [List.findIdx?_succ]
          rw [ih i2 (by simpa using hi) (by simpa using hf)
            (fun j hj => by simpa using hprev (j+1) (by omega))]
          rfl

theorem findIdx_append_one {α : Type _} (f : α → Bool) (l : List α) (a : α)
    (hall : ∀ x ∈ l, f x = false) (ha : f a = true) :
    (l ++ [a]).findIdx? f = some l.length := by
  rw [List.findIdx?_append]
  rw [List.findIdx?_eq_none_iff.mpr hall]
  rw [List.findIdx?_cons, if_pos ha]
  simp

theorem findIdx_set_self {α : Type _} (f : α → Bool) (d : α) (l : List α) (i : Nat)
    (v : α) (h : l.findIdx? f = some i) (hv : f v = true) :
    (l.set i v).findIdx? f = some i := by
  obtain ⟨h1, h2, h3⟩ := findIdx_spec f d l i h
  apply findIdx_build f d
  · simpa using h1
  · rw [getD_set_self l i v d h1]
    exact hv
  · intro j hj
    rw [getD_set_ne l i j v d (by omega)]
    exact h3 j hj

/-! ## Index paths into a tree

`get` re-walks each stored key from the root; the node a key prefix reaches
is addressed by the list of child indices chosen at each segment. -/

def dummyX : XNode := XNode.mk [] none none []

/-- The subtree at an index path. -/
def subAt : List Nat → XNode → XNode
  | [], z => z
  | i :: p, z => subAt p (z.children.getD i dummyX)

/-- Replace the subtree at an index path. -/
def patchAt : List Nat → XNode → XNode → XNode
  | [], _, w => w
  | i :: p, z, w =>
      z.setChildren (z.children.set i (patchAt p (z.children.getD i dummyX) w))

/-- Every index of the path is in range. -/
def validPath : List Nat → XNode → Prop
  | [], _ => True
  | i :: p, z => i < z.children.length ∧ validPath p (z.children.getD i dummyX)

/-- Append children at the end of the child list of the subtree at a path. -/
def extendAt (p : List Nat) (R : XNode) (ws : List XNode) : XNode :=
  patchAt p R ((subAt p R).setChildren ((subAt p R).children ++ ws))

theorem setChildren_name (z : XNode) (cls : List XNode) :
    (z.setChildren cls).name = z.name := by
  cases z
  rfl

theorem setChildren_body (z : XNode) (cls : List XNode) :
    (z.setChildren cls).body = z.body := by
  cases z
  rfl

theorem setChildren_opAttr (z : XNode) (cls : List XNode) :
    (z.setChildren cls).opAttr = z.opAttr := by
  cases z
  rfl

theorem setChildren_children (z : XNode) (cls : List XNode) :
    (z.setChildren cls).children = cls := by
  cases z
  rfl

theorem setChildren_self (z : XNode) : z.setChildren z.children = z := by
  cases z
  rfl

theorem setChildren_setChildren (z : XNode) (a b : List XNode) :
    ((z.setChildren a).setChildren b) = z.setChildren b := by
  cases z
  rfl

theorem subAt_patchAt (p : List Nat) :
    ∀ (R w : XNode), validPath p R → subAt p (patchAt p R w) = w := by
  induction p with
  | nil => intro R w _; rfl
  | cons i p ih =>
      intro R w hv
      show subAt p ((R.setChildren
        (R.children.set i (patchAt p (R.children.getD i dummyX) w))).children.getD i dummyX)
        = w
      rw [setChildren_children, getD_set_self _ _ _ _ hv.1]
      exact ih _ w hv.2

theorem patchAt_subAt (p : List Nat) :
    ∀ (R : XNode), validPath p R → patchAt p R (subAt p R) = R := by
  induction p with
  | nil => intro R _; rfl
  | cons i p ih =>
      intro R hv
      show R.setChildren
        (R.children.set i (patchAt p (R.children.getD i dummyX)
          (subAt p (R.children.getD i dummyX)))) = R
      rw [ih _ hv.2, set_getD_self _ _ _ hv.1, setChildren_self]

theorem patchAt_patchAt (p : List Nat) :
    ∀ (R w w2 : XNode), validPath p R →
      patchAt p (patchAt p R w) w2 = patchAt p R w2 := by
  induction p with
  | nil => intro R w w2 _; rfl
  | cons i p ih =>
      intro R w w2 hv
      show (R.setChildren (R.children.set i (patchAt p (R.children.getD i dummyX) w))).setChildren
          ((R.setChildren (R.children.set i
              (patchAt p (R.children.getD i dummyX) w))).children.set i
            (patchAt p ((R.setChildren (R.children.set i
              (patchAt p (R.children.getD i dummyX) w))).children.getD i dummyX) w2))
        = R.setChildren (R.children.set i (patchAt p (R.children.getD i dummyX) w2))
      rw [setChildren_setChildren, setChildren_children,
        getD_set_self _ _ _ _ hv.1, List.set_set, ih _ _ _ hv.2]

theorem validPath_patchAt (p : List Nat) :
    ∀ (R w : XNode), validPath p R → validPath p (patchAt p R w) := by
  induction p with
  | nil => intro R w _; trivial
  | cons i p ih =>
      intro R w hv
      simp only [patchAt]
      constructor
      · rw [setChildren_children, List.length_set]
        exact hv.1
      · rw [setChildren_children, getD_set_self _ _ _ _ hv.1]
        exact ih _ w hv.2

theorem extendAt_name (p : List Nat) (R : XNode) (ws : List XNode) :
    (extendAt p R ws).name = R.name := by
  cases p with
  | nil => exact setChildren_name _ _
  | cons i p2 =>
      simp only [extendAt, patchAt]
      exact setChildren_name _ _

theorem extendAt_body (p : List Nat) (R : XNode) (ws : List XNode) :
    (extendAt p R ws).body = R.body := by
  cases p with
  | nil => exact setChildren_body _ _
  | cons i p2 =>
      simp only [extendAt, patchAt]
      exact setChildren_body _ _

theorem subAt_extendAt (p : List Nat) (R : XNode) (ws : List XNode)
    (hv : validPath p R) :
    subAt p (extendAt p R ws) =
      (subAt p R).setChildren ((subAt p R).children ++ ws) :=
  subAt_patchAt p R _ hv

theorem validPath_extendAt (p : List Nat) (R : XNode) (ws : List XNode)
    (hv : validPath p R) : validPath p (extendAt p R ws) :=
  validPath_patchAt p R _ hv

theorem extendAt_nil_ws (p : List Nat) (R : XNode) (hv : validPath p R) :
    extendAt p R [] = R := by
  simp only [extendAt]
  rw [List.append_nil, setChildren_self, patchAt_subAt _ _ hv]

theorem extendAt_extendAt (p : List Nat) (R : XNode) (ws ws2 : List XNode)
    (hv : validPath p R) :
    extendAt p (extendAt p R ws) ws2 = extendAt p R (ws ++ ws2) := by
  simp only [extendAt]
  rw [subAt_patchAt _ _ _ hv, setChildren_setChildren, setChildren_children,
    patchAt_patchAt _ _ _ _ hv, List.append_assoc]

theorem subAt_snoc (p : List Nat) :
    ∀ (R : XNode) (i : Nat),
      subAt (p ++ [i]) R = (subAt p R).children.getD i dummyX := by
  induction p with
  | nil => intro R i; rfl
  | cons j p ih => intro R i; exact ih _ i

theorem patchAt_snoc (p : List Nat) :
    ∀ (R w : XNode) (i : Nat), validPath p R →
      patchAt (p ++ [i]) R w =
        patchAt p R ((subAt p R).setChildren ((subAt p R).children.set i w)) := by
  induction p with
  | nil => intro R w i _; rfl
  | cons j p ih =>
      intro R w i hv
      show R.setChildren (R.children.set j (patchAt (p ++ [i])
          (R.children.getD j dummyX) w))
        = R.setChildren (R.children.set j (patchAt p (R.children.getD j dummyX)
            ((subAt p (R.children.getD j dummyX)).setChildren
              ((subAt p (R.children.getD j dummyX)).children.set i w))))
      rw [ih _ w i hv.2]

theorem validPath_snoc (p : List Nat) :
    ∀ (R : XNode) (i : Nat), validPath p R →
      i < (subAt p R).children.length → validPath (p ++ [i]) R := by
  induction p with
  | nil => intro R i _ hi; exact ⟨hi, trivial⟩
  | cons j p ih =>
      intro R i hv hi
      exact ⟨hv.1, ih _ i hv.2 hi⟩

theorem set_append_last {α : Type _} (l : List α) (a w : α) :
    (l ++ [a]).set l.length w = l ++ [w] := by
  rw [List.set_append]
  rw [if_neg (by omega)]
  simp

theorem getD_append_last {α : Type _} (l : List α) (a d : α) :
    (l ++ [a]).getD l.length d = a := by
  rw [List.getD_append_right _ _ _ _ (le_refl _)]
  simp

theorem any_set_pres {α : Type _} (l : List α) (i : Nat) (v d : α) (f : α → Bool)
    (h : l.any f = true) (hv : f (l.getD i d) = true → f v = true) :
    (l.set i v).any f = true := by
  rw [List.any_eq_true] at h
  obtain ⟨a, ha, hfa⟩ := h
  obtain ⟨j, hj, hja⟩ := List.getElem_of_mem ha
  rw [List.any_eq_true]
  by_cases hij : i = j
  · subst hij
    refine ⟨v, List.mem_set l i hj v, ?_⟩
    apply hv
    have hgd : l.getD i d = l[i] := by
      simp [List.getD_eq_getElem?_getD, List.getElem?_eq_getElem hj]
    rw [hgd, hja]
    exact hfa
  · refine ⟨a, ?_, hfa⟩
    have hj2 : j < (l.set i v).length := by
      rw [List.length_set]
      exact hj
    have hel : (l.set i v)[j] = a := by
      rw [List.getElem_set]
      rw [if_neg hij]
      exact hja
    rw [← hel]
    exact List.getElem_mem hj2

theorem findIdx_append_of_some {α : Type _} (f : α → Bool) (l t : List α) (i : Nat)
    (h : l.findIdx? f = some i) : (l ++ t).findIdx? f = some i := by
  rw [List.findIdx?_append, h]
  rfl

/-- The children of `extendAt` along a nonempty path. -/
theorem extendAt_cons_children (i : Nat) (p : List Nat) (z : XNode)
    (ws : List XNode) :
    (extendAt (i :: p) z ws).children =
      z.children.set i (extendAt p (z.children.getD i dummyX) ws) := by
  simp only [extendAt, patchAt, subAt]
  rw [setChildren_children]

theorem extendAt_nil_children (z : XNode) (ws : List XNode) :
    (extendAt [] z ws).children = z.children ++ ws := by
  simp only [extendAt, patchAt, subAt]
  rw [setChildren_children]

/-- An xpath key match survives appending children below the matched node. -/
theorem xpathKeyMatch_extend (n : CStr) (kvs : List (CStr × CStr)) (p : List Nat) :
    ∀ (z : XNode) (ws : List XNode), xpathKeyMatch n kvs z = true →
      xpathKeyMatch n kvs (extendAt p z ws) = true := by
  intro z ws h
  rw [xpathKeyMatch, Bool.and_eq_true] at h ⊢
  refine ⟨by rw [extendAt_name]; exact h.1, ?_⟩
  rw [List.all_eq_true] at h ⊢
  intro kv hkv
  have h2 := h.2 kv hkv
  cases p with
  | nil =>
      rw [extendAt_nil_children, List.any_append, h2]
      rfl
  | cons i p2 =>
      rw [extendAt_cons_children]
      apply any_set_pres _ _ _ dummyX _ h2
      intro hf
      rw [Bool.and_eq_true] at hf ⊢
      refine ⟨?_, ?_⟩
      · rw [extendAt_name]
        exact hf.1
      · rw [extendAt_body]
        exact hf.2

/-- A successful child-by-name lookup survives appending children below. -/
theorem xml_find_isSome_extend (n : CStr) (p : List Nat) :
    ∀ (z : XNode) (ws : List XNode), (xml_find z n).isSome = true →
      (xml_find (extendAt p z ws) n).isSome = true := by
  intro z ws h
  rw [xml_find, List.find?_isSome] at h ⊢
  obtain ⟨a, ha, hfa⟩ := h
  cases p with
  | nil =>
      rw [extendAt_nil_children]
      exact ⟨a, List.mem_append.mpr (Or.inl ha), hfa⟩
  | cons i p2 =>
      rw [extendAt_cons_children]
      have hany : (z.children.set i
          (extendAt p2 (z.children.getD i dummyX) ws)).any
            (fun c => c.name == n) = true := by
        apply any_set_pres _ _ _ dummyX _ (List.any_eq_true.mpr ⟨a, ha, hfa⟩)
        intro hf
        rw [extendAt_name]
        exact hf
      rw [List.any_eq_true] at hany
      exact hany

/-- Deterministic descent: processing the given key segments from `x` under
the schema context selects an existing child at every step (each per-segment
action is a `descend` into child `i`), following the index path `p` and
ending in schema context `yz`. -/
inductive Desc (ys : YSpec) : Option YNode → List CStr → XNode → List Nat →
    Option YNode → Prop where
  | nil (yctx : Option YNode) (x : XNode) : Desc ys yctx [] x [] yctx
  | step (yctx : Option YNode) (seg : CStr) (segs : List CStr) (x : XNode)
      (i : Nat) (p : List Nat) (yz : Option YNode) (y : YNode)
      (hl : ylookup ys yctx (splitEq seg).1 = some y)
      (hi : i < x.children.length)
      (ha : segAction x y (splitEq seg).1 (splitEq seg).2 =
        .descend (some i) (x.children.getD i dummyX))
      (hrest : Desc ys (some y) segs (x.children.getD i dummyX) p yz) :
      Desc ys yctx (seg :: segs) x (i :: p) yz

theorem Desc.valid {ys : YSpec} {yctx : Option YNode} {segs : List CStr}
    {x : XNode} {p : List Nat} {yz : Option YNode}
    (h : Desc ys yctx segs x p yz) : validPath p x := by
  induction h with
  | nil => trivial
  | step yctx seg segs x i p yz y hl hi ha hrest ih => exact ⟨hi, ih⟩

/-- Frame rule: decoding `segs ++ segs2` from `x` first follows the descent
`segs` to the subtree at `p`, decodes `segs2` there, and patches the result
back in place. -/
theorem getSegs_frame {ys : YSpec} {yctx : Option YNode} {segs : List CStr}
    {x : XNode} {p : List Nat} {yz : Option YNode}
    (h : Desc ys yctx segs x p yz) :
    ∀ (segs2 : List CStr) (val : Option CStr),
      getSegs ys yctx (segs ++ segs2) val x =
        match getSegs ys yz segs2 val (subAt p x) with
        | .error e => .error e
        | .ok (w, dn) => .ok (patchAt p x w, dn) := by
  induction h with
  | nil yctx x =>
      intro segs2 val
      show getSegs ys yctx segs2 val x =
        match getSegs ys yctx segs2 val x with
        | .error e => .error e
        | .ok (w, dn) => .ok (w, dn)
      cases hg : getSegs ys yctx segs2 val x with
      | error e => rfl
      | ok pr =>
          obtain ⟨w, dn⟩ := pr
          rfl
  | step yctx seg segs x i p yz y hl hi ha hrest ih =>
      intro segs2 val
      show getSegs ys yctx (seg :: (segs ++ segs2)) val x = _
      rw [getSegs_cons_descend_set ys yctx seg (segs ++ segs2) val x y i _ hl ha]
      rw [ih segs2 val]
      simp only [subAt, patchAt]
      cases hg : getSegs ys yz segs2 val (subAt p (x.children.getD i dummyX)) with
      | error e => rfl
      | ok pr =>
          obtain ⟨w, dn⟩ := pr
          rfl

/-- Stability: a descent survives appending children at the end of its
path — every step still selects the same child, because names, bodies and
key-leaf children along the path are unchanged. -/
theorem Desc.extend {ys : YSpec} {yctx : Option YNode} {segs : List CStr}
    {x : XNode} {p : List Nat} {yz : Option YNode}
    (h : Desc ys yctx segs x p yz) :
    ∀ ws : List XNode, Desc ys yctx segs (extendAt p x ws) p yz := by
  induction h with
  | nil yctx x =>
      intro ws
      exact Desc.nil yctx _
  | step yctx seg segs x i p yz y hl hi ha hrest ih =>
      intro ws
      refine Desc.step _ _ _ _ i p yz y hl ?_ ?_ ?_
      · rw [extendAt_cons_children, List.length_set]
        exact hi
      · obtain ⟨yn, yk, ycs⟩ := y
        cases yk with
        | yleaf =>
            simp only [segAction, YNode.kind] at ha ⊢
            rw [extendAt_cons_children]
            cases hfi : x.children.findIdx? (fun c => c.name == (splitEq seg).1) with
            | none =>
                rw [hfi] at ha
                simp at ha
            | some i2 =>
                rw [hfi] at ha
                simp only [SegAction.descend.injEq, Option.some.injEq] at ha
                obtain ⟨hii, -⟩ := ha
                subst hii
                have hf := (findIdx_spec (fun c => c.name == (splitEq seg).1)
                  dummyX x.children i2 hfi).2.1
                have hfv : ((extendAt p (x.children.getD i2 dummyX) ws).name
                    == (splitEq seg).1) = true := by
                  rw [extendAt_name]
                  exact hf
                rw [findIdx_set_self _ dummyX _ i2 _ hfi hfv]
                simp only []
                rw [getD_set_self _ _ _ _ hi, getD_set_self _ _ _ _ hi]
        | ycontainer =>
            simp only [segAction, YNode.kind] at ha ⊢
            rw [extendAt_cons_children]
            cases hfi : x.children.findIdx? (fun c => c.name == (splitEq seg).1) with
            | none =>
                rw [hfi] at ha
                simp at ha
            | some i2 =>
                rw [hfi] at ha
                simp only [SegAction.descend.injEq, Option.some.injEq] at ha
                obtain ⟨hii, -⟩ := ha
                subst hii
                have hf := (findIdx_spec (fun c => c.name == (splitEq seg).1)
                  dummyX x.children i2 hfi).2.1
                have hfv : ((extendAt p (x.children.getD i2 dummyX) ws).name
                    == (splitEq seg).1) = true := by
                  rw [extendAt_name]
                  exact hf
                rw [findIdx_set_self _ dummyX _ i2 _ hfi hfv]
                simp only []
                rw [getD_set_self _ _ _ _ hi, getD_set_self _ _ _ _ hi]
        | yleaflist =>
            simp only [segAction, YNode.kind] at ha ⊢
            rw [extendAt_cons_children]
            cases hfi : x.children.findIdx? (fun c => c.name == (splitEq seg).1) with
            | none =>
                rw [hfi] at ha
                simp at ha
            | some i2 =>
                rw [hfi] at ha
                simp only [] at ha
                by_cases hs : (xml_find
                    (x.children.getD i2 (XNode.mk (splitEq seg).1 none none []))
                    (pctDecode (((splitEq seg).2).getD []))).isSome = true
                · rw [if_pos hs] at ha
                  simp only [SegAction.descend.injEq, Option.some.injEq] at ha
                  obtain ⟨hii, -⟩ := ha
                  subst hii
                  have hf := (findIdx_spec (fun c => c.name == (splitEq seg).1)
                    dummyX x.children i2 hfi).2.1
                  have hfv : ((extendAt p (x.children.getD i2 dummyX) ws).name
                      == (splitEq seg).1) = true := by
                    rw [extendAt_name]
                    exact hf
                  rw [findIdx_set_self _ dummyX _ i2 _ hfi hfv]
                  simp only []
                  rw [getD_set_self _ _ _ _ hi]
                  have hs2 : (xml_find (x.children.getD i2 dummyX)
                      (pctDecode (((splitEq seg).2).getD []))).isSome = true := by
                    rw [getD_indep _ _ dummyX (XNode.mk (splitEq seg).1 none none []) hi]
                    exact hs
                  rw [if_pos (xml_find_isSome_extend _ p _ ws hs2)]
                  rw [getD_set_self _ _ _ _ hi]
                · rw [if_neg hs] at ha
                  simp at ha
        | ylist keys =>
            simp only [segAction, YNode.kind] at ha ⊢
            rw [extendAt_cons_children]
            by_cases hke : keys.isEmpty = true
            · rw [if_pos hke] at ha
              simp at ha
            · rw [if_neg hke] at ha
              rw [if_neg hke]
              by_cases hlen : keys.length ≠
                  (strsep ',' (((splitEq seg).2).getD [])).length
              · rw [if_pos hlen] at ha
                simp at ha
              · rw [if_neg hlen] at ha
                rw [if_neg hlen]
                cases hfi : x.children.findIdx? (xpathKeyMatch (splitEq seg).1
                    (keys.zip ((strsep ',' (((splitEq seg).2).getD [])).map pctDecode))) with
                | none =>
                    rw [hfi] at ha
                    simp at ha
                | some i2 =>
                    rw [hfi] at ha
                    simp only [SegAction.descend.injEq, Option.some.injEq] at ha
                    obtain ⟨hii, -⟩ := ha
                    subst hii
                    have hmv := (findIdx_spec (xpathKeyMatch (splitEq seg).1
                      (keys.zip ((strsep ',' (((splitEq seg).2).getD [])).map pctDecode)))
                      dummyX x.children i2 hfi).2.1
                    have hfv := xpathKeyMatch_extend (splitEq seg).1
                      (keys.zip ((strsep ',' (((splitEq seg).2).getD [])).map pctDecode))
                      p (x.children.getD i2 dummyX) ws hmv
                    rw [findIdx_set_self _ dummyX _ i2 _ hfi hfv]
                    simp only []
                    rw [getD_set_self _ _ _ _ hi, getD_set_self _ _ _ _ hi]
      · rw [extendAt_cons_children, getD_set_self _ _ _ _ hi]
        exact ih ws

/-! ## Structure of key segments under conformance -/

theorem keyCharOk_parts (c : Char) (h : keyCharOk c = true) :
    ¬ c = '/' ∧ ¬ c = '=' ∧ ¬ c = ',' := by
  rw [keyCharOk] at h
  simp only [Bool.and_eq_true, Bool.not_eq_true', beq_eq_false_iff_ne, ne_eq] at h
  exact ⟨h.1.1, h.1.2, h.2⟩

theorem nameOk_parts (n : CStr) (h : nameOk n = true) :
    n ≠ [] ∧ ∀ c ∈ n, ¬ c = '/' ∧ ¬ c = '=' ∧ ¬ c = ',' := by
  rw [nameOk, Bool.and_eq_true] at h
  constructor
  · intro he
    subst he
    simp at h
  · intro c hc
    exact keyCharOk_parts c (List.all_eq_true.mp h.2 c hc)

theorem conforms_name (ys : YSpec) (y : YNode) (x : XNode)
    (hc : conforms ys y x = true) : x.name = y.name := by
  obtain ⟨nm, bd, opA, cls⟩ := x
  exact (conforms_parts ys y nm bd opA cls hc).1

theorem conforms_kids (ys : YSpec) (y : YNode) (x : XNode)
    (hc : conforms ys y x = true) :
    conformsKids ys (some y) x.children = true := by
  obtain ⟨nm, bd, opA, cls⟩ := x
  exact (conforms_parts ys y nm bd opA cls hc).2.2.1

theorem conforms_sibs (ys : YSpec) (y : YNode) (x : XNode)
    (hc : conforms ys y x = true) :
    distinctSibs ys (some y) x.children = true := by
  obtain ⟨nm, bd, opA, cls⟩ := x
  exact (conforms_parts ys y nm bd opA cls hc).2.2.2

theorem conforms_leaf_shape (ys : YSpec) (y : YNode) (x : XNode)
    (hk : y.kind = .yleaf) (hc : conforms ys y x = true) : x.children = [] := by
  obtain ⟨nm, bd, opA, cls⟩ := x
  rw [conforms_unfold, hk] at hc
  simp only [Bool.and_eq_true] at hc
  show cls = []
  cases cls with
  | nil => rfl
  | cons a b => simp at hc

theorem conforms_leaflist_shape (ys : YSpec) (y : YNode) (x : XNode)
    (hk : y.kind = .yleaflist) (hc : conforms ys y x = true) :
    x.children = [] ∧ ∃ v, x.body = some v ∧ valueOk v = true := by
  obtain ⟨nm, bd, opA, cls⟩ := x
  rw [conforms_unfold, hk] at hc
  simp only [Bool.and_eq_true] at hc
  have hcls : cls = [] := by
    cases cls with
    | nil => rfl
    | cons a b =>
        have := hc.2.1
        simp at this
  subst hcls
  refine ⟨rfl, ?_⟩
  have hbv := hc.2.2
  cases bd with
  | none => simp [bodyValOk] at hbv
  | some v =>
      simp only [bodyValOk] at hbv
      exact ⟨v, rfl, hbv⟩

theorem specWFY_name (y : YNode) (hwf : specWFY y = true) :
    nameOk y.name = true := by
  obtain ⟨nm, kind, cls⟩ := y
  rw [specWFY_unfold] at hwf
  simp only [Bool.and_eq_true] at hwf
  exact hwf.1.1.1

theorem specWFY_list_keys (y : YNode) (keys : List CStr)
    (hk : y.kind = .ylist keys) (hwf : specWFY y = true) :
    keys ≠ [] ∧ keys.Nodup ∧
      ∀ k ∈ keys, ∃ yk, yang_find_datanode y k = some yk ∧ yk.kind = .yleaf := by
  obtain ⟨nm, kind, cls⟩ := y
  rw [specWFY_unfold] at hwf
  simp only [Bool.and_eq_true] at hwf
  have hkw := hwf.1.1.2
  have hk2 : kind = .ylist keys := hk
  subst hk2
  rw [kindWF] at hkw
  simp only [Bool.and_eq_true] at hkw
  refine ⟨?_, ?_, ?_⟩
  · intro he
    subst he
    simp at hkw
  · exact of_decide_eq_true hkw.1.2
  · intro k hkmem
    have hall := List.all_eq_true.mp hkw.2 k hkmem
    cases hf : cls.find? (fun c => c.name == k) with
    | none =>
        rw [hf] at hall
        simp at hall
    | some yk =>
        rw [hf] at hall
        simp only [] at hall
        refine ⟨yk, hf, ?_⟩
        simpa using hall

theorem specWFL_all (l : List YNode) (h : specWFL l = true) :
    ∀ z ∈ l, specWFY z = true := by
  induction l with
  | nil => intro z hz; cases hz
  | cons a b ih =>
      rw [specWFL_cons, Bool.and_eq_true] at h
      intro z hz
      cases hz with
      | head => exact h.1
      | tail _ hz2 => exact ih h.2 z hz2

/-- Schema well-formedness propagates through the per-segment lookup. -/
theorem ylookup_wf (ys : YSpec) (yctx : Option YNode) (n : CStr) (yc : YNode)
    (hwf : ctxWF ys yctx = true) (hl : ylookup ys yctx n = some yc) :
    specWFY yc = true := by
  cases yctx with
  | none =>
      rw [ctxWF, specWF, Bool.and_eq_true] at hwf
      exact specWFL_all ys hwf.2 yc (List.mem_of_find?_eq_some hl)
  | some y =>
      obtain ⟨nm, kind, cls⟩ := y
      rw [ctxWF] at hwf
      rw [specWFY_unfold] at hwf
      simp only [Bool.and_eq_true] at hwf
      exact specWFL_all cls hwf.2 yc (List.mem_of_find?_eq_some hl)

/-- The looked-up schema node carries the looked-up name. -/
theorem ylookup_name (ys : YSpec) (yctx : Option YNode) (n : CStr) (yc : YNode)
    (hl : ylookup ys yctx n = some yc) : yc.name = n := by
  cases yctx with
  | none =>
      have := List.find?_some hl
      simpa using this
  | some y =>
      have := List.find?_some hl
      simpa using this

theorem listSuffixAux_false (x : XNode) :
    ∀ keys, keys ≠ [] →
      listSuffixAux keys x false = ',' :: valsJoin (encVals keys x) := by
  intro keys
  induction keys with
  | nil => intro h; exact absurd rfl h
  | cons k ks ih =>
      intro _
      rw [listSuffixAux]
      cases ks with
      | nil =>
          rw [listSuffixAux]
          simp [encVals, valsJoin]
      | cons k2 ks2 =>
          rw [ih (by simp)]
          simp [encVals, valsJoin]

theorem listSuffixAux_true (x : XNode) (k : CStr) (ks : List CStr) :
    listSuffixAux (k :: ks) x true = '=' :: valsJoin (encVals (k :: ks) x) := by
  rw [listSuffixAux]
  cases ks with
  | nil =>
      rw [listSuffixAux]
      simp [encVals, valsJoin]
  | cons k2 ks2 =>
      rw [listSuffixAux_false x (k2 :: ks2) (by simp)]
      simp [encVals, valsJoin]

theorem valsJoin_chars (vs : List CStr) :
    ∀ c ∈ valsJoin vs, c = ',' ∨ ∃ v ∈ vs, c ∈ v := by
  induction vs with
  | nil => intro c hc; cases hc
  | cons v rest ih =>
      intro c hc
      cases rest with
      | nil =>
          show c = ',' ∨ ∃ w ∈ [v], c ∈ w
          exact Or.inr ⟨v, List.mem_cons_self v [], hc⟩
      | cons v2 rest2 =>
          have hc2 : c ∈ v ++ ',' :: valsJoin (v2 :: rest2) := hc
          rw [List.mem_append] at hc2
          cases hc2 with
          | inl h => exact Or.inr ⟨v, List.mem_cons_self v _, h⟩
          | inr h =>
              cases h with
              | head => exact Or.inl rfl
              | tail _ h2 =>
                  cases ih c h2 with
                  | inl h3 => exact Or.inl h3
                  | inr h3 =>
                      obtain ⟨w, hw, hcw⟩ := h3
                      exact Or.inr ⟨w, List.mem_cons_of_mem v hw, hcw⟩

/-- Under conformance every encoded key value consists of key-safe
characters. -/
theorem encVals_keyCharOk (ys : YSpec) (y : YNode) (x : XNode) (keys : List CStr)
    (hk : y.kind = .ylist keys) (hc : conforms ys y x = true) :
    ∀ v ∈ encVals keys x, ∀ c ∈ v, keyCharOk c = true := by
  intro v hv c hc2
  rw [encVals, List.mem_map] at hv
  obtain ⟨k, hk2, hvk⟩ := hv
  obtain ⟨-, w, hw, hwok⟩ := conforms_keys_present ys y x keys hk hc k hk2
  rw [hw] at hvk
  simp only [Option.getD_some] at hvk
  rw [← hvk] at hc2
  exact pctEncode_keyCharOk w hwok c hc2

/-- The name part of a segment is free of structural characters. -/
theorem segName_free (ys : YSpec) (y : YNode) (x : XNode)
    (hwf : specWFY y = true) (hc : conforms ys y x = true) :
    ∀ c ∈ x.name, ¬ c = '/' ∧ ¬ c = '=' ∧ ¬ c = ',' := by
  intro c hcn
  rw [conforms_name ys y x hc] at hcn
  exact (nameOk_parts y.name (specWFY_name y hwf)).2 c hcn

theorem segOf_splitEq_list (ys : YSpec) (y : YNode) (x : XNode) (keys : List CStr)
    (hk : y.kind = .ylist keys) (hwf : specWFY y = true)
    (hc : conforms ys y x = true) :
    splitEq (segOf y x) = (x.name, some (valsJoin (encVals keys x))) := by
  obtain ⟨hkne, -, -⟩ := specWFY_list_keys y keys hk hwf
  cases keys with
  | nil => exact absurd rfl hkne
  | cons k ks =>
      rw [segOf, hk]
      simp only []
      rw [listSuffixAux_true]
      exact splitEq_append x.name _ (fun c hcn => (segName_free ys y x hwf hc c hcn).2.1)

theorem segOf_splitEq_leaflist (ys : YSpec) (y : YNode) (x : XNode)
    (hk : y.kind = .yleaflist) (hwf : specWFY y = true)
    (hc : conforms ys y x = true) :
    splitEq (segOf y x) = (x.name, some (pctEncode ((x.body).getD nullStr))) := by
  rw [segOf, hk]
  exact splitEq_append x.name _ (fun c hcn => (segName_free ys y x hwf hc c hcn).2.1)

theorem segOf_splitEq_leaf (ys : YSpec) (y : YNode) (x : XNode)
    (hk : y.kind = .yleaf) (hwf : specWFY y = true)
    (hc : conforms ys y x = true) :
    splitEq (segOf y x) = (x.name, none) := by
  rw [segOf, hk]
  exact splitEq_no_eq x.name (fun c hcn => (segName_free ys y x hwf hc c hcn).2.1)

theorem segOf_splitEq_container (ys : YSpec) (y : YNode) (x : XNode)
    (hk : y.kind = .ycontainer) (hwf : specWFY y = true)
    (hc : conforms ys y x = true) :
    splitEq (segOf y x) = (x.name, none) := by
  rw [segOf, hk]
  exact splitEq_no_eq x.name (fun c hcn => (segName_free ys y x hwf hc c hcn).2.1)

/-- A conforming node's segment never contains a slash. -/
theorem segOf_slash_free (ys : YSpec) (y : YNode) (x : XNode)
    (hwf : specWFY y = true) (hc : conforms ys y x = true) :
    ∀ c ∈ segOf y x, ¬ c = '/' := by
  intro c hcs
  cases hk : y.kind with
  | yleaf =>
      rw [segOf, hk] at hcs
      exact (segName_free ys y x hwf hc c hcs).1
  | ycontainer =>
      rw [segOf, hk] at hcs
      exact (segName_free ys y x hwf hc c hcs).1
  | yleaflist =>
      rw [segOf, hk] at hcs
      rw [List.mem_append] at hcs
      cases hcs with
      | inl h => exact (segName_free ys y x hwf hc c h).1
      | inr h =>
          cases h with
          | head => simp
          | tail _ h2 =>
              obtain ⟨-, v, hv, hvok⟩ := conforms_leaflist_shape ys y x hk hc
              rw [hv] at h2
              simp only [Option.getD_some] at h2
              exact (keyCharOk_parts c (pctEncode_keyCharOk v hvok c h2)).1
  | ylist keys =>
      obtain ⟨hkne, -, -⟩ := specWFY_list_keys y keys hk hwf
      rw [segOf, hk] at hcs
      simp only [] at hcs
      cases keys with
      | nil => exact absurd rfl hkne
      | cons k ks =>
          rw [listSuffixAux_true] at hcs
          rw [List.mem_append] at hcs
          cases hcs with
          | inl h => exact (segName_free ys y x hwf hc c h).1
          | inr h =>
              cases h with
              | head => simp
              | tail _ h2 =>
                  cases valsJoin_chars _ c h2 with
                  | inl h3 => subst h3; simp
                  | inr h3 =>
                      obtain ⟨v, hv, hcv⟩ := h3
                      exact (keyCharOk_parts c
                        (encVals_keyCharOk ys y x (k :: ks) hk hc v hv c hcv)).1

theorem get_slash (ys : YSpec) (t : CStr) (val : Option CStr) (xt : XNode) :
    get ys ('/' :: t) val xt =
      (if (strsep '/' ('/' :: t)).length < 2 then .error (.keyFormat ('/' :: t))
       else match getSegs ys none (strsep '/' ('/' :: t)).tail val xt with
            | .error e => .error e
            | .ok p => .ok p.1) := by
  rfl

/-- `get` on a well-formed slash-joined key runs the decoding loop on its
segments. -/
theorem get_joinSegs (ys : YSpec) (segs : List CStr) (seg : CStr)
    (val : Option CStr) (R : XNode)
    (hP : ∀ s ∈ segs, ∀ c ∈ s, ¬ c = '/')
    (hseg : ∀ c ∈ seg, ¬ c = '/') :
    get ys (joinSegs (segs ++ [seg])) val R =
      match getSegs ys none (segs ++ [seg]) val R with
      | .error e => .error e
      | .ok p => .ok p.1 := by
  have hsf : ∀ s ∈ segs ++ [seg], ∀ c ∈ s, ¬ c = '/' := by
    intro s hs
    rw [List.mem_append] at hs
    cases hs with
    | inl h => exact hP s h
    | inr h =>
        cases h with
        | head => exact hseg
        | tail _ h2 => cases h2
  have hsplit := strsep_joinSegs (segs ++ [seg]) hsf
  have hshape : ∃ t, joinSegs (segs ++ [seg]) = '/' :: t := by
    cases segs with
    | nil => exact ⟨seg ++ joinSegs [], rfl⟩
    | cons s rest => exact ⟨s ++ joinSegs (rest ++ [seg]), rfl⟩
  obtain ⟨t, ht⟩ := hshape
  rw [ht] at hsplit ⊢
  rw [get_slash]
  rw [hsplit]
  rw [if_neg (by simp)]
  simp only [List.tail_cons]

theorem getSegs_nil_val (ys : YSpec) (yctx : Option YNode) (val : Option CStr)
    (x : XNode) :
    getSegs ys yctx [] val x =
      match val with
      | some v => if x.body = none then .ok (x.setBody v, true) else .ok (x, true)
      | none => .ok (x, true) := by
  cases val with
  | some v => rw [getSegs]
  | none => rw [getSegs]

theorem segAction_default_found (x : XNode) (yn : CStr) (yk : YKind)
    (ycs : List YNode) (hk : yk = .yleaf ∨ yk = .ycontainer)
    (n : CStr) (rv : Option CStr) (j : Nat)
    (hfi : x.children.findIdx? (fun c => c.name == n) = some j) :
    segAction x (.mk yn yk ycs) n rv =
      .descend (some j) (x.children.getD j (XNode.mk n none none [])) := by
  cases hk with
  | inl h =>
      subst h
      simp only [segAction, YNode.kind]
      rw [hfi]
  | inr h =>
      subst h
      simp only [segAction, YNode.kind]
      rw [hfi]

/-- Replaying the entry of an already-present leaf (a list-key leaf created
together with its list instance) leaves the tree unchanged. -/
theorem get_existing_leaf_noop (ys : YSpec) (segs : List CStr) (nm : CStr)
    (val : Option CStr) (R : XNode) (p : List Nat) (yctx : Option YNode)
    (yc : YNode) (j : Nat)
    (hdesc : Desc ys none segs R p yctx)
    (hP : ∀ s ∈ segs, ∀ ch ∈ s, ¬ ch = '/')
    (hnm : ∀ ch ∈ nm, ¬ ch = '/' ∧ ¬ ch = '=')
    (hl : ylookup ys yctx nm = some yc)
    (hk : yc.kind = .yleaf)
    (hfi : (subAt p R).children.findIdx? (fun w => w.name == nm) = some j)
    (hbody : ¬ ((subAt p R).children.getD j dummyX).body = none) :
    get ys (joinSegs (segs ++ [nm])) val R = .ok R := by
  rw [get_joinSegs ys segs nm val R hP (fun c hc => (hnm c hc).1)]
  rw [getSegs_frame hdesc [nm] val]
  have hsp : splitEq nm = (nm, none) := splitEq_no_eq nm (fun c hc => (hnm c hc).2)
  obtain ⟨yn, yk, ycs⟩ := yc
  have hk2 : yk = .yleaf := hk
  subst hk2
  have hj := findIdx_spec (fun w => w.name == nm) dummyX _ j hfi
  have hact := segAction_default_found (subAt p R) yn .yleaf ycs (Or.inl rfl)
    nm none j hfi
  rw [getSegs_cons_descend_set ys yctx nm [] val (subAt p R) _ j _
    (by rw [hsp]; exact hl) (by rw [hsp]; exact hact)]
  rw [getSegs_nil_val]
  have hgd : (subAt p R).children.getD j (XNode.mk nm none none []) =
      (subAt p R).children.getD j dummyX := getD_indep _ j _ _ hj.1
  rw [hgd]
  have hset : (subAt p R).children.set j ((subAt p R).children.getD j dummyX) =
      (subAt p R).children := set_getD_self _ j dummyX hj.1
  cases val with
  | none =>
      simp only []
      rw [hset, setChildren_self, patchAt_subAt p R hdesc.valid]
  | some v =>
      simp only []
      rw [if_neg hbody]
      simp only []
      rw [hset, setChildren_self, patchAt_subAt p R hdesc.valid]

theorem segAction_default_fresh (x : XNode) (yn : CStr) (yk : YKind)
    (ycs : List YNode) (hk : yk = .yleaf ∨ yk = .ycontainer)
    (n : CStr) (rv : Option CStr)
    (hfi : x.children.findIdx? (fun c => c.name == n) = none) :
    segAction x (.mk yn yk ycs) n rv = .descend none (XNode.mk n none none []) := by
  cases hk with
  | inl h =>
      subst h
      simp only [segAction, YNode.kind]
      rw [hfi]
  | inr h =>
      subst h
      simp only [segAction, YNode.kind]
      rw [hfi]

theorem segAction_leaflist_fresh (x : XNode) (yn : CStr) (ycs : List YNode)
    (n : CStr) (rv : Option CStr)
    (hnochild : ∀ w ∈ x.children, w.name = n → w.children = []) :
    segAction x (.mk yn .yleaflist ycs) n rv =
      .descend none (XNode.mk n none none []) := by
  simp only [segAction, YNode.kind]
  cases hfi : x.children.findIdx? (fun c => c.name == n) with
  | none => rfl
  | some i =>
      simp only []
      obtain ⟨hlt, hf, -⟩ := findIdx_spec (fun c => c.name == n) dummyX _ i hfi
      have hmemi : x.children.getD i (XNode.mk n none none []) ∈ x.children := by
        rw [getD_indep _ i _ dummyX hlt]
        have hgd : x.children.getD i dummyX = x.children[i] := by
          simp [List.getD_eq_getElem?_getD, List.getElem?_eq_getElem hlt]
        rw [hgd]
        exact List.getElem_mem hlt
      have hname : (x.children.getD i (XNode.mk n none none [])).name = n := by
        rw [getD_indep _ i _ dummyX hlt]
        simpa using hf
      have hkids := hnochild _ hmemi hname
      have hfindnone : xml_find (x.children.getD i (XNode.mk n none none []))
          (pctDecode (rv.getD [])) = none := by
        rw [xml_find, hkids]
        rfl
      rw [hfindnone]
      rfl

theorem segAction_list_found (x : XNode) (yn : CStr) (ycs : List YNode)
    (keys : List CStr) (n : CStr) (rv : Option CStr) (j : Nat)
    (hkne : ¬ keys.isEmpty = true)
    (hlen : ¬ keys.length ≠ (strsep ',' (rv.getD [])).length)
    (hfi : x.children.findIdx? (xpathKeyMatch n
      (keys.zip ((strsep ',' (rv.getD [])).map pctDecode))) = some j) :
    segAction x (.mk yn (.ylist keys) ycs) n rv =
      .descend (some j) (x.children.getD j (XNode.mk n none none [])) := by
  simp only [segAction, YNode.kind]
  rw [if_neg hkne, if_neg hlen, hfi]

theorem segAction_list_fresh (x : XNode) (yn : CStr) (ycs : List YNode)
    (keys : List CStr) (n : CStr) (rv : Option CStr)
    (hkne : ¬ keys.isEmpty = true)
    (hlen : ¬ keys.length ≠ (strsep ',' (rv.getD [])).length)
    (hfi : x.children.findIdx? (xpathKeyMatch n
      (keys.zip ((strsep ',' (rv.getD [])).map pctDecode))) = none) :
    segAction x (.mk yn (.ylist keys) ycs) n rv =
      .descend none (XNode.mk n none none
        ((keys.zip ((strsep ',' (rv.getD [])).map pctDecode)).map
          (fun kv => XNode.mk kv.1 (some kv.2) none []))) := by
  simp only [segAction, YNode.kind]
  rw [if_neg hkne, if_neg hlen, hfi]

theorem zip_map_self {α β : Type _} (g : α → β) :
    ∀ l : List α, l.zip (l.map g) = l.map (fun a => (a, g a)) := by
  intro l
  induction l with
  | nil => rfl
  | cons a t ih => simp [ih]

/-- The decoded key (name, value) pairs `get` builds for a list instance. -/
def kvsOf (keys : List CStr) (c : XNode) : List (CStr × CStr) :=
  keys.map (fun k =>
    (k, pctDecode (pctEncode (((xml_find c k).bind xml_body).getD nullStr))))

/-- The kvs `get` computes from a stored list segment are `kvsOf`. -/
theorem kvs_eq (ys : YSpec) (y : YNode) (c : XNode) (keys : List CStr)
    (hk : y.kind = .ylist keys) (hwf : specWFY y = true)
    (hc : conforms ys y c = true) :
    keys.zip ((strsep ',' (valsJoin (encVals keys c))).map pctDecode) =
      kvsOf keys c := by
  obtain ⟨hkne, -, -⟩ := specWFY_list_keys y keys hk hwf
  have hcomma : ∀ v ∈ encVals keys c, ∀ ch ∈ v, ¬ ch = ',' := fun v hv ch hch =>
    (keyCharOk_parts ch (encVals_keyCharOk ys y c keys hk hc v hv ch hch)).2.2
  have henne : encVals keys c ≠ [] := by
    rw [encVals]
    cases keys with
    | nil => exact absurd rfl hkne
    | cons k ks => simp
  rw [strsep_valsJoin _ henne hcomma]
  rw [encVals, List.map_map, zip_map_self, kvsOf]
  simp [Function.comp]

/-- The declared list keys of a lookup context (empty for the top level and
for non-list nodes). -/
def keysOfC : Option YNode → List CStr
  | none => []
  | some y =>
      match y.kind with
      | .ylist keys => keys
      | _ => []

/-- The conditions under which replaying a child's first entry creates a new
child of `z` rather than selecting an existing one: no same-named child for
leaf/container schemas, no same-named child with children for leaf-lists, no
xpath key match for lists. -/
def freshFor (ys : YSpec) (yctx : Option YNode) (z : XNode) (c : XNode) : Prop :=
  match ylookup ys yctx c.name with
  | none => True
  | some yc =>
      match yc.kind with
      | .yleaf => ∀ w ∈ z.children, ¬ w.name = c.name
      | .ycontainer => ∀ w ∈ z.children, ¬ w.name = c.name
      | .yleaflist => ∀ w ∈ z.children, w.name = c.name → w.children = []
      | .ylist keys => ∀ w ∈ z.children, xpathKeyMatch c.name (kvsOf keys c) w = false

/-- Readiness of the replay of child `c` into node `z`: a list-key leaf is
already present (with a body), any other child is fresh. -/
def childReady (ys : YSpec) (yctx : Option YNode) (z : XNode) (c : XNode) : Prop :=
  if (keysOfC yctx).contains c.name then
    ∃ j, z.children.findIdx? (fun w => w.name == c.name) = some j ∧
      ¬ (z.children.getD j dummyX).body = none
  else freshFor ys yctx z c

/-- The fresh node the per-segment action creates for a child's first
entry. -/
def startOf (yc : YNode) (c : XNode) : XNode :=
  match yc.kind with
  | .ylist keys =>
      XNode.mk c.name none none
        ((kvsOf keys c).map (fun kv => XNode.mk kv.1 (some kv.2) none []))
  | _ => XNode.mk c.name none none []

/-- The created node after the stored value is attached as its body. -/
def createdOf (yc : YNode) (c : XNode) : XNode :=
  XNode.mk c.name c.body none (startOf yc c).children

theorem joinSegs_snoc (P : List CStr) (s : CStr) :
    joinSegs (P ++ [s]) = joinSegs P ++ '/' :: s := by
  rw [joinSegs_append]
  simp [joinSegs]

theorem getAll_nil (ys : YSpec) (x : XNode) : getAll ys [] x = .ok x := by
  rw [getAll]

theorem getAll_cons (ys : YSpec) (e : CStr × Option CStr) (rest : Store)
    (x : XNode) :
    getAll ys (e :: rest) x =
      match get ys e.1 e.2 x with
      | .error err => .error err
      | .ok x2 => getAll ys rest x2 := by
  rw [getAll]

theorem getAll_append (ys : YSpec) (s t : Store) :
    ∀ x : XNode, getAll ys (s ++ t) x =
      match getAll ys s x with
      | .error e => .error e
      | .ok x2 => getAll ys t x2 := by
  induction s with
  | nil => intro x; rfl
  | cons e rest ih =>
      intro x
      rw [List.cons_append, getAll_cons, getAll_cons]
      cases hg : get ys e.1 e.2 x with
      | error err => rfl
      | ok x2 => exact ih x2

theorem nf_name (ys : YSpec) (yc : YNode) (c : XNode) :
    (nf ys yc c).name = c.name := by
  obtain ⟨nm, bd, opA, cls⟩ := c
  rw [nf_unfold]
  cases hk : yc.kind <;> rfl

theorem nf_body (ys : YSpec) (yc : YNode) (c : XNode) :
    (nf ys yc c).body = c.body := by
  obtain ⟨nm, bd, opA, cls⟩ := c
  rw [nf_unfold]
  cases hk : yc.kind <;> rfl

theorem nf_leaf_children (ys : YSpec) (yc : YNode) (c : XNode)
    (hk : yc.kind = .yleaf) : (nf ys yc c).children = nfL ys (some yc) c.children := by
  obtain ⟨nm, bd, opA, cls⟩ := c
  rw [nf_unfold, hk]
  rfl

theorem nf_leaflist_children (ys : YSpec) (yc : YNode) (c : XNode)
    (hk : yc.kind = .yleaflist) : (nf ys yc c).children = [] := by
  obtain ⟨nm, bd, opA, cls⟩ := c
  rw [nf_unfold, hk]
  rfl

theorem nf_container_children (ys : YSpec) (yc : YNode) (c : XNode)
    (hk : yc.kind = .ycontainer) :
    (nf ys yc c).children = nfL ys (some yc) c.children := by
  obtain ⟨nm, bd, opA, cls⟩ := c
  rw [nf_unfold, hk]
  rfl

theorem nf_list_children (ys : YSpec) (yc : YNode) (c : XNode) (keys : List CStr)
    (hk : yc.kind = .ylist keys) :
    (nf ys yc c).children =
      (kvsOf keys c).map (fun kv => XNode.mk kv.1 (some kv.2) none []) ++
        (nfL ys (some yc) c.children).filter (fun d => !(keys.contains d.name)) := by
  obtain ⟨nm, bd, opA, cls⟩ := c
  rw [nf_unfold, hk]
  simp only []
  rw [XNode.children, kvsOf, List.map_map]
  rfl

theorem kvsOf_names (keys : List CStr) (c : XNode) :
    (kvsOf keys c).map Prod.fst = keys := by
  rw [kvsOf, List.map_map]
  exact List.map_id keys

theorem xpathKeyMatch_self (n : CStr) (kvs : List (CStr × CStr))
    (bd : Option CStr) (opA : Option Op) :
    xpathKeyMatch n kvs (XNode.mk n bd opA
      (kvs.map (fun kv => XNode.mk kv.1 (some kv.2) none []))) = true := by
  rw [xpathKeyMatch, Bool.and_eq_true]
  refine ⟨by simp [XNode.name], ?_⟩
  rw [List.all_eq_true]
  intro kv hkv
  rw [List.any_eq_true]
  exact ⟨XNode.mk kv.1 (some kv.2) none [], by
    rw [XNode.children]
    exact List.mem_map_of_mem _ hkv, by simp [XNode.name, XNode.body]⟩

theorem strsep_encVals (ys : YSpec) (y : YNode) (c : XNode) (keys : List CStr)
    (hk : y.kind = .ylist keys) (hwf : specWFY y = true)
    (hc : conforms ys y c = true) :
    strsep ',' (valsJoin (encVals keys c)) = encVals keys c := by
  obtain ⟨hkne, -, -⟩ := specWFY_list_keys y keys hk hwf
  have hcomma : ∀ v ∈ encVals keys c, ∀ ch ∈ v, ¬ ch = ',' := fun v hv ch hch =>
    (keyCharOk_parts ch (encVals_keyCharOk ys y c keys hk hc v hv ch hch)).2.2
  have henne : encVals keys c ≠ [] := by
    rw [encVals]
    cases keys with
    | nil => exact absurd rfl hkne
    | cons k ks => simp
  exact strsep_valsJoin _ henne hcomma

theorem createdOf_eq_nf_nil (ys : YSpec) (yc : YNode) (c : XNode)
    (hnil : c.children = []) : createdOf yc c = nf ys yc c := by
  obtain ⟨nm, bd, opA, cls⟩ := c
  have hcls : cls = [] := hnil
  subst hcls
  obtain ⟨yn, yk, ycs⟩ := yc
  cases yk with
  | ylist keys =>
      rw [createdOf, startOf, nf_unfold]
      simp only [YNode.kind]
      rw [nfL_nil]
      simp only [List.filter_nil, List.append_nil]
      rw [XNode.children, kvsOf, List.map_map]
      rfl
  | yleaf =>
      rw [createdOf, startOf, nf_unfold]
      simp only [YNode.kind]
      rw [nfL_nil]
      rfl
  | yleaflist =>
      rw [createdOf, startOf, nf_unfold]
      simp only [YNode.kind]
      rfl
  | ycontainer =>
      rw [createdOf, startOf, nf_unfold]
      simp only [YNode.kind]
      rw [nfL_nil]
      rfl

theorem filter_not_contains_nil (l : List XNode) :
    l.filter (fun d => !(([] : List CStr).contains d.name)) = l := by
  induction l with
  | nil => rfl
  | cons a t ih =>
      rw [List.filter_cons]
      simp [ih]

theorem body_mk_none (n : CStr) (opA : Option Op) (cls : List XNode) :
    (XNode.mk n none opA cls).body = none := rfl

/-- Replaying a child's first entry: the per-segment action creates a fresh
node, the stored value becomes its body, and the node is appended below the
descent target. -/
theorem replay_head (ys : YSpec) (segs : List CStr) (R : XNode) (p : List Nat)
    (yctx : Option YNode) (yc : YNode) (c : XNode)
    (hdesc : Desc ys none segs R p yctx)
    (hP : ∀ s ∈ segs, ∀ ch ∈ s, ¬ ch = '/')
    (hwfc : ctxWF ys yctx = true)
    (hl : ylookup ys yctx c.name = some yc)
    (hconf : conforms ys yc c = true)
    (hfresh : freshFor ys yctx (subAt p R) c) :
    get ys (keyOf (joinSegs segs) yc c) c.body R =
      .ok (extendAt p R [createdOf yc c]) := by
  have hwfy : specWFY yc = true := ylookup_wf ys yctx c.name yc hwfc hl
  have hkey : keyOf (joinSegs segs) yc c = joinSegs (segs ++ [segOf yc c]) := by
    rw [joinSegs_snoc, keyOf]
  rw [hkey]
  rw [get_joinSegs ys segs (segOf yc c) c.body R hP
    (segOf_slash_free ys yc c hwfy hconf)]
  rw [getSegs_frame hdesc [segOf yc c] c.body]
  rw [freshFor, hl] at hfresh
  have hseg1 : getSegs ys yctx [segOf yc c] c.body (subAt p R) =
      .ok ((subAt p R).setChildren
        ((subAt p R).children ++ [createdOf yc c]), true) := by
    obtain ⟨yn, yk, ycs⟩ := yc
    cases yk with
    | yleaf =>
        have hspl := segOf_splitEq_leaf ys (.mk yn .yleaf ycs) c rfl hwfy hconf
        simp only [YNode.kind] at hfresh
        have hfind : (subAt p R).children.findIdx?
            (fun w => w.name == c.name) = none :=
          List.findIdx?_eq_none_iff.mpr
            (fun w hw => beq_eq_false_iff_ne.mpr (hfresh w hw))
        have hact := segAction_default_fresh (subAt p R) yn .yleaf ycs
          (Or.inl rfl) c.name none hfind
        rw [getSegs_cons_descend_append ys yctx (segOf (.mk yn .yleaf ycs) c)
          [] c.body (subAt p R) _ _ (by rw [hspl]; exact hl)
          (by rw [hspl]; exact hact)]
        rw [getSegs_nil_val]
        cases hb : c.body with
        | some v =>
            simp only []
            rw [if_pos (body_mk_none _ _ _)]
            rw [createdOf, hb]
            rfl
        | none =>
            simp only []
            rw [createdOf, hb]
            rfl
    | ycontainer =>
        have hspl := segOf_splitEq_container ys (.mk yn .ycontainer ycs) c rfl
          hwfy hconf
        simp only [YNode.kind] at hfresh
        have hfind : (subAt p R).children.findIdx?
            (fun w => w.name == c.name) = none :=
          List.findIdx?_eq_none_iff.mpr
            (fun w hw => beq_eq_false_iff_ne.mpr (hfresh w hw))
        have hact := segAction_default_fresh (subAt p R) yn .ycontainer ycs
          (Or.inr rfl) c.name none hfind
        rw [getSegs_cons_descend_append ys yctx (segOf (.mk yn .ycontainer ycs) c)
          [] c.body (subAt p R) _ _ (by rw [hspl]; exact hl)
          (by rw [hspl]; exact hact)]
        rw [getSegs_nil_val]
        cases hb : c.body with
        | some v =>
            simp only []
            rw [if_pos (body_mk_none _ _ _)]
            rw [createdOf, hb]
            rfl
        | none =>
            simp only []
            rw [createdOf, hb]
            rfl
    | yleaflist =>
        have hspl := segOf_splitEq_leaflist ys (.mk yn .yleaflist ycs) c rfl
          hwfy hconf
        simp only [YNode.kind] at hfresh
        obtain ⟨-, v, hv, -⟩ := conforms_leaflist_shape ys (.mk yn .yleaflist ycs)
          c rfl hconf
        have hact := segAction_leaflist_fresh (subAt p R) yn ycs c.name
          (some (pctEncode ((c.body).getD nullStr)))
          (fun w hw hn => hfresh w hw hn)
        rw [getSegs_cons_descend_append ys yctx (segOf (.mk yn .yleaflist ycs) c)
          [] c.body (subAt p R) _ _ (by rw [hspl]; exact hl)
          (by rw [hspl]; exact hact)]
        rw [getSegs_nil_val]
        rw [hv]
        simp only []
        rw [if_pos (body_mk_none _ _ _)]
        rw [createdOf, hv]
        rfl
    | ylist keys =>
        have hspl := segOf_splitEq_list ys (.mk yn (.ylist keys) ycs) c keys rfl
          hwfy hconf
        simp only [YNode.kind] at hfresh
        obtain ⟨hkne, -, -⟩ := specWFY_list_keys (.mk yn (.ylist keys) ycs) keys
          rfl hwfy
        have hstr := strsep_encVals ys (.mk yn (.ylist keys) ycs) c keys rfl
          hwfy hconf
        have hkvs := kvs_eq ys (.mk yn (.ylist keys) ycs) c keys rfl hwfy hconf
        have hkne2 : ¬ keys.isEmpty = true := by
          cases keys with
          | nil => exact absurd rfl hkne
          | cons k ks => simp
        have hlen : ¬ keys.length ≠ (strsep ','
            (((some (valsJoin (encVals keys c))).getD [] : CStr))).length := by
          simp only [Option.getD_some]
          rw [hstr, encVals, List.length_map]
          omega
        have hfi : (subAt p R).children.findIdx? (xpathKeyMatch c.name
            (keys.zip ((strsep ','
              (((some (valsJoin (encVals keys c))).getD [] : CStr))).map
                pctDecode))) = none := by
          simp only [Option.getD_some]
          rw [hkvs]
          exact List.findIdx?_eq_none_iff.mpr (fun w hw => hfresh w hw)
        have hact := segAction_list_fresh (subAt p R) yn ycs keys c.name
          (some (valsJoin (encVals keys c))) hkne2 hlen hfi
        rw [getSegs_cons_descend_append ys yctx (segOf (.mk yn (.ylist keys) ycs) c)
          [] c.body (subAt p R) _ _ (by rw [hspl]; exact hl)
          (by rw [hspl]; exact hact)]
        rw [getSegs_nil_val]
        cases hb : c.body with
        | some v =>
            simp only []
            rw [if_pos (body_mk_none _ _ _)]
            rw [createdOf, hb, startOf]
            simp only [YNode.kind, Option.getD_some]
            rw [hkvs]
            rfl
        | none =>
            simp only []
            rw [createdOf, hb, startOf]
            simp only [YNode.kind, Option.getD_some]
            rw [hkvs]
            rfl
  rw [hseg1]
  rfl

/-- A descent extends by one step when the per-segment action atter end
selects an existing child. -/
theorem desc_snoc {ys : YSpec} :
    ∀ {yctx0 : Option YNode} {segs : List CStr} {x : XNode} {p : List Nat}
      {yctx : Option YNode}, Desc ys yctx0 segs x p yctx →
    ∀ (seg : CStr) (yc : YNode) (i : Nat),
      ylookup ys yctx (splitEq seg).1 = some yc →
      i < (subAt p x).children.length →
      segAction (subAt p x) yc (splitEq seg).1 (splitEq seg).2 =
        .descend (some i) ((subAt p x).children.getD i dummyX) →
      Desc ys yctx0 (segs ++ [seg]) x (p ++ [i]) (some yc) := by
  intro yctx0 segs x p yctx h
  induction h with
  | nil yctx x =>
      intro seg yc i hl hi ha
      exact Desc.step _ _ _ _ i [] _ yc hl hi ha (Desc.nil _ _)
  | step yctx seg2 segs2 x i2 p2 yz y hl2 hi2 ha2 hrest ih =>
      intro seg yc i hl hi ha
      exact Desc.step _ _ _ _ i2 (p2 ++ [i]) _ y hl2 hi2 ha2 (ih seg yc i hl hi ha)

theorem segAction_append_found_default (z : XNode) (yn : CStr) (yk : YKind)
    (ycs : List YNode) (hk : yk = .yleaf ∨ yk = .ycontainer)
    (n : CStr) (rv : Option CStr) (w : XNode)
    (hall : ∀ u ∈ z.children, ¬ u.name = n) (hw : w.name = n) :
    segAction (z.setChildren (z.children ++ [w])) (.mk yn yk ycs) n rv =
      .descend (some z.children.length)
        ((z.setChildren (z.children ++ [w])).children.getD
          z.children.length dummyX) := by
  have hfi : (z.children ++ [w]).findIdx? (fun u => u.name == n) =
      some z.children.length :=
    findIdx_append_one _ _ _
      (fun u hu => beq_eq_false_iff_ne.mpr (hall u hu)) (by simp [hw])
  rw [segAction_default_found (z.setChildren (z.children ++ [w])) yn yk ycs hk
    n rv z.children.length (by rw [setChildren_children]; exact hfi)]
  rw [setChildren_children,
    getD_indep (z.children ++ [w]) z.children.length
      (XNode.mk n none none []) dummyX (by simp)]

theorem segAction_append_found_list (z : XNode) (yn : CStr) (ycs : List YNode)
    (keys : List CStr) (n : CStr) (rv : Option CStr) (w : XNode)
    (hkne : ¬ keys.isEmpty = true)
    (hlen : ¬ keys.length ≠ (strsep ',' (rv.getD [])).length)
    (hall : ∀ u ∈ z.children, xpathKeyMatch n
      (keys.zip ((strsep ',' (rv.getD [])).map pctDecode)) u = false)
    (hw : xpathKeyMatch n
      (keys.zip ((strsep ',' (rv.getD [])).map pctDecode)) w = true) :
    segAction (z.setChildren (z.children ++ [w])) (.mk yn (.ylist keys) ycs) n rv =
      .descend (some z.children.length)
        ((z.setChildren (z.children ++ [w])).children.getD
          z.children.length dummyX) := by
  have hfi := findIdx_append_one _ z.children w hall hw
  rw [segAction_list_found (z.setChildren (z.children ++ [w])) yn ycs keys
    n rv z.children.length hkne hlen (by rw [setChildren_children]; exact hfi)]
  rw [setChildren_children,
    getD_indep (z.children ++ [w]) z.children.length
      (XNode.mk n none none []) dummyX (by simp)]

/-- Among the key leaves created with a list instance, each declared key is
present with a (decoded) body. -/
theorem findIdx_kvs_leaf (k : CStr) :
    ∀ kvs : List (CStr × CStr), k ∈ kvs.map Prod.fst →
      ∃ j, (kvs.map (fun kv => XNode.mk kv.1 (some kv.2) none [])).findIdx?
          (fun w => w.name == k) = some j ∧
        ¬ ((kvs.map (fun kv => XNode.mk kv.1 (some kv.2) none [])).getD
          j dummyX).body = none := by
  intro kvs
  induction kvs with
  | nil =>
      intro hk
      simp at hk
  | cons kv rest ih =>
      intro hk
      by_cases h : kv.1 = k
      · refine ⟨0, ?_, ?_⟩
        · rw [List.map_cons, List.findIdx?_cons,
            if_pos (by simp [XNode.name, h])]
        · rw [List.map_cons, List.getD_cons_zero]
          simp [XNode.body]
      · have hk2 : k ∈ rest.map Prod.fst := by
          rw [List.map_cons] at hk
          cases hk with
          | head => exact absurd rfl h
          | tail _ h2 => exact h2
        obtain ⟨j, hj, hb⟩ := ih hk2
        refine ⟨j + 1, ?_, ?_⟩
        · rw [List.map_cons, List.findIdx?_cons,
            if_neg (by simp [XNode.name, h]), List.findIdx?_succ, hj]
          rfl
        · rw [List.map_cons, List.getD_cons_succ]
          exact hb

/-- A child whose name is not a declared key is fresh with respect to the
key leaves created with a list instance. -/
theorem freshFor_keyleaves (ys : YSpec) (yctx : Option YNode) (z : XNode)
    (d : XNode) (keys : List CStr) (c : XNode)
    (hz : z.children = (kvsOf keys c).map
      (fun kv => XNode.mk kv.1 (some kv.2) none []))
    (hnot : keys.contains d.name = false) :
    freshFor ys yctx z d := by
  have hnames : ∀ w ∈ z.children, w.name ∈ keys ∧ ¬ w.name = d.name := by
    intro w hw
    rw [hz, List.mem_map] at hw
    obtain ⟨kv, hkv, hwkv⟩ := hw
    have hn : w.name = kv.1 := by rw [← hwkv]; rfl
    have hmem : kv.1 ∈ keys := by
      rw [← kvsOf_names keys c]
      exact List.mem_map_of_mem _ hkv
    refine ⟨by rw [hn]; exact hmem, ?_⟩
    intro he
    have hdm : d.name ∈ keys := by
      rw [← he, hn]
      exact hmem
    have hco : keys.contains d.name = true := by
      rw [List.contains_eq_any_beq, List.any_eq_true]
      exact ⟨d.name, hdm, by simp⟩
    rw [hnot] at hco
    cases hco
  rw [freshFor]
  cases hld : ylookup ys yctx d.name with
  | none => trivial
  | some yd =>
      simp only []
      obtain ⟨dn, dk, dcs⟩ := yd
      cases dk with
      | yleaf =>
          simp only [YNode.kind]
          intro w hw
          exact (hnames w hw).2
      | ycontainer =>
          simp only [YNode.kind]
          intro w hw
          exact (hnames w hw).2
      | yleaflist =>
          simp only [YNode.kind]
          intro w hw hwn
          exact absurd hwn (hnames w hw).2
      | ylist ks2 =>
          simp only [YNode.kind]
          intro w hw
          rw [xpathKeyMatch]
          have : (w.name == d.name) = false :=
            beq_eq_false_iff_ne.mpr (hnames w hw).2
          rw [this]
          rfl

theorem childReady_of_nil (ys : YSpec) (yctx : Option YNode) (z : XNode)
    (d : XNode) (hz : z.children = [])
    (hnk : (keysOfC yctx).contains d.name = false) :
    childReady ys yctx z d := by
  rw [childReady, if_neg (by rw [hnk]; simp)]
  rw [freshFor]
  cases hld : ylookup ys yctx d.name with
  | none => trivial
  | some yd =>
      simp only []
      obtain ⟨dn, dk, dcs⟩ := yd
      cases dk with
      | yleaf =>
          simp only [YNode.kind]
          intro w hw
          rw [hz] at hw
          cases hw
      | ycontainer =>
          simp only [YNode.kind]
          intro w hw
          rw [hz] at hw
          cases hw
      | yleaflist =>
          simp only [YNode.kind]
          intro w hw
          rw [hz] at hw
          cases hw
      | ylist ks2 =>
          simp only [YNode.kind]
          intro w hw
          rw [hz] at hw
          cases hw

/-- A rebuilt list instance with a different key tuple never satisfies the
xpath of another instance: its key leaf for a differing key carries a
different (decoded) value. -/
theorem xpathKeyMatch_tuple_ne (ys : YSpec) (yc : YNode) (c d : XNode)
    (ks : List CStr) (n : CStr)
    (hkc : yc.kind = .ylist ks)
    (hcc : conforms ys yc c = true)
    (htup : tupleOf ks c ≠ tupleOf ks d)
    (hvd : ∀ k ∈ ks, ∃ vd, ((xml_find d k).bind xml_body) = some vd ∧
      valueOk vd = true) :
    xpathKeyMatch n (kvsOf ks d) (nf ys yc c) = false := by
  have hex : ∃ k ∈ ks,
      ((xml_find c k).bind xml_body) ≠ ((xml_find d k).bind xml_body) := by
    by_contra hno
    push_neg at hno
    exact htup (List.map_congr_left hno)
  obtain ⟨k, hk, hne⟩ := hex
  obtain ⟨vd, hvdk, hvdok⟩ := hvd k hk
  obtain ⟨-, vc, hvc, hvcok⟩ := conforms_keys_present ys yc c ks hkc hcc k hk
  have hvcvd : ¬ vc = vd := by
    intro he
    rw [hvc, hvdk, he] at hne
    exact hne rfl
  rw [xpathKeyMatch]
  have hall : ((kvsOf ks d).all (fun kv => (nf ys yc c).children.any
      (fun ch => ch.name == kv.1 && ch.body == some kv.2))) = false := by
    rw [List.all_eq_false]
    have hprobe : (k, vd) ∈ kvsOf ks d := by
      rw [kvsOf, List.mem_map]
      refine ⟨k, hk, ?_⟩
      rw [hvdk]
      simp only [Option.getD_some]
      rw [pctDecode_encode vd hvdok]
    refine ⟨(k, vd), hprobe, ?_⟩
    show ¬ (((nf ys yc c).children.any
      (fun ch => ch.name == k && ch.body == some vd)) = true)
    rw [Bool.not_eq_true]
    rw [List.any_eq_false]
    intro ch hch
    rw [Bool.not_eq_true]
    rw [nf_list_children ys yc c ks hkc, List.mem_append] at hch
    cases hch with
    | inl h =>
        rw [List.mem_map] at h
        obtain ⟨kv2, hkv2m, hchkv⟩ := h
        rw [kvsOf, List.mem_map] at hkv2m
        obtain ⟨k2, hk2, hkv2eq⟩ := hkv2m
        have hchname : ch.name = k2 := by
          rw [← hchkv, ← hkv2eq]
          rfl
        have hchbody : ch.body = some (pctDecode (pctEncode
            (((xml_find c k2).bind xml_body).getD nullStr))) := by
          rw [← hchkv, ← hkv2eq]
          rfl
        by_cases hkk : k2 = k
        · subst hkk
          have hvcd : pctDecode (pctEncode
              (((xml_find c k2).bind xml_body).getD nullStr)) = vc := by
            rw [hvc]
            simp only [Option.getD_some]
            exact pctDecode_encode vc hvcok
          have hb : (ch.body == some vd) = false := by
            rw [hchbody, hvcd]
            exact beq_eq_false_iff_ne.mpr (fun h2 => hvcvd (Option.some.inj h2))
          rw [hb, Bool.and_false]
        · have hn : (ch.name == k) = false := by
            rw [hchname]
            exact beq_eq_false_iff_ne.mpr hkk
          rw [hn, Bool.false_and]
    | inr h =>
        rw [List.mem_filter] at h
        have hnk : ¬ ch.name = k := by
          intro he
          have hcont : ks.contains ch.name = true := by
            rw [List.contains_eq_any_beq, List.any_eq_true]
            exact ⟨ch.name, by rw [he]; exact hk, by simp⟩
          rw [hcont] at h
          simp at h
        have hn : (ch.name == k) = false := beq_eq_false_iff_ne.mpr hnk
        rw [hn, Bool.false_and]
  rw [hall, Bool.and_false]

/-- Readiness of a later sibling is preserved when the rebuilt image of an
earlier, distinguishable sibling is appended. -/
theorem childReady_append (ys : YSpec) (yctx : Option YNode) (z : XNode)
    (c d : XNode) (yc yd : YNode)
    (hlc : ylookup ys yctx c.name = some yc)
    (hld : ylookup ys yctx d.name = some yd)
    (hcc : conforms ys yc c = true)
    (hcd : conforms ys yd d = true)
    (hsib : sibOk ys yctx c d = true)
    (hready : childReady ys yctx z d) :
    childReady ys yctx (z.setChildren (z.children ++ [nf ys yc c])) d := by
  rw [childReady] at hready ⊢
  by_cases hkey : ((keysOfC yctx).contains d.name) = true
  · rw [if_pos hkey] at hready ⊢
    obtain ⟨j, hj, hb⟩ := hready
    have hjlen := (findIdx_spec (fun w => w.name == d.name) dummyX _ j hj).1
    refine ⟨j, ?_, ?_⟩
    · rw [setChildren_children]
      exact findIdx_append_of_some _ _ _ j hj
    · rw [setChildren_children]
      rw [List.getD_append _ _ _ _ hjlen]
      exact hb
  · rw [if_neg hkey] at hready ⊢
    rw [freshFor, hld] at hready ⊢
    have hname_case : c.name = d.name → yc = yd := by
      intro he
      rw [he, hld] at hlc
      exact (Option.some.inj hlc).symm
    obtain ⟨dn, dk, dcs⟩ := yd
    cases dk with
    | yleaf =>
        simp only [YNode.kind] at hready ⊢
        intro w hw
        rw [setChildren_children, List.mem_append] at hw
        cases hw with
        | inl h => exact hready w h
        | inr h =>
            rw [List.mem_singleton] at h
            subst h
            rw [nf_name]
            intro he
            have hyc := hname_case he
            rw [sibOk, he, hld] at hsib
            simp [YNode.kind] at hsib
    | ycontainer =>
        simp only [YNode.kind] at hready ⊢
        intro w hw
        rw [setChildren_children, List.mem_append] at hw
        cases hw with
        | inl h => exact hready w h
        | inr h =>
            rw [List.mem_singleton] at h
            subst h
            rw [nf_name]
            intro he
            have hyc := hname_case he
            rw [sibOk, he, hld] at hsib
            simp [YNode.kind] at hsib
    | yleaflist =>
        simp only [YNode.kind] at hready ⊢
        intro w hw
        rw [setChildren_children, List.mem_append] at hw
        cases hw with
        | inl h => exact hready w h
        | inr h =>
            rw [List.mem_singleton] at h
            subst h
            rw [nf_name]
            intro he
            have hyc := hname_case he
            exact nf_leaflist_children ys yc c (by rw [hyc]; rfl)
    | ylist ks =>
        simp only [YNode.kind] at hready ⊢
        intro w hw
        rw [setChildren_children, List.mem_append] at hw
        cases hw with
        | inl h => exact hready w h
        | inr h =>
            rw [List.mem_singleton] at h
            subst h
            by_cases he : c.name = d.name
            · have hyc := hname_case he
              rw [sibOk, he, hld] at hsib
              have hbeq : (d.name == d.name) = true := by simp
              rw [hbeq] at hsib
              simp only [Bool.not_true, Bool.false_or, YNode.kind] at hsib
              have htup : tupleOf ks c ≠ tupleOf ks d := by
                intro ht
                rw [ht] at hsib
                simp at hsib
              have hvd : ∀ k ∈ ks, ∃ vd2, ((xml_find d k).bind xml_body) =
                  some vd2 ∧ valueOk vd2 = true := fun k hk2 =>
                (conforms_keys_present ys (.mk dn (.ylist ks) dcs) d ks rfl hcd
                  k hk2).2
              exact xpathKeyMatch_tuple_ne ys yc c d ks d.name
                (by rw [hyc]; rfl) hcc htup hvd
            · rw [xpathKeyMatch]
              have hn : ((nf ys yc c).name == d.name) = false := by
                rw [nf_name]
                exact beq_eq_false_iff_ne.mpr he
              rw [hn, Bool.false_and]

theorem xnode_eta (x : XNode) : XNode.mk x.name x.body x.opAttr x.children = x := by
  cases x
  rfl

theorem nf_opAttr (ys : YSpec) (yc : YNode) (c : XNode) :
    (nf ys yc c).opAttr = none := by
  obtain ⟨nm, bd, opA, cls⟩ := c
  rw [nf_unfold]
  cases hk : yc.kind <;> rfl

theorem segOf_leaf (yc : YNode) (c : XNode) (hk : yc.kind = .yleaf) :
    segOf yc c = c.name := by
  rw [segOf, hk]

theorem ents_single (ys : YSpec) (xk : CStr) (yd : YNode) (d : XNode)
    (hnil : d.children = []) :
    ents ys xk yd d = [(keyOf xk yd d, d.body)] := by
  obtain ⟨nm, bd, opA, cls⟩ := d
  have hcls : cls = [] := hnil
  subst hcls
  rw [ents_unfold, entsL_nil]
  rfl

theorem conformsKids_cons_parts (ys : YSpec) (yctx : Option YNode) (c : XNode)
    (rest : List XNode) (h : conformsKids ys yctx (c :: rest) = true) :
    (∃ yc, ylookup ys yctx c.name = some yc ∧ conforms ys yc c = true) ∧
      conformsKids ys yctx rest = true := by
  rw [conformsKids_cons, Bool.and_eq_true] at h
  refine ⟨?_, h.2⟩
  have h1 := h.1
  cases hl : ylookup ys yctx c.name with
  | none =>
      rw [hl] at h1
      simp at h1
  | some yc =>
      rw [hl] at h1
      simp only [] at h1
      exact ⟨yc, rfl, h1⟩

theorem conformsKids_mem (ys : YSpec) (yctx : Option YNode) :
    ∀ xs : List XNode, conformsKids ys yctx xs = true →
      ∀ d ∈ xs, ∃ yd, ylookup ys yctx d.name = some yd ∧
        conforms ys yd d = true := by
  intro xs
  induction xs with
  | nil =>
      intro _ d hd
      cases hd
  | cons c rest ih =>
      intro h d hd
      obtain ⟨⟨yc, hl, hc⟩, hrest⟩ := conformsKids_cons_parts ys yctx c rest h
      cases hd with
      | head => exact ⟨yc, hl, hc⟩
      | tail _ h2 => exact ih hrest d h2

theorem distinctSibs_cons_parts (ys : YSpec) (yctx : Option YNode) (c : XNode)
    (rest : List XNode) (h : distinctSibs ys yctx (c :: rest) = true) :
    (∀ b ∈ rest, sibOk ys yctx c b = true) ∧
      distinctSibs ys yctx rest = true := by
  rw [distinctSibs, Bool.and_eq_true] at h
  exact ⟨List.all_eq_true.mp h.1, h.2⟩

theorem contains_true_mem (l : List CStr) (a : CStr)
    (h : l.contains a = true) : a ∈ l := by
  rw [List.contains_eq_any_beq, List.any_eq_true] at h
  obtain ⟨x, hx, hax⟩ := h
  rw [eq_of_beq hax]
  exact hx

/-- Growing the children of the just-created child at the end of the path is
the same as creating it with those children already appended. -/
theorem extendAt_snoc_assemble (R : XNode) (p : List Nat) (c0 : XNode)
    (ws : List XNode) (hv : validPath p R) :
    extendAt (p ++ [(subAt p R).children.length]) (extendAt p R [c0]) ws =
      extendAt p R [c0.setChildren (c0.children ++ ws)] := by
  have hv1 : validPath p (extendAt p R [c0]) := validPath_extendAt _ _ _ hv
  have hsub1 : subAt p (extendAt p R [c0]) =
      (subAt p R).setChildren ((subAt p R).children ++ [c0]) :=
    subAt_extendAt _ _ _ hv
  have hsub2 : subAt (p ++ [(subAt p R).children.length])
      (extendAt p R [c0]) = c0 := by
    rw [subAt_snoc, hsub1, setChildren_children, getD_append_last]
  show patchAt (p ++ [(subAt p R).children.length]) (extendAt p R [c0]) _ = _
  rw [hsub2]
  rw [patchAt_snoc _ _ _ _ hv1]
  rw [hsub1, setChildren_children, setChildren_setChildren, set_append_last]
  show patchAt p (patchAt p R _) _ = _
  rw [patchAt_patchAt _ _ _ _ hv]
  rfl

theorem getAll_cons_pair (ys : YSpec) (k : CStr) (v : Option CStr)
    (rest : Store) (x : XNode) :
    getAll ys ((k, v) :: rest) x =
      match get ys k v x with
      | .error err => .error err
      | .ok x2 => getAll ys rest x2 := by
  rw [getAll_cons]

/-- The replay invariant: the entries of one conforming subtree rebuild
exactly its image below the descent target, and the entries of a child list
rebuild the images of all children in order, with list-key leaves folded
into the leaves already created with their list instance. -/
theorem replay_main : ∀ fuel : Nat,
    (∀ c : XNode, sizeOf c ≤ fuel → ∀ (ys : YSpec) (segs : List CStr)
      (R : XNode) (p : List Nat) (yctx : Option YNode) (yc : YNode),
      Desc ys none segs R p yctx →
      (∀ s ∈ segs, ∀ ch ∈ s, ¬ ch = '/') →
      ctxWF ys yctx = true →
      ylookup ys yctx c.name = some yc →
      conforms ys yc c = true →
      freshFor ys yctx (subAt p R) c →
      getAll ys (ents ys (joinSegs segs) yc c) R =
        .ok (extendAt p R [nf ys yc c])) ∧
    (∀ cls : List XNode, sizeOf cls ≤ fuel → ∀ (ys : YSpec) (segs : List CStr)
      (R : XNode) (p : List Nat) (yctx : Option YNode),
      Desc ys none segs R p yctx →
      (∀ s ∈ segs, ∀ ch ∈ s, ¬ ch = '/') →
      ctxWF ys yctx = true →
      conformsKids ys yctx cls = true →
      distinctSibs ys yctx cls = true →
      (∀ d ∈ cls, childReady ys yctx (subAt p R) d) →
      getAll ys (entsL ys (joinSegs segs) yctx cls) R =
        .ok (extendAt p R ((nfL ys yctx cls).filter
          (fun d => !((keysOfC yctx).contains d.name))))) := by
  intro fuel
  induction fuel with
  | zero =>
      constructor
      · intro c hc
        exfalso
        obtain ⟨nm, bd, opA, cls⟩ := c
        simp at hc
      · intro cls hcls
        exfalso
        cases cls with
        | nil => simp at hcls
        | cons c rest => simp at hcls
  | succ n ih =>
      constructor
      · -- one subtree
        intro c hc ys segs R p yctx yc hdesc hP hwfc hl hconf hfresh
        have hwfy : specWFY yc = true := ylookup_wf ys yctx c.name yc hwfc hl
        have hv := hdesc.valid
        have hszk : sizeOf c.children ≤ n := by
          obtain ⟨nm, bd, opA, cls⟩ := c
          simp at hc
          show sizeOf cls ≤ n
          omega
        have hents : ents ys (joinSegs segs) yc c =
            (keyOf (joinSegs segs) yc c, c.body) ::
              entsL ys (keyOf (joinSegs segs) yc c) (some yc) c.children := by
          obtain ⟨nm, bd, opA, cls⟩ := c
          rw [ents_unfold]
          rfl
        have hkey : keyOf (joinSegs segs) yc c =
            joinSegs (segs ++ [segOf yc c]) := by
          rw [joinSegs_snoc, keyOf]
        have hhead := replay_head ys segs R p yctx yc c hdesc hP hwfc hl hconf
          hfresh
        rw [hents, getAll_cons_pair, hhead]
        simp only []
        have hP2 : ∀ s ∈ segs ++ [segOf yc c], ∀ ch ∈ s, ¬ ch = '/' := by
          intro s hs
          rw [List.mem_append] at hs
          cases hs with
          | inl h => exact hP s h
          | inr h =>
              rw [List.mem_singleton] at h
              subst h
              exact segOf_slash_free ys yc c hwfy hconf
        obtain ⟨yn, yk, ycs⟩ := yc
        cases yk with
        | yleaf =>
            have hnil := conforms_leaf_shape ys (.mk yn .yleaf ycs) c rfl hconf
            rw [hnil, entsL_nil, getAll_nil,
              createdOf_eq_nf_nil ys (.mk yn .yleaf ycs) c hnil]
        | yleaflist =>
            have hnil := (conforms_leaflist_shape ys (.mk yn .yleaflist ycs) c
              rfl hconf).1
            rw [hnil, entsL_nil, getAll_nil,
              createdOf_eq_nf_nil ys (.mk yn .yleaflist ycs) c hnil]
        | ycontainer =>
            rw [freshFor, hl] at hfresh
            simp only [YNode.kind] at hfresh
            have hdesc1 : Desc ys none segs
                (extendAt p R [createdOf (.mk yn .ycontainer ycs) c]) p yctx :=
              hdesc.extend _
            have hsub1 : subAt p (extendAt p R
                [createdOf (.mk yn .ycontainer ycs) c]) =
                (subAt p R).setChildren ((subAt p R).children ++
                  [createdOf (.mk yn .ycontainer ycs) c]) :=
              subAt_extendAt _ _ _ hv
            have hspl := segOf_splitEq_container ys (.mk yn .ycontainer ycs) c
              rfl hwfy hconf
            have hact := segAction_append_found_default (subAt p R) yn
              .ycontainer ycs (Or.inr rfl) c.name none
              (createdOf (.mk yn .ycontainer ycs) c) hfresh rfl
            have hdesc2 : Desc ys none (segs ++ [segOf (.mk yn .ycontainer ycs) c])
                (extendAt p R [createdOf (.mk yn .ycontainer ycs) c])
                (p ++ [(subAt p R).children.length])
                (some (.mk yn .ycontainer ycs)) := by
              apply desc_snoc hdesc1 (segOf (.mk yn .ycontainer ycs) c) _ _
                (by rw [hspl]; exact hl) ?_ ?_
              · rw [hsub1, setChildren_children]
                simp
              · rw [hsub1, hspl]
                exact hact
            have hsubc : subAt (p ++ [(subAt p R).children.length])
                (extendAt p R [createdOf (.mk yn .ycontainer ycs) c]) =
                createdOf (.mk yn .ycontainer ycs) c := by
              rw [subAt_snoc, hsub1, setChildren_children, getD_append_last]
            have hready2 : ∀ d ∈ c.children, childReady ys
                (some (.mk yn .ycontainer ycs))
                (subAt (p ++ [(subAt p R).children.length])
                  (extendAt p R [createdOf (.mk yn .ycontainer ycs) c])) d := by
              intro d hd
              rw [hsubc]
              exact childReady_of_nil ys _ _ d rfl rfl
            have hrest := (ih.2) c.children hszk ys
              (segs ++ [segOf (.mk yn .ycontainer ycs) c])
              (extendAt p R [createdOf (.mk yn .ycontainer ycs) c])
              (p ++ [(subAt p R).children.length])
              (some (.mk yn .ycontainer ycs)) hdesc2 hP2 hwfy
              (conforms_kids ys _ c hconf) (conforms_sibs ys _ c hconf) hready2
            rw [← hkey] at hrest
            rw [hrest]
            rw [extendAt_snoc_assemble R p
              (createdOf (.mk yn .ycontainer ycs) c) _ hv]
            have hfin : (createdOf (.mk yn .ycontainer ycs) c).setChildren
                ((createdOf (.mk yn .ycontainer ycs) c).children ++
                  ((nfL ys (some (.mk yn .ycontainer ycs)) c.children).filter
                    (fun d =>
                      !((keysOfC (some (.mk yn .ycontainer ycs))).contains
                        d.name)))) =
                nf ys (.mk yn .ycontainer ycs) c := by
              rw [← xnode_eta (nf ys (.mk yn .ycontainer ycs) c), nf_name,
                nf_body, nf_opAttr, nf_container_children ys (.mk yn .ycontainer ycs) c rfl]
              show XNode.mk c.name c.body none
                  ([] ++ ((nfL ys (some (.mk yn .ycontainer ycs))
                    c.children).filter (fun d =>
                      !((keysOfC (some (.mk yn .ycontainer ycs))).contains
                        d.name)))) = _
              rw [List.nil_append]
              show XNode.mk c.name c.body none
                  ((nfL ys (some (.mk yn .ycontainer ycs)) c.children).filter
                    (fun d => !(([] : List CStr).contains d.name))) = _
              rw [filter_not_contains_nil]
            rw [hfin]
        | ylist keys =>
            rw [freshFor, hl] at hfresh
            simp only [YNode.kind] at hfresh
            obtain ⟨hkne, hknodup, hkeysleaf⟩ :=
              specWFY_list_keys (.mk yn (.ylist keys) ycs) keys rfl hwfy
            have hspl := segOf_splitEq_list ys (.mk yn (.ylist keys) ycs) c keys
              rfl hwfy hconf
            have hstr := strsep_encVals ys (.mk yn (.ylist keys) ycs) c keys rfl
              hwfy hconf
            have hkvs := kvs_eq ys (.mk yn (.ylist keys) ycs) c keys rfl hwfy
              hconf
            have hkne2 : ¬ keys.isEmpty = true := by
              cases keys with
              | nil => exact absurd rfl hkne
              | cons k ks => simp
            have hlen2 : ¬ keys.length ≠ (strsep ','
                (((some (valsJoin (encVals keys c))).getD [] : CStr))).length := by
              simp only [Option.getD_some]
              rw [hstr, encVals, List.length_map]
              omega
            have hallfalse : ∀ u ∈ (subAt p R).children, xpathKeyMatch c.name
                (keys.zip ((strsep ','
                  (((some (valsJoin (encVals keys c))).getD [] : CStr))).map
                    pctDecode)) u = false := by
              intro u hu
              simp only [Option.getD_some]
              rw [hkvs]
              exact hfresh u hu
            have hw : xpathKeyMatch c.name
                (keys.zip ((strsep ','
                  (((some (valsJoin (encVals keys c))).getD [] : CStr))).map
                    pctDecode)) (createdOf (.mk yn (.ylist keys) ycs) c)
                = true := by
              simp only [Option.getD_some]
              rw [hkvs]
              show xpathKeyMatch c.name (kvsOf keys c)
                (XNode.mk c.name c.body none ((kvsOf keys c).map
                  (fun kv => XNode.mk kv.1 (some kv.2) none []))) = true
              exact xpathKeyMatch_self c.name (kvsOf keys c) c.body none
            have hdesc1 : Desc ys none segs
                (extendAt p R [createdOf (.mk yn (.ylist keys) ycs) c]) p yctx :=
              hdesc.extend _
            have hsub1 : subAt p (extendAt p R
                [createdOf (.mk yn (.ylist keys) ycs) c]) =
                (subAt p R).setChildren ((subAt p R).children ++
                  [createdOf (.mk yn (.ylist keys) ycs) c]) :=
              subAt_extendAt _ _ _ hv
            have hact := segAction_append_found_list (subAt p R) yn ycs keys
              c.name (some (valsJoin (encVals keys c)))
              (createdOf (.mk yn (.ylist keys) ycs) c) hkne2 hlen2 hallfalse hw
            have hdesc2 : Desc ys none
                (segs ++ [segOf (.mk yn (.ylist keys) ycs) c])
                (extendAt p R [createdOf (.mk yn (.ylist keys) ycs) c])
                (p ++ [(subAt p R).children.length])
                (some (.mk yn (.ylist keys) ycs)) := by
              apply desc_snoc hdesc1 (segOf (.mk yn (.ylist keys) ycs) c) _ _
                (by rw [hspl]; exact hl) ?_ ?_
              · rw [hsub1, setChildren_children]
                simp
              · rw [hsub1, hspl]
                exact hact
            have hsubc : subAt (p ++ [(subAt p R).children.length])
                (extendAt p R [createdOf (.mk yn (.ylist keys) ycs) c]) =
                createdOf (.mk yn (.ylist keys) ycs) c := by
              rw [subAt_snoc, hsub1, setChildren_children, getD_append_last]
            have hready2 : ∀ d ∈ c.children, childReady ys
                (some (.mk yn (.ylist keys) ycs))
                (subAt (p ++ [(subAt p R).children.length])
                  (extendAt p R [createdOf (.mk yn (.ylist keys) ycs) c])) d := by
              intro d hd
              rw [hsubc]
              rw [childReady]
              by_cases hkd : keys.contains d.name = true
              · rw [if_pos (show (keysOfC (some (YNode.mk yn (.ylist keys)
                  ycs))).contains d.name = true from hkd)]
                have hmem : d.name ∈ (kvsOf keys c).map Prod.fst := by
                  rw [kvsOf_names]
                  exact contains_true_mem _ _ hkd
                exact findIdx_kvs_leaf d.name (kvsOf keys c) hmem
              · rw [if_neg (show ¬ (keysOfC (some (YNode.mk yn (.ylist keys)
                  ycs))).contains d.name = true from hkd)]
                exact freshFor_keyleaves ys _ _ d keys c rfl
                  (by simpa using hkd)
            have hrest := (ih.2) c.children hszk ys
              (segs ++ [segOf (.mk yn (.ylist keys) ycs) c])
              (extendAt p R [createdOf (.mk yn (.ylist keys) ycs) c])
              (p ++ [(subAt p R).children.length])
              (some (.mk yn (.ylist keys) ycs)) hdesc2 hP2 hwfy
              (conforms_kids ys _ c hconf) (conforms_sibs ys _ c hconf) hready2
            rw [← hkey] at hrest
            rw [hrest]
            rw [extendAt_snoc_assemble R p
              (createdOf (.mk yn (.ylist keys) ycs) c) _ hv]
            have hfin : (createdOf (.mk yn (.ylist keys) ycs) c).setChildren
                ((createdOf (.mk yn (.ylist keys) ycs) c).children ++
                  ((nfL ys (some (.mk yn (.ylist keys) ycs)) c.children).filter
                    (fun d =>
                      !((keysOfC (some (.mk yn (.ylist keys) ycs))).contains
                        d.name)))) =
                nf ys (.mk yn (.ylist keys) ycs) c := by
              rw [← xnode_eta (nf ys (.mk yn (.ylist keys) ycs) c), nf_name,
                nf_body, nf_opAttr, nf_list_children ys (.mk yn (.ylist keys) ycs) c keys rfl]
              rfl
            rw [hfin]
      · -- the child-list loop
        intro cls hcls ys segs R p yctx hdesc hP hwfc hkids hsibs hready
        have hv := hdesc.valid
        cases cls with
        | nil =>
            rw [entsL_nil, getAll_nil, nfL_nil, List.filter_nil,
              extendAt_nil_ws p R hv]
        | cons c rest =>
            have hszc : sizeOf c ≤ n := by
              simp at hcls
              omega
            have hszr : sizeOf rest ≤ n := by
              simp at hcls
              omega
            obtain ⟨⟨yc, hl, hc⟩, hkidsr⟩ :=
              conformsKids_cons_parts ys yctx c rest hkids
            obtain ⟨hsibhead, hsibsr⟩ :=
              distinctSibs_cons_parts ys yctx c rest hsibs
            rw [entsL_cons, hl]
            simp only []
            rw [nfL_cons, hl]
            simp only []
            rw [getAll_append]
            by_cases hkeyc : ((keysOfC yctx).contains c.name) = true
            · -- a list-key leaf: its entry is a no-op
              cases yctx with
              | none =>
                  exfalso
                  have hz : (keysOfC none).contains c.name = false := rfl
                  rw [hz] at hkeyc
                  cases hkeyc
              | some y =>
                  obtain ⟨ynm, ykk, ycls⟩ := y
                  cases ykk with
                  | yleaf =>
                      exfalso
                      have hz : (keysOfC (some (YNode.mk ynm .yleaf
                        ycls))).contains c.name = false := rfl
                      rw [hz] at hkeyc
                      cases hkeyc
                  | yleaflist =>
                      exfalso
                      have hz : (keysOfC (some (YNode.mk ynm .yleaflist
                        ycls))).contains c.name = false := rfl
                      rw [hz] at hkeyc
                      cases hkeyc
                  | ycontainer =>
                      exfalso
                      have hz : (keysOfC (some (YNode.mk ynm .ycontainer
                        ycls))).contains c.name = false := rfl
                      rw [hz] at hkeyc
                      cases hkeyc
                  | ylist keys0 =>
                      have hmem : c.name ∈ keys0 := contains_true_mem _ _
                        (show keys0.contains c.name = true from hkeyc)
                      have hwfY : specWFY (YNode.mk ynm (.ylist keys0) ycls)
                        = true := hwfc
                      obtain ⟨-, -, hkl⟩ := specWFY_list_keys
                        (YNode.mk ynm (.ylist keys0) ycls) keys0 rfl hwfY
                      obtain ⟨yk2, hfind2, hkleaf⟩ := hkl c.name hmem
                      have hyc2 : yc = yk2 := by
                        have h2 : ylookup ys (some (YNode.mk ynm (.ylist keys0)
                            ycls)) c.name = some yk2 := hfind2
                        rw [hl] at h2
                        exact Option.some.inj h2
                      subst hyc2
                      have hnil := conforms_leaf_shape ys yc c hkleaf hc
                      have hsg : segOf yc c = c.name := segOf_leaf yc c hkleaf
                      rw [ents_single ys _ yc c hnil]
                      have hkeyeq : keyOf (joinSegs segs) yc c =
                          joinSegs (segs ++ [c.name]) := by
                        rw [joinSegs_snoc, keyOf, hsg]
                      rw [getAll_cons_pair, hkeyeq]
                      have hrc := hready c (List.mem_cons_self c rest)
                      rw [childReady, if_pos hkeyc] at hrc
                      obtain ⟨j, hj, hb⟩ := hrc
                      have hnmfree : ∀ ch ∈ c.name, ¬ ch = '/' ∧ ¬ ch = '=' := by
                        intro ch hch
                        have h3 := segName_free ys yc c
                          (ylookup_wf ys _ c.name yc hwfc hl) hc ch hch
                        exact ⟨h3.1, h3.2.1⟩
                      rw [get_existing_leaf_noop ys segs c.name c.body R p _
                        yc j hdesc hP hnmfree hl hkleaf hj hb]
                      simp only []
                      rw [getAll_nil]
                      simp only []
                      have hrest := (ih.2) rest hszr ys segs R p _ hdesc hP
                        hwfc hkidsr hsibsr
                        (fun d hd => hready d (List.mem_cons_of_mem c hd))
                      rw [hrest]
                      have hpredf : (!((keysOfC (some (YNode.mk ynm
                          (.ylist keys0) ycls))).contains
                            (nf ys yc c).name)) = false := by
                        rw [nf_name]
                        rw [show (keysOfC (some (YNode.mk ynm (.ylist keys0)
                          ycls))).contains c.name = true from hkeyc]
                        rfl
                      rw [List.singleton_append, List.filter_cons, hpredf]
                      rw [if_neg (by simp)]
            · -- an ordinary child: replay its subtree, then the rest
              have hfreshc : freshFor ys yctx (subAt p R) c := by
                have hrc := hready c (List.mem_cons_self c rest)
                rw [childReady, if_neg hkeyc] at hrc
                exact hrc
              have hchunk := (ih.1) c hszc ys segs R p yctx yc hdesc hP hwfc
                hl hc hfreshc
              rw [hchunk]
              simp only []
              have hdesc1 : Desc ys none segs (extendAt p R [nf ys yc c]) p
                  yctx := hdesc.extend _
              have hready1 : ∀ d ∈ rest, childReady ys yctx
                  (subAt p (extendAt p R [nf ys yc c])) d := by
                intro d hd
                rw [subAt_extendAt _ _ _ hv]
                obtain ⟨yd, hld, hcd⟩ := conformsKids_mem ys yctx rest hkidsr
                  d hd
                exact childReady_append ys yctx (subAt p R) c d yc yd hl hld
                  hc hcd (hsibhead d hd)
                  (hready d (List.mem_cons_of_mem c hd))
              have hrest := (ih.2) rest hszr ys segs
                (extendAt p R [nf ys yc c]) p yctx hdesc1 hP hwfc hkidsr
                hsibsr hready1
              rw [hrest]
              rw [extendAt_extendAt p R _ _ hv]
              have hpredt : (!((keysOfC yctx).contains
                  (nf ys yc c).name)) = true := by
                rw [nf_name]
                rw [show (keysOfC yctx).contains c.name = false by
                  simpa using hkeyc]
                rfl
              rw [List.singleton_append, List.singleton_append,
                List.filter_cons, hpredt]
              rw [if_pos rfl]

/-! ## Distinctness of the written keys -/

theorem takeWhile_until (sep : Char) :
    ∀ (a r : CStr), (∀ ch ∈ a, ¬ ch = sep) →
      (r = [] ∨ ∃ t, r = sep :: t) →
      (a ++ r).takeWhile (fun ch => !(ch == sep)) = a := by
  intro a
  induction a with
  | nil =>
      intro r _ hr
      cases hr with
      | inl h =>
          subst h
          rfl
      | inr h =>
          obtain ⟨t, ht⟩ := h
          subst ht
          show (sep :: t).takeWhile (fun ch => !(ch == sep)) = []
          rw [List.takeWhile_cons]
          rw [if_neg (by simp)]
  | cons c a2 ih =>
      intro r ha hr
      show ((c :: (a2 ++ r)).takeWhile (fun ch => !(ch == sep))) = c :: a2
      rw [List.takeWhile_cons]
      rw [if_pos (by simp [ha c (List.mem_cons_self c a2)])]
      rw [ih r (fun ch hch => ha ch (List.mem_cons_of_mem c hch)) hr]

/-- A key that extends a base key (equal to it, or deeper below a slash). -/
def KeyExt (base k : CStr) : Prop := k = base ∨ ∃ r, k = base ++ '/' :: r

theorem keyExt_ne (pk segA segB kA kB : CStr)
    (hA : KeyExt (pk ++ '/' :: segA) kA) (hB : KeyExt (pk ++ '/' :: segB) kB)
    (hsA : ∀ ch ∈ segA, ¬ ch = '/') (hsB : ∀ ch ∈ segB, ¬ ch = '/')
    (hne : ¬ segA = segB) : ¬ kA = kB := by
  have hshape : ∀ (sg k : CStr), KeyExt (pk ++ '/' :: sg) k →
      ∃ r, k = pk ++ '/' :: (sg ++ r) ∧ (r = [] ∨ ∃ t, r = '/' :: t) := by
    intro sg k hk
    cases hk with
    | inl h =>
        refine ⟨[], ?_, Or.inl rfl⟩
        rw [h, List.append_nil]
    | inr h =>
        obtain ⟨r, hr⟩ := h
        refine ⟨'/' :: r, ?_, Or.inr ⟨r, rfl⟩⟩
        rw [hr, List.append_assoc]
        rfl
  obtain ⟨rA, hkA, hrA⟩ := hshape segA kA hA
  obtain ⟨rB, hkB, hrB⟩ := hshape segB kB hB
  intro he
  rw [hkA, hkB] at he
  have h2 := List.append_cancel_left he
  have h3 : segA ++ rA = segB ++ rB := by
    injection h2
  have h4 : segA = segB := by
    rw [← takeWhile_until '/' segA rA hsA hrA,
      ← takeWhile_until '/' segB rB hsB hrB, h3]
  exact hne h4

theorem segOf_shape (ys : YSpec) (y : YNode) (x : XNode)
    (hwf : specWFY y = true) (hc : conforms ys y x = true) :
    ∃ suffix, segOf y x = x.name ++ suffix ∧
      (suffix = [] ∨ ∃ t, suffix = '=' :: t) := by
  cases hk : y.kind with
  | yleaf =>
      refine ⟨[], ?_, Or.inl rfl⟩
      rw [segOf, hk, List.append_nil]
  | ycontainer =>
      refine ⟨[], ?_, Or.inl rfl⟩
      rw [segOf, hk, List.append_nil]
  | yleaflist =>
      exact ⟨'=' :: pctEncode ((x.body).getD nullStr), by rw [segOf, hk],
        Or.inr ⟨_, rfl⟩⟩
  | ylist keys =>
      obtain ⟨hkne, -, -⟩ := specWFY_list_keys y keys hk hwf
      cases keys with
      | nil => exact absurd rfl hkne
      | cons k ks =>
          refine ⟨'=' :: valsJoin (encVals (k :: ks) x), ?_, Or.inr ⟨_, rfl⟩⟩
          rw [segOf, hk]
          simp only []
          rw [listSuffixAux_true]

theorem segOf_name_part (ys : YSpec) (y : YNode) (x : XNode)
    (hwf : specWFY y = true) (hc : conforms ys y x = true) :
    (segOf y x).takeWhile (fun ch => !(ch == '=')) = x.name := by
  obtain ⟨suffix, hseg, hsfx⟩ := segOf_shape ys y x hwf hc
  rw [hseg]
  exact takeWhile_until '=' x.name suffix
    (fun ch hch => (segName_free ys y x hwf hc ch hch).2.1) hsfx

/-- Distinguishable same-level siblings contribute distinct key segments. -/
theorem segOf_inj_sib (ys : YSpec) (yctx : Option YNode) (a b : XNode)
    (ya yb : YNode)
    (hwfc : ctxWF ys yctx = true)
    (hla : ylookup ys yctx a.name = some ya)
    (hlb : ylookup ys yctx b.name = some yb)
    (hca : conforms ys ya a = true) (hcb : conforms ys yb b = true)
    (hsib : sibOk ys yctx a b = true) :
    ¬ segOf ya a = segOf yb b := by
  intro he
  have hwfa := ylookup_wf ys yctx a.name ya hwfc hla
  have hwfb := ylookup_wf ys yctx b.name yb hwfc hlb
  have hnames : a.name = b.name := by
    have h1 := segOf_name_part ys ya a hwfa hca
    have h2 := segOf_name_part ys yb b hwfb hcb
    rw [← h1, ← h2, he]
  have hyy : ya = yb := by
    rw [hnames, hlb] at hla
    exact (Option.some.inj hla).symm
  subst hyy
  rw [sibOk, hnames] at hsib
  have hbeq : (b.name == b.name) = true := by simp
  rw [hbeq] at hsib
  simp only [Bool.not_true, Bool.false_or] at hsib
  rw [hlb] at hsib
  obtain ⟨yan, yak, yacs⟩ := ya
  cases yak with
  | yleaf => simp [YNode.kind] at hsib
  | ycontainer => simp [YNode.kind] at hsib
  | yleaflist =>
      simp only [YNode.kind] at hsib
      obtain ⟨-, va, hva, hvaok⟩ :=
        conforms_leaflist_shape ys (.mk yan .yleaflist yacs) a rfl hca
      obtain ⟨-, vb, hvb, hvbok⟩ :=
        conforms_leaflist_shape ys (.mk yan .yleaflist yacs) b rfl hcb
      have hsa : segOf (.mk yan .yleaflist yacs) a =
          a.name ++ '=' :: pctEncode va := by
        rw [segOf]
        simp only [YNode.kind]
        rw [hva]
        rfl
      have hsb : segOf (.mk yan .yleaflist yacs) b =
          b.name ++ '=' :: pctEncode vb := by
        rw [segOf]
        simp only [YNode.kind]
        rw [hvb]
        rfl
      rw [hsa, hsb, hnames] at he
      have h2 := List.append_cancel_left he
      have h3 : pctEncode va = pctEncode vb := by
        injection h2
      have hvv : va = vb := by
        rw [← pctDecode_encode va hvaok, ← pctDecode_encode vb hvbok, h3]
      rw [hva, hvb, hvv] at hsib
      simp at hsib
  | ylist keys =>
      simp only [YNode.kind] at hsib
      have htup : tupleOf keys a ≠ tupleOf keys b := by
        intro ht
        rw [ht] at hsib
        simp at hsib
      have hva := segOf_splitEq_list ys (.mk yan (.ylist keys) yacs) a keys rfl
        hwfa hca
      have hvb := segOf_splitEq_list ys (.mk yan (.ylist keys) yacs) b keys rfl
        hwfb hcb
      have hpair : ((a.name : CStr), some (valsJoin (encVals keys a))) =
          (b.name, some (valsJoin (encVals keys b))) := by
        rw [← hva, ← hvb, he]
      have hvj : valsJoin (encVals keys a) = valsJoin (encVals keys b) := by
        have h5 := congrArg Prod.snd hpair
        simpa using h5
      have henc : encVals keys a = encVals keys b := by
        rw [← strsep_encVals ys (.mk yan (.ylist keys) yacs) a keys rfl hwfa hca,
          ← strsep_encVals ys (.mk yan (.ylist keys) yacs) b keys rfl hwfb hcb,
          hvj]
      rw [encVals, encVals] at henc
      have hpt := List.map_inj_left.mp henc
      apply htup
      rw [tupleOf, tupleOf]
      apply List.map_congr_left
      intro k hk
      obtain ⟨-, va2, hva2, hvaok2⟩ := conforms_keys_present ys
        (.mk yan (.ylist keys) yacs) a keys rfl hca k hk
      obtain ⟨-, vb2, hvb2, hvbok2⟩ := conforms_keys_present ys
        (.mk yan (.ylist keys) yacs) b keys rfl hcb k hk
      have h6 := hpt k hk
      rw [hva2, hvb2] at h6 ⊢
      simp only [Option.getD_some] at h6
      have h7 : va2 = vb2 := by
        rw [← pctDecode_encode va2 hvaok2, ← pctDecode_encode vb2 hvbok2, h6]
      rw [h7]

/-- Every written key extends the canonical key of the node (resp. of some
child) it belongs to. -/
theorem ents_key_shape : ∀ fuel : Nat,
    (∀ x : XNode, sizeOf x ≤ fuel → ∀ (ys : YSpec) (xk0 : CStr) (y : YNode)
      (k : CStr), k ∈ (ents ys xk0 y x).map Prod.fst →
      KeyExt (keyOf xk0 y x) k) ∧
    (∀ xs : List XNode, sizeOf xs ≤ fuel → ∀ (ys : YSpec) (xk : CStr)
      (yctx : Option YNode) (k : CStr),
      k ∈ (entsL ys xk yctx xs).map Prod.fst →
      ∃ c ∈ xs, ∃ yc, ylookup ys yctx c.name = some yc ∧
        KeyExt (keyOf xk yc c) k) := by
  intro fuel
  induction fuel with
  | zero =>
      constructor
      · intro x hx
        exfalso
        obtain ⟨nm, bd, opA, cls⟩ := x
        simp at hx
      · intro xs hxs
        exfalso
        cases xs with
        | nil => simp at hxs
        | cons c rest => simp at hxs
  | succ n ih =>
      constructor
      · intro x hx ys xk0 y k hk
        obtain ⟨nm, bd, opA, cls⟩ := x
        have hszk : sizeOf cls ≤ n := by
          simp at hx
          omega
        rw [ents_unfold, List.map_cons] at hk
        cases hk with
        | head => exact Or.inl rfl
        | tail _ h2 =>
            obtain ⟨c, hc, yc, hl, hext⟩ := (ih.2) cls hszk ys _ (some y) k h2
            right
            cases hext with
            | inl h =>
                refine ⟨segOf yc c, ?_⟩
                rw [h]
                rfl
            | inr h =>
                obtain ⟨r, hr⟩ := h
                refine ⟨segOf yc c ++ '/' :: r, ?_⟩
                rw [hr]
                show (keyOf xk0 y (XNode.mk nm bd opA cls) ++
                  '/' :: segOf yc c) ++ '/' :: r = _
                rw [List.append_assoc]
                rfl
      · intro xs hxs ys xk yctx k hk
        cases xs with
        | nil =>
            rw [entsL_nil] at hk
            cases hk
        | cons c rest =>
            have hszc : sizeOf c ≤ n := by
              simp at hxs
              omega
            have hszr : sizeOf rest ≤ n := by
              simp at hxs
              omega
            rw [entsL_cons] at hk
            cases hl : ylookup ys yctx c.name with
            | none =>
                rw [hl] at hk
                simp only [] at hk
                rw [List.nil_append] at hk
                obtain ⟨c2, hc2, yc2, hl2, hext⟩ :=
                  (ih.2) rest hszr ys xk yctx k hk
                exact ⟨c2, List.mem_cons_of_mem c hc2, yc2, hl2, hext⟩
            | some yc =>
                rw [hl] at hk
                simp only [] at hk
                rw [List.map_append, List.mem_append] at hk
                cases hk with
                | inl h =>
                    exact ⟨c, List.mem_cons_self c rest, yc, hl,
                      (ih.1) c hszc ys xk yc k h⟩
                | inr h =>
                    obtain ⟨c2, hc2, yc2, hl2, hext⟩ :=
                      (ih.2) rest hszr ys xk yctx k h
                    exact ⟨c2, List.mem_cons_of_mem c hc2, yc2, hl2, hext⟩

/-- Distinctness of the written keys of a conforming subtree / child list. -/
theorem ents_keys_nodup : ∀ fuel : Nat,
    (∀ x : XNode, sizeOf x ≤ fuel → ∀ (ys : YSpec) (xk0 : CStr) (y : YNode),
      specWFY y = true → conforms ys y x = true →
      ((ents ys xk0 y x).map Prod.fst).Nodup) ∧
    (∀ xs : List XNode, sizeOf xs ≤ fuel → ∀ (ys : YSpec) (xk : CStr)
      (yctx : Option YNode),
      ctxWF ys yctx = true → conformsKids ys yctx xs = true →
      distinctSibs ys yctx xs = true →
      ((entsL ys xk yctx xs).map Prod.fst).Nodup) := by
  intro fuel
  induction fuel with
  | zero =>
      constructor
      · intro x hx
        exfalso
        obtain ⟨nm, bd, opA, cls⟩ := x
        simp at hx
      · intro xs hxs
        exfalso
        cases xs with
        | nil => simp at hxs
        | cons c rest => simp at hxs
  | succ n ih =>
      constructor
      · intro x hx ys xk0 y hwf hconf
        obtain ⟨nm, bd, opA, cls⟩ := x
        have hszk : sizeOf cls ≤ n := by
          simp at hx
          omega
        obtain ⟨hnm, hopA, hkids, hsibs⟩ :=
          conforms_parts ys y nm bd opA cls hconf
        rw [ents_unfold, List.map_cons, List.nodup_cons]
        constructor
        · intro hmem
          have hmem2 : keyOf xk0 y (XNode.mk nm bd opA cls) ∈
              (entsL ys (keyOf xk0 y (XNode.mk nm bd opA cls)) (some y)
                cls).map Prod.fst := hmem
          obtain ⟨c, hc, yc, hl, hext⟩ := (ents_key_shape (sizeOf cls)).2 cls
            (le_refl _) ys _ (some y) _ hmem2
          cases hext with
          | inl h =>
              have h2 : keyOf xk0 y (XNode.mk nm bd opA cls) =
                  keyOf xk0 y (XNode.mk nm bd opA cls) ++
                    '/' :: segOf yc c := h
              have hlen := congrArg List.length h2
              simp only [List.length_append, List.length_cons] at hlen
              omega
          | inr h =>
              obtain ⟨r, hr⟩ := h
              have h2 : keyOf xk0 y (XNode.mk nm bd opA cls) =
                  (keyOf xk0 y (XNode.mk nm bd opA cls) ++
                    '/' :: segOf yc c) ++ '/' :: r := hr
              have hlen := congrArg List.length h2
              simp only [List.length_append, List.length_cons] at hlen
              omega
        · exact (ih.2) cls hszk ys _ (some y) hwf hkids hsibs
      · intro xs hxs ys xk yctx hwfc hkids hsibs
        cases xs with
        | nil =>
            rw [entsL_nil]
            simp
        | cons c rest =>
            have hszc : sizeOf c ≤ n := by
              simp at hxs
              omega
            have hszr : sizeOf rest ≤ n := by
              simp at hxs
              omega
            obtain ⟨⟨yc, hl, hc⟩, hkidsr⟩ :=
              conformsKids_cons_parts ys yctx c rest hkids
            obtain ⟨hsibhead, hsibsr⟩ :=
              distinctSibs_cons_parts ys yctx c rest hsibs
            have hwfyc := ylookup_wf ys yctx c.name yc hwfc hl
            rw [entsL_cons, hl]
            simp only []
            rw [List.map_append, List.nodup_append]
            refine ⟨(ih.1) c hszc ys xk yc hwfyc hc,
              (ih.2) rest hszr ys xk yctx hwfc hkidsr hsibsr, ?_⟩
            intro k hk1 hk2
            have hext1 := (ents_key_shape (sizeOf c)).1 c (le_refl _) ys xk yc
              k hk1
            obtain ⟨b, hb, yb, hlb, hext2⟩ := (ents_key_shape (sizeOf rest)).2
              rest (le_refl _) ys xk yctx k hk2
            obtain ⟨yb2, hlb2, hcb⟩ := conformsKids_mem ys yctx rest hkidsr b hb
            have hyb : yb2 = yb := by
              rw [hlb] at hlb2
              exact (Option.some.inj hlb2).symm
            subst hyb
            have hwfyb := ylookup_wf ys yctx b.name yb2 hwfc hlb
            have hsegne := segOf_inj_sib ys yctx c b yc yb2 hwfc hl hlb hc hcb
              (hsibhead b hb)
            exact keyExt_ne xk (segOf yc c) (segOf yb2 b) k k hext1 hext2
              (segOf_slash_free ys yc c hwfyc hc)
              (segOf_slash_free ys yb2 b hwfyb hcb) hsegne rfl

/-! ## Top-level write and read-back -/

/-- The top-level loop of `kv_put` under MERGE writes exactly the encoded
entries of all top-level children. -/
theorem putTops_writes_ents (ys : YSpec) :
    ∀ (tops : List XNode) (s : Store),
      conformsKids ys none tops = true →
      distinctSibs ys none tops = true →
      (∀ e ∈ entsL ys [] none tops, db_exists s e.1 = false) →
      ((entsL ys [] none tops).map Prod.fst).Nodup →
      putTops s tops ys .merge = .ok (s ++ entsL ys [] none tops) := by
  intro tops
  induction tops with
  | nil =>
      intro s _ _ _ _
      rw [putTops, entsL_nil, List.append_nil]
  | cons c rest ih =>
      intro s hkids hsibs hfresh hnodup
      obtain ⟨⟨yc, hl, hc⟩, hkidsr⟩ := conformsKids_cons_parts ys none c rest
        hkids
      obtain ⟨-, hsibsr⟩ := distinctSibs_cons_parts ys none c rest hsibs
      rw [entsL_cons, hl] at hfresh hnodup ⊢
      simp only [] at hfresh hnodup ⊢
      rw [List.map_append, List.nodup_append] at hnodup
      rw [putTops]
      have hl2 : yang_find_topnode ys c.name = some yc := hl
      rw [hl2]
      have hput := (put_merge_writes_ents (sizeOf c)).1 c (le_refl _) ys s yc []
        hc (fun e he => hfresh e (List.mem_append.mpr (Or.inl he))) hnodup.1
      show (match put s c yc .merge [] with
            | Except.error e => Except.error e
            | Except.ok s2 => putTops s2 rest ys .merge)
          = Except.ok (s ++ (ents ys [] yc c ++ entsL ys [] none rest))
      rw [hput]
      show putTops (s ++ ents ys [] yc c) rest ys .merge
          = .ok (s ++ (ents ys [] yc c ++ entsL ys [] none rest))
      have hfresh2 : ∀ e ∈ entsL ys [] none rest,
          db_exists (s ++ ents ys [] yc c) e.1 = false := by
        intro e he
        rw [db_exists_append]
        rw [hfresh e (List.mem_append.mpr (Or.inr he))]
        simp only [Bool.false_or]
        rw [db_exists_false_iff]
        intro e2 he2 heq
        have h1 : e2.1 ∈ List.map Prod.fst (ents ys [] yc c) :=
          List.mem_map_of_mem Prod.fst he2
        have h2 : e2.1 ∈ List.map Prod.fst (entsL ys [] none rest) := by
          rw [heq]
          exact List.mem_map_of_mem Prod.fst he
        exact hnodup.2.2 h1 h2
      rw [ih (s ++ ents ys [] yc c) hkidsr hsibsr hfresh2 hnodup.2.1]
      simp

/-- Replaying the full store dump from the empty root rebuilds the images of
all top-level subtrees. -/
theorem getAll_entsL_top (ys : YSpec) (tops : List XNode)
    (hwf : specWF ys = true)
    (hkids : conformsKids ys none tops = true)
    (hsibs : distinctSibs ys none tops = true) :
    getAll ys (entsL ys [] none tops) configRoot =
      .ok (XNode.mk (cs "config") none none (nfL ys none tops)) := by
  have h := (replay_main (sizeOf tops)).2 tops (le_refl _) ys [] configRoot []
    none (Desc.nil none configRoot) (by intro s hs; cases hs) hwf hkids hsibs
    (fun d hd => childReady_of_nil ys none configRoot d rfl rfl)
  rw [show joinSegs ([] : List CStr) = ([] : CStr) from rfl] at h
  rw [h]
  have h2 : extendAt [] configRoot ((nfL ys none tops).filter
      (fun d => !((keysOfC none).contains d.name))) =
      XNode.mk (cs "config") none none (nfL ys none tops) := by
    show configRoot.setChildren (configRoot.children ++ _) = _
    rw [show configRoot.children = ([] : List XNode) from rfl, List.nil_append]
    show XNode.mk (cs "config") none none ((nfL ys none tops).filter
      (fun d => !(([] : List CStr).contains d.name))) = _
    rw [filter_not_contains_nil]
  rw [h2]

/-! ## Structural reproduction up to child reordering

This relation follows the spec's words for the round-trip claim: the read
tree, restricted to the written tree's populated paths, reproduces its
structure and body values exactly, up to reordering of children. -/

mutual

/-- `Sim a b`: `b` has `a`'s name and body, and its children are a
permutation of pointwise reproductions of `a`'s children. -/
inductive Sim : XNode → XNode → Prop where
  | mk : ∀ (a b : XNode) (l : List XNode),
      b.name = a.name → b.body = a.body →
      SimL a.children l → l.Perm b.children → Sim a b

/-- Pointwise reproduction of a child list. -/
inductive SimL : List XNode → List XNode → Prop where
  | nil : SimL [] []
  | cons : ∀ (a b : XNode) (as2 bs2 : List XNode),
      Sim a b → SimL as2 bs2 → SimL (a :: as2) (b :: bs2)

end

/-- The rebuilt image of a child under its looked-up schema node. -/
def nfOf (ys : YSpec) (yctx : Option YNode) (d : XNode) : XNode :=
  match ylookup ys yctx d.name with
  | some yd => nf ys yd d
  | none => d

theorem nfOf_name (ys : YSpec) (yctx : Option YNode) (d : XNode) :
    (nfOf ys yctx d).name = d.name := by
  rw [nfOf]
  cases hl : ylookup ys yctx d.name with
  | none => rfl
  | some yd =>
      simp only []
      exact nf_name ys yd d

theorem nfL_eq_map (ys : YSpec) (yctx : Option YNode) :
    ∀ cls : List XNode, conformsKids ys yctx cls = true →
      nfL ys yctx cls = cls.map (nfOf ys yctx) := by
  intro cls
  induction cls with
  | nil =>
      intro _
      rw [nfL_nil]
      rfl
  | cons c rest ih =>
      intro h
      obtain ⟨⟨yc, hl, hc⟩, hrest⟩ := conformsKids_cons_parts ys yctx c rest h
      rw [nfL_cons, hl]
      simp only []
      rw [ih hrest, List.map_cons]
      show [nf ys yc c] ++ _ = nfOf ys yctx c :: _
      rw [nfOf, hl]
      rfl

theorem sibOk_irrefl (ys : YSpec) (yctx : Option YNode) (a : XNode) :
    ¬ sibOk ys yctx a a = true := by
  intro h
  rw [sibOk] at h
  have hb : (a.name == a.name) = true := by simp
  rw [hb] at h
  simp only [Bool.not_true, Bool.false_or] at h
  cases hl : ylookup ys yctx a.name with
  | none =>
      rw [hl] at h
      simp at h
  | some ya =>
      rw [hl] at h
      obtain ⟨yn, yk, ycs⟩ := ya
      cases yk with
      | ylist keys => simp [YNode.kind] at h
      | yleaflist => simp [YNode.kind] at h
      | yleaf => simp [YNode.kind] at h
      | ycontainer => simp [YNode.kind] at h

theorem distinctSibs_nodup (ys : YSpec) (yctx : Option YNode) :
    ∀ xs : List XNode, distinctSibs ys yctx xs = true → xs.Nodup := by
  intro xs
  induction xs with
  | nil => intro _; exact List.nodup_nil
  | cons c rest ih =>
      intro h
      obtain ⟨hall, hrest⟩ := distinctSibs_cons_parts ys yctx c rest h
      rw [List.nodup_cons]
      refine ⟨?_, ih hrest⟩
      intro hmem
      exact sibOk_irrefl ys yctx c (hall c hmem)

theorem distinctSibs_pairs (ys : YSpec) (yctx : Option YNode) :
    ∀ xs : List XNode, distinctSibs ys yctx xs = true →
      ∀ a ∈ xs, ∀ b ∈ xs, ¬ a = b →
        sibOk ys yctx a b = true ∨ sibOk ys yctx b a = true := by
  intro xs
  induction xs with
  | nil =>
      intro _ a ha
      cases ha
  | cons c rest ih =>
      intro h a ha b hb hne
      obtain ⟨hall, hrest⟩ := distinctSibs_cons_parts ys yctx c rest h
      cases ha with
      | head =>
          cases hb with
          | head => exact absurd rfl hne
          | tail _ hb2 => exact Or.inl (hall b hb2)
      | tail _ ha2 =>
          cases hb with
          | head => exact Or.inr (hall a ha2)
          | tail _ hb2 => exact ih hrest a ha2 b hb2 hne

theorem sibOk_leaf_same_name (ys : YSpec) (yctx : Option YNode) (a b : XNode)
    (ya : YNode) (hla : ylookup ys yctx a.name = some ya)
    (hkl : ya.kind = .yleaf) (hnm : a.name = b.name) :
    ¬ sibOk ys yctx a b = true := by
  intro h
  rw [sibOk] at h
  have hb : (a.name == b.name) = true := by
    rw [hnm]
    simp
  rw [hb] at h
  simp only [Bool.not_true, Bool.false_or] at h
  rw [hla] at h
  obtain ⟨yn, yk, ycs⟩ := ya
  have hk2 : yk = .yleaf := hkl
  subst hk2
  simp [YNode.kind] at h

/-- Each declared key of a list instance names exactly one child. -/
theorem key_child_unique (ys : YSpec) (y : YNode) (x : XNode)
    (keys : List CStr) (hk : y.kind = .ylist keys) (hwf : specWFY y = true)
    (hc : conforms ys y x = true) :
    ∀ d ∈ x.children, ∀ d2 ∈ x.children, d.name ∈ keys → d.name = d2.name →
      d = d2 := by
  intro d hd d2 hd2 hdk hnm
  by_contra hne
  obtain ⟨-, -, hkl⟩ := specWFY_list_keys y keys hk hwf
  obtain ⟨yk2, hfind, hkleaf⟩ := hkl d.name hdk
  have hld : ylookup ys (some y) d.name = some yk2 := hfind
  have hsibs := conforms_sibs ys y x hc
  cases distinctSibs_pairs ys (some y) x.children hsibs d hd d2 hd2 hne with
  | inl h => exact sibOk_leaf_same_name ys (some y) d d2 yk2 hld hkleaf hnm h
  | inr h =>
      exact sibOk_leaf_same_name ys (some y) d2 d yk2
        (by rw [← hnm]; exact hld) hkleaf hnm.symm h

theorem xml_find_mem_name (x : XNode) (k : CStr) (dk : XNode)
    (h : xml_find x k = some dk) : dk ∈ x.children ∧ dk.name = k := by
  rw [xml_find] at h
  exact ⟨List.mem_of_find?_eq_some h, by simpa using List.find?_some h⟩

theorem mem_contains_true (l : List CStr) (a : CStr) (h : a ∈ l) :
    l.contains a = true := by
  rw [List.contains_eq_any_beq, List.any_eq_true]
  exact ⟨a, h, by simp⟩

theorem nf_leaf_eq (ys : YSpec) (yd : YNode) (d : XNode)
    (hk : yd.kind = .yleaf) (hc : conforms ys yd d = true) :
    nf ys yd d = XNode.mk d.name d.body none [] := by
  have hnil := conforms_leaf_shape ys yd d hk hc
  obtain ⟨nm, bd, opA, cls⟩ := d
  have hcls : cls = [] := hnil
  subst hcls
  rw [nf_unfold, hk]
  simp only []
  rw [nfL_nil]
  rfl

/-- The key leaves `get` creates with a list instance are, up to order,
exactly the rebuilt images of the instance's key children. -/
theorem keyleaves_perm (ys : YSpec) (y : YNode) (x : XNode) (keys : List CStr)
    (hk : y.kind = .ylist keys) (hwf : specWFY y = true)
    (hc : conforms ys y x = true) :
    ((nfL ys (some y) x.children).filter
      (fun d => keys.contains d.name)).Perm
      ((kvsOf keys x).map (fun kv => XNode.mk kv.1 (some kv.2) none [])) := by
  have hpresent := conforms_keys_present ys y x keys hk hc
  have hfindsome : ∀ k ∈ keys, ∃ dk, xml_find x k = some dk := by
    intro k hk2
    have h1 := (hpresent k hk2).1
    cases hf : xml_find x k with
    | none =>
        rw [hf] at h1
        simp at h1
    | some dk => exact ⟨dk, rfl⟩
  have hkids := conforms_kids ys y x hc
  have hnodupkids := distinctSibs_nodup ys (some y) x.children
    (conforms_sibs ys y x hc)
  obtain ⟨hkne, hknd, hkl⟩ := specWFY_list_keys y keys hk hwf
  rw [nfL_eq_map ys (some y) x.children hkids]
  rw [List.filter_map]
  have hfc : List.filter ((fun d => keys.contains d.name) ∘ nfOf ys (some y))
      x.children = List.filter (fun d => keys.contains d.name) x.children := by
    apply List.filter_congr
    intro d hd
    show keys.contains (nfOf ys (some y) d).name = keys.contains d.name
    rw [nfOf_name]
  rw [hfc]
  have hchildperm : (x.children.filter (fun d => keys.contains d.name)).Perm
      (keys.map (fun k => (xml_find x k).getD dummyX)) := by
    apply (List.perm_ext_iff_of_nodup ?_ ?_).mpr
    · intro d
      constructor
      · intro hdmem
        rw [List.mem_filter] at hdmem
        have hdk : d.name ∈ keys := contains_true_mem _ _ hdmem.2
        obtain ⟨dk, hdkf⟩ := hfindsome d.name hdk
        obtain ⟨hdkmem, hdknm⟩ := xml_find_mem_name x d.name dk hdkf
        have hddk : d = dk := key_child_unique ys y x keys hk hwf hc d
          hdmem.1 dk hdkmem hdk hdknm.symm
        rw [List.mem_map]
        refine ⟨d.name, hdk, ?_⟩
        rw [hdkf]
        simp only [Option.getD_some]
        rw [hddk]
      · intro hdmem
        rw [List.mem_map] at hdmem
        obtain ⟨k, hk2, hdeq⟩ := hdmem
        obtain ⟨dk, hdkf⟩ := hfindsome k hk2
        rw [hdkf] at hdeq
        simp only [Option.getD_some] at hdeq
        subst hdeq
        obtain ⟨hdkmem, hdknm⟩ := xml_find_mem_name x k dk hdkf
        rw [List.mem_filter]
        exact ⟨hdkmem, by rw [hdknm]; exact mem_contains_true keys k hk2⟩
    · exact (List.filter_sublist _).nodup hnodupkids
    · apply List.Nodup.map_on ?_ hknd
      intro k1 hk1 k2 hk2m heq
      obtain ⟨d1, hd1⟩ := hfindsome k1 hk1
      obtain ⟨d2, hd2⟩ := hfindsome k2 hk2m
      rw [hd1, hd2] at heq
      simp only [Option.getD_some] at heq
      have hn1 := (xml_find_mem_name x k1 d1 hd1).2
      have hn2 := (xml_find_mem_name x k2 d2 hd2).2
      rw [← hn1, ← hn2, heq]
  have hperm2 := hchildperm.map (nfOf ys (some y))
  have hmapeq : (keys.map (fun k => (xml_find x k).getD dummyX)).map
      (nfOf ys (some y)) =
      (kvsOf keys x).map (fun kv => XNode.mk kv.1 (some kv.2) none []) := by
    rw [List.map_map, kvsOf, List.map_map]
    apply List.map_congr_left
    intro k hk2
    show nfOf ys (some y) ((xml_find x k).getD dummyX) =
      XNode.mk k (some (pctDecode (pctEncode
        (((xml_find x k).bind xml_body).getD nullStr)))) none []
    obtain ⟨dk, hdkf⟩ := hfindsome k hk2
    obtain ⟨hdkmem, hdknm⟩ := xml_find_mem_name x k dk hdkf
    obtain ⟨-, v, hv, hvok⟩ := hpresent k hk2
    rw [hdkf]
    simp only [Option.getD_some]
    obtain ⟨yk2, hfind2, hkleaf⟩ := hkl k hk2
    have hld : ylookup ys (some y) dk.name = some yk2 := by
      rw [hdknm]
      exact hfind2
    have hcdk : conforms ys yk2 dk = true := by
      obtain ⟨yd, hld2, hcd⟩ := conformsKids_mem ys (some y) x.children hkids
        dk hdkmem
      have hyd : yd = yk2 := by
        rw [hld] at hld2
        exact (Option.some.inj hld2).symm
      rw [← hyd]
      exact hcd
    rw [nfOf, hld]
    simp only []
    rw [nf_leaf_eq ys yk2 dk hkleaf hcdk]
    rw [hdkf] at hv
    simp only [Option.some_bind] at hv
    have hvb : dk.body = some v := hv
    rw [hdknm, hvb]
    simp only [Option.some_bind]
    rw [hv]
    simp only [Option.getD_some]
    rw [pctDecode_encode v hvok]
  exact hperm2.trans (by rw [hmapeq])

/-- Every conforming subtree is reproduced, up to child reordering, by its
rebuilt image (and likewise for child lists, pointwise). -/
theorem sim_nf : ∀ fuel : Nat,
    (∀ x : XNode, sizeOf x ≤ fuel → ∀ (ys : YSpec) (y : YNode),
      specWFY y = true → conforms ys y x = true → Sim x (nf ys y x)) ∧
    (∀ xs : List XNode, sizeOf xs ≤ fuel →
      ∀ (ys : YSpec) (yctx : Option YNode),
      ctxWF ys yctx = true → conformsKids ys yctx xs = true →
      SimL xs (nfL ys yctx xs)) := by
  intro fuel
  induction fuel with
  | zero =>
      constructor
      · intro x hx
        exfalso
        obtain ⟨nm, bd, opA, cls⟩ := x
        simp at hx
      · intro xs hxs
        exfalso
        cases xs with
        | nil => simp at hxs
        | cons c rest => simp at hxs
  | succ n ih =>
      constructor
      · intro x hx ys y hwf hconf
        have hszk : sizeOf x.children ≤ n := by
          obtain ⟨nm, bd, opA, cls⟩ := x
          simp at hx
          show sizeOf cls ≤ n
          omega
        have hsiml : SimL x.children (nfL ys (some y) x.children) :=
          (ih.2) x.children hszk ys (some y) hwf (conforms_kids ys y x hconf)
        refine Sim.mk x (nf ys y x) (nfL ys (some y) x.children)
          (nf_name ys y x) (nf_body ys y x) hsiml ?_
        cases hk : y.kind with
        | ycontainer =>
            rw [nf_container_children ys y x hk]
        | yleaf =>
            rw [nf_leaf_children ys y x hk]
        | yleaflist =>
            rw [nf_leaflist_children ys y x hk]
            rw [(conforms_leaflist_shape ys y x hk hconf).1, nfL_nil]
        | ylist keys =>
            rw [nf_list_children ys y x keys hk]
            have h1 := List.filter_append_perm (fun d => keys.contains d.name)
              (nfL ys (some y) x.children)
            have h2 := keyleaves_perm ys y x keys hk hwf hconf
            exact h1.symm.trans (h2.append (List.Perm.refl _))
      · intro xs hxs ys yctx hwfc hkids
        cases xs with
        | nil =>
            rw [nfL_nil]
            exact SimL.nil
        | cons c rest =>
            have hszc : sizeOf c ≤ n := by
              simp at hxs
              omega
            have hszr : sizeOf rest ≤ n := by
              simp at hxs
              omega
            obtain ⟨⟨yc, hl, hc⟩, hrest⟩ := conformsKids_cons_parts ys yctx c
              rest hkids
            rw [nfL_cons, hl]
            simp only []
            show SimL (c :: rest) (nf ys yc c :: nfL ys yctx rest)
            exact SimL.cons c (nf ys yc c) rest (nfL ys yctx rest)
              ((ih.1) c hszc ys yc (ylookup_wf ys yctx c.name yc hwfc hl) hc)
              ((ih.2) rest hszr ys yctx hwfc hrest)

/-- Claim C1: round trip.  For every tree whose top-level children conform
to the configured schema, writing it with `kv_put` (operation MERGE, from
the empty store) succeeds, reading the store back with `kv_get`
(unrestricted query path) succeeds, and the tree read back reproduces the
written tree's structure and body values exactly, up to reordering of
children (list instances carry their decoded key leaves first; default
injection and schema ordering are applied by out-of-scope collaborators
after this reconstruction). -/
theorem put_get_roundtrip (dir : CStr) (ys : YSpec) (tops : List XNode)
    (hwf : specWF ys = true)
    (hconf : conformsTop ys tops = true) :
    ∃ st : Store,
      kv_put ⟨some dir, some ys⟩ (cs "running") .merge
        (XNode.mk (cs "config") none none tops) [] = .ok st ∧
      kv_get ⟨some dir, some ys⟩ (cs "running") st =
        .ok (XNode.mk (cs "config") none none (nfL ys none tops)) ∧
      Sim (XNode.mk (cs "config") none none tops)
        (XNode.mk (cs "config") none none (nfL ys none tops)) := by
  rw [conformsTop, Bool.and_eq_true] at hconf
  obtain ⟨hkids, hsibs⟩ := hconf
  have hdb : kv_db2file ⟨some dir, some ys⟩ (cs "running") =
      .ok (dir ++ ('/' :: cs "running") ++ cs "_db") := by
    rw [kv_db2file]
    simp only []
    rw [if_pos (by decide)]
  refine ⟨entsL ys [] none tops, ?_, ?_, ?_⟩
  · show (match kv_db2file ⟨some dir, some ys⟩ (cs "running") with
          | Except.error e => Except.error e
          | Except.ok _ => putTops
              (if Op.merge = Op.replace then ([] : Store) else []) tops ys
              .merge)
        = Except.ok (entsL ys [] none tops)
    rw [hdb]
    show putTops (if Op.merge = Op.replace then ([] : Store) else []) tops ys
        .merge = Except.ok (entsL ys [] none tops)
    rw [if_neg (by decide)]
    have hnodup := (ents_keys_nodup (sizeOf tops)).2 tops (le_refl _) ys []
      none hwf hkids hsibs
    rw [putTops_writes_ents ys tops [] hkids hsibs (fun e he => rfl) hnodup]
    rfl
  · show (match kv_db2file ⟨some dir, some ys⟩ (cs "running") with
          | Except.error e => Except.error e
          | Except.ok _ => getAll ys (entsL ys [] none tops) configRoot)
        = Except.ok (XNode.mk (cs "config") none none (nfL ys none tops))
    rw [hdb]
    show getAll ys (entsL ys [] none tops) configRoot
        = Except.ok (XNode.mk (cs "config") none none (nfL ys none tops))
    exact getAll_entsL_top ys tops hwf hkids hsibs
  · refine Sim.mk _ _ (nfL ys none tops) rfl rfl ?_ ?_
    · exact (sim_nf (sizeOf tops)).2 tops (le_refl _) ys none hwf hkids
    · exact List.Perm.refl _

/-- Witness for C1 at a concrete schema and tree: a one-key list `a` with
key leaf `k` and payload leaf `v`, and one instance with `k = 1`,
`v = x`. -/
theorem put_get_roundtrip_witness :
    specWF [YNode.mk (cs "a") (.ylist [cs "k"])
        [YNode.mk (cs "k") .yleaf [], YNode.mk (cs "v") .yleaf []]] = true ∧
    conformsTop [YNode.mk (cs "a") (.ylist [cs "k"])
        [YNode.mk (cs "k") .yleaf [], YNode.mk (cs "v") .yleaf []]]
      [XNode.mk (cs "a") none none
        [XNode.mk (cs "k") (some (cs "1")) none [],
         XNode.mk (cs "v") (some (cs "x")) none []]] = true ∧
    (∃ st : Store,
      kv_put ⟨some (cs "d"), some [YNode.mk (cs "a") (.ylist [cs "k"])
          [YNode.mk (cs "k") .yleaf [], YNode.mk (cs "v") .yleaf []]]⟩
        (cs "running") .merge
        (XNode.mk (cs "config") none none
          [XNode.mk (cs "a") none none
            [XNode.mk (cs "k") (some (cs "1")) none [],
             XNode.mk (cs "v") (some (cs "x")) none []]]) [] = .ok st ∧
      kv_get ⟨some (cs "d"), some [YNode.mk (cs "a") (.ylist [cs "k"])
          [YNode.mk (cs "k") .yleaf [], YNode.mk (cs "v") .yleaf []]]⟩
        (cs "running") st =
        .ok (XNode.mk (cs "config") none none
          (nfL [YNode.mk (cs "a") (.ylist [cs "k"])
            [YNode.mk (cs "k") .yleaf [], YNode.mk (cs "v") .yleaf []]] none
            [XNode.mk (cs "a") none none
              [XNode.mk (cs "k") (some (cs "1")) none [],
               XNode.mk (cs "v") (some (cs "x")) none []]])) ∧
      Sim (XNode.mk (cs "config") none none
          [XNode.mk (cs "a") none none
            [XNode.mk (cs "k") (some (cs "1")) none [],
             XNode.mk (cs "v") (some (cs "x")) none []]])
        (XNode.mk (cs "config") none none
          (nfL [YNode.mk (cs "a") (.ylist [cs "k"])
            [YNode.mk (cs "k") .yleaf [], YNode.mk (cs "v") .yleaf []]] none
            [XNode.mk (cs "a") none none
              [XNode.mk (cs "k") (some (cs "1")) none [],
               XNode.mk (cs "v") (some (cs "x")) none []]]))) := by
  have hwf : specWF [YNode.mk (cs "a") (.ylist [cs "k"])
      [YNode.mk (cs "k") .yleaf [], YNode.mk (cs "v") .yleaf []]] = true := by
    rw [specWF, specWFL_cons, specWFY_unfold, specWFL_cons, specWFY_unfold,
      specWFL_cons, specWFY_unfold, specWFL_nil]
    decide
  have hck : conforms [YNode.mk (cs "a") (.ylist [cs "k"])
      [YNode.mk (cs "k") .yleaf [], YNode.mk (cs "v") .yleaf []]]
      (YNode.mk (cs "k") .yleaf [])
      (XNode.mk (cs "k") (some (cs "1")) none []) = true := by
    rw [conforms_unfold]
    decide
  have hcv : conforms [YNode.mk (cs "a") (.ylist [cs "k"])
      [YNode.mk (cs "k") .yleaf [], YNode.mk (cs "v") .yleaf []]]
      (YNode.mk (cs "v") .yleaf [])
      (XNode.mk (cs "v") (some (cs "x")) none []) = true := by
    rw [conforms_unfold]
    decide
  have hca : conforms [YNode.mk (cs "a") (.ylist [cs "k"])
      [YNode.mk (cs "k") .yleaf [], YNode.mk (cs "v") .yleaf []]]
      (YNode.mk (cs "a") (.ylist [cs "k"])
        [YNode.mk (cs "k") .yleaf [], YNode.mk (cs "v") .yleaf []])
      (XNode.mk (cs "a") none none
        [XNode.mk (cs "k") (some (cs "1")) none [],
         XNode.mk (cs "v") (some (cs "x")) none []]) = true := by
    rw [conforms_unfold]
    rw [conformsKids_cons]
    simp only [XNode.name]
    rw [show ylookup [YNode.mk (cs "a") (.ylist [cs "k"])
        [YNode.mk (cs "k") .yleaf [], YNode.mk (cs "v") .yleaf []]]
      (some (YNode.mk (cs "a") (.ylist [cs "k"])
        [YNode.mk (cs "k") .yleaf [], YNode.mk (cs "v") .yleaf []]))
      (cs "k") = some (YNode.mk (cs "k") .yleaf []) from rfl]
    simp only []
    rw [hck, conformsKids_cons]
    simp only [XNode.name]
    rw [show ylookup [YNode.mk (cs "a") (.ylist [cs "k"])
        [YNode.mk (cs "k") .yleaf [], YNode.mk (cs "v") .yleaf []]]
      (some (YNode.mk (cs "a") (.ylist [cs "k"])
        [YNode.mk (cs "k") .yleaf [], YNode.mk (cs "v") .yleaf []]))
      (cs "v") = some (YNode.mk (cs "v") .yleaf []) from rfl]
    simp only []
    rw [hcv, conformsKids_nil]
    decide
  have hct : conformsTop [YNode.mk (cs "a") (.ylist [cs "k"])
      [YNode.mk (cs "k") .yleaf [], YNode.mk (cs "v") .yleaf []]]
      [XNode.mk (cs "a") none none
        [XNode.mk (cs "k") (some (cs "1")) none [],
         XNode.mk (cs "v") (some (cs "x")) none []]] = true := by
    rw [conformsTop, conformsKids_cons]
    simp only [XNode.name]
    rw [show ylookup [YNode.mk (cs "a") (.ylist [cs "k"])
        [YNode.mk (cs "k") .yleaf [], YNode.mk (cs "v") .yleaf []]] none
      (cs "a") = some (YNode.mk (cs "a") (.ylist [cs "k"])
        [YNode.mk (cs "k") .yleaf [], YNode.mk (cs "v") .yleaf []]) from rfl]
    simp only []
    rw [hca, conformsKids_nil]
    decide
  exact ⟨hwf, hct, put_get_roundtrip (cs "d") _ _ hwf hct⟩

end KV
